import Mathlib

/-!
Verification development for `photo.c` (adventure game photo display).

Shallow embedding of the scanline compositor (`fill_horiz_buffer`) and of the
palette construction of `read_photo` (octree accumulation, `qsort` with
`cmpfunc`, subtraction, averaging) together with `determinePaletteValue`.

Conventions of the embedding.
* C `int` values are `Int`. Where the source adds or subtracts values whose
  result can leave the 32-bit range, the result wraps explicitly (`wrap32`, two's
  complement): the sums `x + SCROLL_X_DIM`, `y + SCROLL_Y_DIM`, `obj_x + width`
  and `obj_y + height` of the culling tests of the two fill routines, and the
  difference of two counts in `cmpfunc`. The remaining `int` expressions
  (indices, offsets, sums of the octree nodes) are exact.
* The header fields `width`/`height` (`uint16_t` in `photo_headers.h`) are
  `Nat` and promote to `int`.
* Bytes (`uint8_t`, `unsigned char`) and 16-bit pixels are `Nat`.
* A memory block (`uint8_t*`) is a `List Nat`; a read or write outside the
  block is undefined behaviour in C and is the fault `none` here.
* Constants that live in headers outside this source tree
  (`SCROLL_X_DIM`, `OBJ_CLR_TRANSP` from `modex.h`) are parameters.
-/

namespace Photo

/-! # Part I: definitions -/

/-! ## Data model -/

/-- Modelled from the spec: the header of a photo or object image
(`photo_header_t` of `photo_headers.h`, not in the source tree) holds the two
unsigned integers width and height. -/
structure photo_header_t where
  width : Nat
  height : Nat
  deriving DecidableEq, Repr

/-- A room photo (`struct photo_t`): header, 192 x 3 palette bytes stored
consecutively, and one palette-index byte per pixel, row-major from the top. -/
structure photo_t where
  hdr : photo_header_t
  palette : List Nat
  img : List Nat
  deriving DecidableEq, Repr

/-- An object image (`struct image_t`): header and one 2:2:2 RGB byte per
pixel, row-major from the top. -/
structure image_t where
  hdr : photo_header_t
  img : List Nat
  deriving DecidableEq, Repr

/-- Modelled from the spec: what the compositor reads of an object of the room
(`obj_get_x`, `obj_get_y`, `obj_image` of `world.h`, not in the source tree): the
top-left map coordinate and the image. -/
structure object_t where
  obj_x : Int
  obj_y : Int
  image : image_t
  deriving DecidableEq, Repr

/-- Modelled from the spec: what the compositor reads of the current room
(`room_photo`, `room_contents_iterate` / `obj_next` of `world.h`, not in the
source tree): the photo and the objects in iteration order. -/
structure room_t where
  photo : photo_t
  contents : List object_t
  deriving DecidableEq, Repr

/-! ## Machine integers -/

/-- Two's complement wrap of an integer result to a 32-bit C `int`. -/
def wrap32 (v : Int) : Int := (v + 2147483648) % 4294967296 - 2147483648

/-- The value `v` is one a 32-bit C `int` holds. -/
def int_range (v : Int) : Prop := -2147483648 ≤ v ∧ v ≤ 2147483647

instance (v : Int) : Decidable (int_range v) := by
  unfold int_range; infer_instance

/-! ## Memory access -/

/-- Read `mem[i]` for a C `int` index; `none` when the index is outside the block. -/
def readAt (mem : List Nat) (i : Int) : Option Nat :=
  if 0 ≤ i then mem[i.toNat]? else none

/-- Write `mem[i] = v` for a C `int` index; `none` when the index is outside the block. -/
def writeAt (mem : List Nat) (i : Int) (v : Nat) : Option (List Nat) :=
  if 0 ≤ i ∧ i < (mem.length : Int) then some (mem.set i.toNat v) else none

/-! ## `fill_horiz_buffer` -/

/-- The value the first loop of `fill_horiz_buffer` stores into `buf[idx]`:
`(0 <= x + idx && view->hdr.width > x + idx ? view->img[view->hdr.width * y + x + idx] : 0)`. -/
def horiz_background (view : photo_t) (x y : Int) (idx : Nat) : Option Nat :=
  if 0 ≤ x + (idx : Int) ∧ (view.hdr.width : Int) > x + (idx : Int) then
    readAt view.img ((view.hdr.width : Int) * y + x + (idx : Int))
  else some 0

/-- The loop `for (idx = 0; idx < SCROLL_X_DIM; idx++) buf[idx] = ...;` with `n`
iterations left to run from index `idx`. -/
def horiz_background_loop (view : photo_t) (x y : Int) :
    Nat → Nat → List Nat → Option (List Nat)
  | 0, _, buf => some buf
  | n + 1, idx, buf =>
    match horiz_background view x y idx with
    | none => none
    | some v =>
      match writeAt buf (idx : Int) v with
      | none => none
      | some buf1 => horiz_background_loop view x y n (idx + 1) buf1

/-- The copy loop of `fill_horiz_buffer`,
`for (; SCROLL_X_DIM > idx && img->hdr.width > imgx; idx++, imgx++)`,
run with a bound `fuel` on the number of condition tests (`none` when the
bound is exhausted or when an access leaves its block). -/
def horiz_copy_loop (SCROLL_X_DIM OBJ_CLR_TRANSP : Nat) (img : image_t) (yoff : Int) :
    Nat → Int → Int → List Nat → Option (List Nat)
  | 0, _, _, _ => none
  | fuel + 1, idx, imgx, buf =>
    if (SCROLL_X_DIM : Int) > idx ∧ (img.hdr.width : Int) > imgx then
      match readAt img.img (yoff + imgx) with
      | none => none
      | some pixel =>
        if OBJ_CLR_TRANSP ≠ pixel then
          match writeAt buf idx pixel with
          | none => none
          | some buf1 =>
            horiz_copy_loop SCROLL_X_DIM OBJ_CLR_TRANSP img yoff fuel (idx + 1) (imgx + 1) buf1
        else
          horiz_copy_loop SCROLL_X_DIM OBJ_CLR_TRANSP img yoff fuel (idx + 1) (imgx + 1) buf
    else some buf

/-- The loop over the objects of the current room in `fill_horiz_buffer`:
cull the object against the line, compute `yoff`, `idx`, `imgx`, copy. The three
sums of the culling test are computed in 32-bit `int` and wrap on overflow. -/
def horiz_objects_loop (SCROLL_X_DIM OBJ_CLR_TRANSP : Nat) (x y : Int) :
    List object_t → List Nat → Option (List Nat)
  | [], buf => some buf
  | obj :: rest, buf =>
    let obj_x := obj.obj_x
    let obj_y := obj.obj_y
    let img := obj.image
    if y < obj_y ∨ y ≥ wrap32 (obj_y + (img.hdr.height : Int)) ∨
        wrap32 (x + (SCROLL_X_DIM : Int)) ≤ obj_x ∨ x ≥ wrap32 (obj_x + (img.hdr.width : Int)) then
      horiz_objects_loop SCROLL_X_DIM OBJ_CLR_TRANSP x y rest buf
    else
      let yoff := (y - obj_y) * (img.hdr.width : Int)
      let idx := if x ≤ obj_x then obj_x - x else 0
      let imgx := if x ≤ obj_x then 0 else x - obj_x
      match horiz_copy_loop SCROLL_X_DIM OBJ_CLR_TRANSP img yoff (SCROLL_X_DIM + 1) idx imgx buf with
      | none => none
      | some buf1 => horiz_objects_loop SCROLL_X_DIM OBJ_CLR_TRANSP x y rest buf1

/-- Model of `fill_horiz_buffer (x, y, buf)` on the current room `cur_room`:
the caller's buffer `buf` is overwritten and returned. -/
def fill_horiz_buffer (SCROLL_X_DIM OBJ_CLR_TRANSP : Nat) (cur_room : room_t)
    (x y : Int) (buf : List Nat) : Option (List Nat) :=
  match horiz_background_loop cur_room.photo x y SCROLL_X_DIM 0 buf with
  | none => none
  | some buf1 => horiz_objects_loop SCROLL_X_DIM OBJ_CLR_TRANSP x y cur_room.contents buf1

/-! ## The naive per-pixel composite (specification side) -/

/-- Clipped background value at map coordinate `(mx, y)`: the photo pixel
if `0 <= mx < width`, else `0`. -/
def naive_background (view : photo_t) (mx y : Int) : Nat :=
  if 0 ≤ mx ∧ mx < (view.hdr.width : Int) then
    view.img.getD ((view.hdr.width : Int) * y + mx).toNat 0
  else 0

/-- The image of `obj` covers map coordinate `(mx, y)`. -/
def covers (obj : object_t) (mx y : Int) : Prop :=
  obj.obj_x ≤ mx ∧ mx < obj.obj_x + (obj.image.hdr.width : Int) ∧
  obj.obj_y ≤ y ∧ y < obj.obj_y + (obj.image.hdr.height : Int)

instance (obj : object_t) (mx y : Int) : Decidable (covers obj mx y) := by
  unfold covers; infer_instance

/-- The pixel of the image of `obj` at map coordinate `(mx, y)`. -/
def object_pixel (obj : object_t) (mx y : Int) : Nat :=
  obj.image.img.getD ((y - obj.obj_y) * (obj.image.hdr.width : Int) + (mx - obj.obj_x)).toNat 0

/-- One step of the naive composite: an object that covers the coordinate with
a non-transparent pixel replaces the value. -/
def naive_overlay (OBJ_CLR_TRANSP : Nat) (mx y : Int) (v : Nat) (obj : object_t) : Nat :=
  if covers obj mx y ∧ object_pixel obj mx y ≠ OBJ_CLR_TRANSP then object_pixel obj mx y else v

/-- The naive per-pixel composite for output position `i` of the line anchored at `(x, y)`. -/
def naive_horiz (OBJ_CLR_TRANSP : Nat) (room : room_t) (x y : Int) (i : Nat) : Nat :=
  room.contents.foldl (naive_overlay OBJ_CLR_TRANSP (x + (i : Int)) y)
    (naive_background room.photo (x + (i : Int)) y)

/-- The pixel blocks of a room have the sizes their headers declare. -/
def room_wf (room : room_t) : Prop :=
  room.photo.img.length = room.photo.hdr.width * room.photo.hdr.height ∧
  ∀ obj ∈ room.contents, obj.image.img.length = obj.image.hdr.width * obj.image.hdr.height

/-! ## Octree nodes and the accumulation pass of `read_photo` -/

/-- An octree accumulator (`struct Node` of `photo.c`): channel sums, sample
count, index of the parent in level 2 (0 for a level 2 node). The fields are C
`int`s and are modelled as exact integers; for the at most 1024 x 1024 samples
`read_photo` accepts no sum reaches 2^31. (The declaration of the struct in
`photo.h` has one more field, `index_`, which `photo.c` never reads or writes.) -/
structure Node where
  rSum_ : Int
  gSum_ : Int
  bSum_ : Int
  count_ : Int
  parent_ : Int
  deriving DecidableEq, Repr

/-- The initial node `init` of `read_photo`: all fields zero. -/
def init : Node := ⟨0, 0, 0, 0, 0⟩

/-- Red channel of a 5:6:5 pixel: `(pixel>>11)&0x001F`. -/
def red (pixel : Nat) : Nat := (pixel >>> 11) &&& 0x001F

/-- Green channel of a 5:6:5 pixel: `(pixel>>5)&0x003F`. -/
def green (pixel : Nat) : Nat := (pixel >>> 5) &&& 0x003F

/-- Blue channel of a 5:6:5 pixel: `pixel&0x001F`. -/
def blue (pixel : Nat) : Nat := pixel &&& 0x001F

/-- Index into level 4 of the octree, `0000RRRRGGGGBBBB`:
`((((pixel>>12)&0xF)<<8)|(((pixel>>7)&0xF)<<4)|((pixel>>1)&0xF))`. -/
def index4 (pixel : Nat) : Nat :=
  ((((pixel >>> 12) &&& 0xF) <<< 8) ||| (((pixel >>> 7) &&& 0xF) <<< 4) ||| ((pixel >>> 1) &&& 0xF))

/-- Index into level 2 of the octree, `0000000000RRGGBB`:
`((((pixel>>14)&0x3)<<4)|(((pixel>>9)&0x3)<<2)|((pixel>>3)&0x3))`. -/
def index2 (pixel : Nat) : Nat :=
  ((((pixel >>> 14) &&& 0x3) <<< 4) ||| (((pixel >>> 9) &&& 0x3) <<< 2) ||| ((pixel >>> 3) &&& 0x3))

/-- Apply `f` to the entry `table[i]` of an array of nodes (no entry changes
when `i` is outside the array). -/
def updateAt (f : Node → Node) : Nat → List Node → List Node
  | _, [] => []
  | 0, a :: l => f a :: l
  | i + 1, a :: l => a :: updateAt f i l

/-- The four statements on `octree4[index]` for one pixel: count, three sums, parent. -/
def add_fine (pixel : Nat) (n : Node) : Node :=
  { rSum_ := n.rSum_ + (red pixel : Int)
    gSum_ := n.gSum_ + (green pixel : Int)
    bSum_ := n.bSum_ + (blue pixel : Int)
    count_ := n.count_ + 1
    parent_ := (index2 pixel : Int) }

/-- The statements on `octree2[index2]` for one pixel: count, three sums, parent 0. -/
def add_coarse (pixel : Nat) (n : Node) : Node :=
  { rSum_ := n.rSum_ + (red pixel : Int)
    gSum_ := n.gSum_ + (green pixel : Int)
    bSum_ := n.bSum_ + (blue pixel : Int)
    count_ := n.count_ + 1
    parent_ := 0 }

/-- Body of the pixel loop of the first pass of `read_photo` on the pair
`(octree4, octree2)`. -/
def accumulate_pixel (trees : List Node × List Node) (pixel : Nat) : List Node × List Node :=
  (updateAt (add_fine pixel) (index4 pixel) trees.1,
   updateAt (add_coarse pixel) (index2 pixel) trees.2)

/-- The first pass of `read_photo` over the samples in file order, from the
zero-initialised tables `octree4[8*8*8*8]` and `octree2[8*8]`. -/
def accumulate (pixels : List Nat) : List Node × List Node :=
  pixels.foldl accumulate_pixel (List.replicate (8*8*8*8) init, List.replicate (8*8) init)

/-! ## Sorting with `cmpfunc` -/

/-- The comparator `cmpfunc`: `b->count_ - a->count_` computed in `int`. -/
def cmpfunc (a b : Node) : Int := wrap32 (b.count_ - a.count_)

/-- Contract of the C library call `qsort(octree4, 8*8*8*8, sizeof(Node), cmpfunc)`:
the array is rearranged (a permutation) into ascending order of the comparator,
i.e. an element never compares greater than a later one. -/
def qsort_post (cmp : Node → Node → Int) (input output : List Node) : Prop :=
  output.Perm input ∧ output.Pairwise (fun a b => cmp a b ≤ 0)

/-- A concrete sorting function meeting the contract on the tables `read_photo`
produces: merge sort by descending count. -/
def sort_desc (table : List Node) : List Node :=
  table.mergeSort (fun a b => decide (b.count_ ≤ a.count_))

/-! ## Subtraction and averaging -/

/-- The four statements of the subtraction loop body on `octree2[parent_]`. -/
def sub_node (n : Node) (c : Node) : Node :=
  { c with
    rSum_ := c.rSum_ - n.rSum_
    gSum_ := c.gSum_ - n.gSum_
    bSum_ := c.bSum_ - n.bSum_
    count_ := c.count_ - n.count_ }

/-- The loop `for (i=0;i<128;i++)` removing the contribution of `octree4[i]`
from `octree2[octree4[i].parent_]`, with `n` iterations left from `i`;
`none` when an index leaves its array. -/
def subtract_loop (octree4 : List Node) : Nat → Nat → List Node → Option (List Node)
  | 0, _, octree2 => some octree2
  | n + 1, i, octree2 =>
    match octree4[i]? with
    | none => none
    | some nd =>
      if 0 ≤ nd.parent_ ∧ nd.parent_ < (octree2.length : Int) then
        subtract_loop octree4 n (i + 1) (updateAt (sub_node nd) nd.parent_.toNat octree2)
      else none

/-- The byte stored at flat palette position `i` (`0 <= i < 3*192`):
channel `i%3` of `octree2[i/3]` for `i < 3*64`, of `octree4[(i/3)-64]` otherwise,
as `sum / count` in C `int` arithmetic converted to `uint8_t`. A zero count is a
division by zero, the fault `none`. (The source writes the three tests as
`i%3 = 0`, `i%3 = 1`, `i%3 = 2` and the store as `*(p->palette+i)`; they are
read as the comparisons and as byte `i` of the palette.) -/
def palette_byte (octree2 octree4 : List Node) (i : Nat) : Option Nat :=
  match (if i < 3 * 64 then octree2[i / 3]? else octree4[i / 3 - 64]?) with
  | none => none
  | some nd =>
    if nd.count_ = 0 then none
    else
      let sum := if i % 3 = 0 then nd.rSum_ else if i % 3 = 1 then nd.gSum_ else nd.bSum_
      some ((sum.tdiv nd.count_) % 256).toNat

/-- The loop `for (i=0;i<(3*192);i++)` filling the palette, with `n` bytes left from `i`. -/
def fill_palette (octree2 octree4 : List Node) : Nat → Nat → Option (List Nat)
  | 0, _ => some []
  | n + 1, i =>
    match palette_byte octree2 octree4 i with
    | none => none
    | some b =>
      match fill_palette octree2 octree4 n (i + 1) with
      | none => none
      | some rest => some (b :: rest)

/-- Palette construction of `read_photo` on the sample stream `pixels`:
accumulate, sort level 4 with `qsort`, subtract the first 128 level 4 nodes
from their parents, average. The library function `qsort` (with `cmpfunc`)
is the parameter `qsort`. -/
def build_palette (qsort : List Node → List Node) (pixels : List Nat) : Option (List Nat) :=
  let octree4 := qsort (accumulate pixels).1
  match subtract_loop octree4 128 0 (accumulate pixels).2 with
  | none => none
  | some octree2 => fill_palette octree2 octree4 (3 * 192) 0

/-! ## `determinePaletteValue` -/

/-- The 6-bit value returned on the fallback path before the offset:
`(uint8_t)((((pixel>>14)&0x3)<<4)|(((pixel>>9)&0x3)<<2)|((pixel>>3)&0x3))`. -/
def coarse_key (pixel : Nat) : Nat :=
  ((((pixel >>> 14) &&& 0x3) <<< 4) ||| (((pixel >>> 9) &&& 0x3) <<< 2) ||| ((pixel >>> 3) &&& 0x3)) % 256

/-- The loop of `determinePaletteValue` over the flat palette, with `n`
iterations left from `i`. `none` when a read leaves the palette or when the
loop ends without executing a `return`. -/
def determinePaletteValue_loop (pixel : Nat) (palette : List Nat) : Nat → Nat → Option Nat
  | 0, _ => none
  | n + 1, i =>
    match palette[i * 3]? with
    | none => none
    | some r =>
      if r = red pixel then
        match palette[i * 3 + 1]? with
        | none => none
        | some g =>
          if g = green pixel then
            match palette[i * 3 + 2]? with
            | none => none
            | some b =>
              if b = blue pixel then some ((i + 64) % 256)
              else determinePaletteValue_loop pixel palette n (i + 1)
          else determinePaletteValue_loop pixel palette n (i + 1)
      else some ((coarse_key pixel + 64) % 256)

/-- Model of `determinePaletteValue(pixel, palette)`: the loop `for (i = 0; i < 192; i++)`. -/
def determinePaletteValue (pixel : Nat) (palette : List Nat) : Option Nat :=
  determinePaletteValue_loop pixel palette 192 0

/-! ## Specification-side description of the accumulated tables -/

/-- The four accumulated quantities of a node: the three channel sums and the count. -/
inductive Chan where
  | r
  | g
  | b
  | n
  deriving DecidableEq, Repr

/-- The field of a node holding quantity `ch`. -/
def Node.get (nd : Node) : Chan → Int
  | Chan.r => nd.rSum_
  | Chan.g => nd.gSum_
  | Chan.b => nd.bSum_
  | Chan.n => nd.count_

/-- What one sample contributes to quantity `ch`: its full-precision channel
value, or 1 for the count. -/
def weight (pixel : Nat) : Chan → Int
  | Chan.r => (red pixel : Int)
  | Chan.g => (green pixel : Int)
  | Chan.b => (blue pixel : Int)
  | Chan.n => 1

/-- Total of quantity `ch` over the samples that satisfy `sel`. -/
def total (ch : Chan) (sel : Nat → Bool) (pixels : List Nat) : Int :=
  ((pixels.filter sel).map (fun p => weight p ch)).sum

/-- The level 2 index as a function of the level 4 index `k`: the top two bits
of each 4-bit field. -/
def parent_of (k : Nat) : Nat :=
  ((k / 1024) % 4) * 16 + ((k / 64) % 4) * 4 + (k / 4) % 4

/-- The level 4 node for key `k` described from the sample stream: totals over
the samples with level 4 index `k`, and their common level 2 index as parent. -/
def fine_node (pixels : List Nat) (k : Nat) : Node :=
  { rSum_ := total Chan.r (fun p => index4 p = k) pixels
    gSum_ := total Chan.g (fun p => index4 p = k) pixels
    bSum_ := total Chan.b (fun p => index4 p = k) pixels
    count_ := total Chan.n (fun p => index4 p = k) pixels
    parent_ := if pixels.any (fun p => index4 p = k) then (parent_of k : Int) else 0 }

/-- The level 2 node for key `c` described from the sample stream. -/
def coarse_node (pixels : List Nat) (c : Nat) : Node :=
  { rSum_ := total Chan.r (fun p => index2 p = c) pixels
    gSum_ := total Chan.g (fun p => index2 p = c) pixels
    bSum_ := total Chan.b (fun p => index2 p = c) pixels
    count_ := total Chan.n (fun p => index2 p = c) pixels
    parent_ := 0 }

/-! ## Specification-side description of palette entries -/

/-- Integer mean `sum / count` rounded down, as a palette byte. -/
def mean (sum count : Int) : Nat := (sum / count).toNat

/-- The colour `(r, g, b)` lies in level 2 region `c`: the top two bits of its
channels are the three 2-bit fields of `c`. -/
def in_region (r g b c : Nat) : Prop :=
  8 * (c / 16) ≤ r ∧ r ≤ 8 * (c / 16) + 7 ∧
  16 * (c / 4 % 4) ≤ g ∧ g ≤ 16 * (c / 4 % 4) + 15 ∧
  8 * (c % 4) ≤ b ∧ b ≤ 8 * (c % 4) + 7

/-- The colour `(r, g, b)` lies in level 4 bucket `k`: the top four bits of
its channels are the three 4-bit fields of `k`. -/
def in_bucket (r g b k : Nat) : Prop :=
  r / 2 = k / 256 ∧ g / 4 = k / 16 % 16 ∧ b / 2 = k % 16

/-! ## A sample image on which the palette construction completes -/

/-- The darkest pixel of level 2 region `c`. -/
def region_base (c : Nat) : Nat :=
  (c / 16) * 16384 + (c / 4 % 4) * 512 + (c % 4) * 8

/-- A 321-sample stream: in each of the 64 level 2 regions two level 4
buckets with two samples each and one bucket with a single sample, then one
more sample of the darkest colour of region 63, whose bucket so holds three. -/
def sample_image : List Nat :=
  (List.range 64).flatMap (fun c =>
    [region_base c, region_base c, region_base c + 4096, region_base c + 4096,
      region_base c + 8192]) ++ [region_base 63]

/-- The 128 level 4 keys that hold at least two samples of `sample_image`. -/
def sample_keys : List Nat :=
  (List.range 64).flatMap (fun c => [index4 (region_base c), index4 (region_base c + 4096)])

/-- The sample of `sample_image` that is alone in its level 4 bucket, for region `c`. -/
def sample_lone (c : Nat) : Nat := region_base c + 8192

/-! ## Concrete inputs used as witnesses -/

/-- A 20 x 2 photo whose pixel at flat position `n` is `100 + n`. -/
def demo_photo : photo_t := ⟨⟨20, 2⟩, [], (List.range 40).map (fun n => 100 + n)⟩

/-- A 3 x 2 object image with one transparent pixel (value 64). -/
def demo_image : image_t := ⟨⟨3, 2⟩, [7, 64, 9, 1, 2, 3]⟩

/-- A room with `demo_photo` and four overlapping objects, some of them cut by
the left edge or by the row. -/
def demo_room : room_t :=
  ⟨demo_photo, [⟨-1, 0, demo_image⟩, ⟨8, -1, demo_image⟩, ⟨3, 0, demo_image⟩, ⟨4, 0, demo_image⟩]⟩

/-- The room with `demo_photo` and no objects. -/
def empty_room : room_t := ⟨demo_photo, []⟩

/-! ## Naming the sorted nodes by their keys -/

/-- The array `sorted` holds the entries of `table` in the order `idx` of
their original indices: `sorted[j]` is `table[idx[j]]`, and `idx` lists every
index once. This names the bucket that `qsort` moved to position `j`. -/
def rearranged_by (table sorted : List Node) (idx : List Nat) : Prop :=
  idx.Perm (List.range table.length) ∧ sorted = idx.map (fun k => table.getD k init)

/-- The level 2 index written from the channels: the top 2 bits of red, of
green and of blue. -/
def coarse_of_channels (pixel : Nat) : Nat :=
  ((red pixel >>> 3) <<< 4) ||| ((green pixel >>> 4) <<< 2) ||| (blue pixel >>> 3)

/-- The level 4 index written from the channels: the top 4 bits of red, of
green and of blue. -/
def fine_of_channels (pixel : Nat) : Nat :=
  ((red pixel >>> 1) <<< 8) ||| ((green pixel >>> 2) <<< 4) ||| (blue pixel >>> 1)

/-! ## `fill_vert_buffer` -/

/-- The value the first loop of `fill_vert_buffer` stores into `buf[idx]`:
`(0 <= y + idx && view->hdr.height > y + idx ? view->img[view->hdr.width * (y + idx) + x] : 0)`. -/
def vert_background (view : photo_t) (x y : Int) (idx : Nat) : Option Nat :=
  if 0 ≤ y + (idx : Int) ∧ (view.hdr.height : Int) > y + (idx : Int) then
    readAt view.img ((view.hdr.width : Int) * (y + (idx : Int)) + x)
  else some 0

/-- The loop `for (idx = 0; idx < SCROLL_Y_DIM; idx++) buf[idx] = ...;` of
`fill_vert_buffer` with `n` iterations left to run from index `idx`. -/
def vert_background_loop (view : photo_t) (x y : Int) :
    Nat → Nat → List Nat → Option (List Nat)
  | 0, _, buf => some buf
  | n + 1, idx, buf =>
    match vert_background view x y idx with
    | none => none
    | some v =>
      match writeAt buf (idx : Int) v with
      | none => none
      | some buf1 => vert_background_loop view x y n (idx + 1) buf1

/-- The copy loop of `fill_vert_buffer`,
`for (; SCROLL_Y_DIM > idx && img->hdr.height > imgy; idx++, imgy++)`,
reading `img->img[xoff + img->hdr.width * imgy]`, run with a bound `fuel` on the
number of condition tests (`none` when the bound is exhausted or when an access
leaves its block). -/
def vert_copy_loop (SCROLL_Y_DIM OBJ_CLR_TRANSP : Nat) (img : image_t) (xoff : Int) :
    Nat → Int → Int → List Nat → Option (List Nat)
  | 0, _, _, _ => none
  | fuel + 1, idx, imgy, buf =>
    if (SCROLL_Y_DIM : Int) > idx ∧ (img.hdr.height : Int) > imgy then
      match readAt img.img (xoff + (img.hdr.width : Int) * imgy) with
      | none => none
      | some pixel =>
        if OBJ_CLR_TRANSP ≠ pixel then
          match writeAt buf idx pixel with
          | none => none
          | some buf1 =>
            vert_copy_loop SCROLL_Y_DIM OBJ_CLR_TRANSP img xoff fuel (idx + 1) (imgy + 1) buf1
        else
          vert_copy_loop SCROLL_Y_DIM OBJ_CLR_TRANSP img xoff fuel (idx + 1) (imgy + 1) buf
    else some buf

/-- The loop over the objects of the current room in `fill_vert_buffer`:
cull the object against the column, compute `xoff`, `idx`, `imgy`, copy. The
three sums of the culling test are computed in 32-bit `int` and wrap on overflow. -/
def vert_objects_loop (SCROLL_Y_DIM OBJ_CLR_TRANSP : Nat) (x y : Int) :
    List object_t → List Nat → Option (List Nat)
  | [], buf => some buf
  | obj :: rest, buf =>
    let obj_x := obj.obj_x
    let obj_y := obj.obj_y
    let img := obj.image
    if x < obj_x ∨ x ≥ wrap32 (obj_x + (img.hdr.width : Int)) ∨
        wrap32 (y + (SCROLL_Y_DIM : Int)) ≤ obj_y ∨ y ≥ wrap32 (obj_y + (img.hdr.height : Int)) then
      vert_objects_loop SCROLL_Y_DIM OBJ_CLR_TRANSP x y rest buf
    else
      let xoff := x - obj_x
      let idx := if y ≤ obj_y then obj_y - y else 0
      let imgy := if y ≤ obj_y then 0 else y - obj_y
      match vert_copy_loop SCROLL_Y_DIM OBJ_CLR_TRANSP img xoff (SCROLL_Y_DIM + 1) idx imgy buf with
      | none => none
      | some buf1 => vert_objects_loop SCROLL_Y_DIM OBJ_CLR_TRANSP x y rest buf1

/-- Model of `fill_vert_buffer (x, y, buf)` on the current room `cur_room`
(`SCROLL_Y_DIM` of `modex.h` is a parameter). -/
def fill_vert_buffer (SCROLL_Y_DIM OBJ_CLR_TRANSP : Nat) (cur_room : room_t)
    (x y : Int) (buf : List Nat) : Option (List Nat) :=
  match vert_background_loop cur_room.photo x y SCROLL_Y_DIM 0 buf with
  | none => none
  | some buf1 => vert_objects_loop SCROLL_Y_DIM OBJ_CLR_TRANSP x y cur_room.contents buf1

/-! ## The naive per-pixel composite of a column (specification side) -/

/-- Clipped background value of a column at map coordinate `(x, my)`: the photo
pixel if `0 <= my < height`, else `0`. -/
def naive_background_col (view : photo_t) (x my : Int) : Nat :=
  if 0 ≤ my ∧ my < (view.hdr.height : Int) then
    view.img.getD ((view.hdr.width : Int) * my + x).toNat 0
  else 0

/-- The naive per-pixel composite for output position `i` of the column anchored at `(x, y)`. -/
def naive_vert (OBJ_CLR_TRANSP : Nat) (room : room_t) (x y : Int) (i : Nat) : Nat :=
  room.contents.foldl (naive_overlay OBJ_CLR_TRANSP x (y + (i : Int)))
    (naive_background_col room.photo x (y + (i : Int)))

/-- The object `obj` paints map coordinate `(mx, y)`: its image covers the
coordinate with a pixel different from `OBJ_CLR_TRANSP`. -/
def paints (OBJ_CLR_TRANSP : Nat) (obj : object_t) (mx y : Int) : Prop :=
  covers obj mx y ∧ object_pixel obj mx y ≠ OBJ_CLR_TRANSP

/-! ## The iterations of the copy loop of `fill_horiz_buffer` -/

/-- The values `(idx, imgx)` with which the body of the copy loop
`for (; SCROLL_X_DIM > idx && img->hdr.width > imgx; idx++, imgx++)` runs, in
order, with the same bound `fuel` on the condition tests as `horiz_copy_loop`. -/
def horiz_copy_iterations (SCROLL_X_DIM width : Nat) : Nat → Int → Int → List (Int × Int)
  | 0, _, _ => []
  | fuel + 1, idx, imgx =>
    if (SCROLL_X_DIM : Int) > idx ∧ (width : Int) > imgx then
      (idx, imgx) :: horiz_copy_iterations SCROLL_X_DIM width fuel (idx + 1) (imgx + 1)
    else []

/-- The body of the copy loop of `fill_horiz_buffer` at one iteration `(idx, imgx)`. -/
def horiz_copy_body (OBJ_CLR_TRANSP : Nat) (img : image_t) (yoff : Int)
    (buf : List Nat) (it : Int × Int) : Option (List Nat) :=
  match readAt img.img (yoff + it.2) with
  | none => none
  | some pixel => if OBJ_CLR_TRANSP ≠ pixel then writeAt buf it.1 pixel else some buf

/-- Run the loop body over a list of iterations, stopping at the first fault. -/
def run_iterations (body : List Nat → Int × Int → Option (List Nat)) :
    List (Int × Int) → List Nat → Option (List Nat)
  | [], buf => some buf
  | it :: rest, buf =>
    match body buf it with
    | none => none
    | some buf1 => run_iterations body rest buf1

/-! ## Image files and the loaders -/

/-- Limits on the size of room photos and object images (`photo.h`). -/
def MAX_PHOTO_WIDTH : Nat := 1024

/-- Limit on the height of room photos (`photo.h`). -/
def MAX_PHOTO_HEIGHT : Nat := 1024

/-- Limit on the width of object images (`photo.h`). -/
def MAX_OBJECT_WIDTH : Nat := 160

/-- Limit on the height of object images (`photo.h`). -/
def MAX_OBJECT_HEIGHT : Nat := 100

/-- Modelled from the spec: an object image file as `read_obj_image` reads it,
the file being open. The layout of the header (`photo_header_t` of
`photo_headers.h`) is not in the source tree: `hdr` is what `fread (&img->hdr, sizeof (img->hdr), 1, in)`
delivers, `none` when the header is not fully readable; `data` are the pixel
bytes that follow the header. -/
structure image_file where
  hdr : Option photo_header_t
  data : List Nat
  deriving DecidableEq, Repr

/-- Modelled from the spec: a photo file as `read_photo` reads it, the file
being open (header, then 16-bit samples). `hdr` is what
`fread` of the header delivers (`none` when it is not fully readable), `data`
are the complete 16-bit samples that follow the header, and `header` are the
16-bit items that reads of `sizeof (pixel)` bytes deliver from the start of the
file until the header is passed (the header seen as samples). -/
structure photo_file where
  header : List Nat
  hdr : Option photo_header_t
  data : List Nat
  deriving DecidableEq, Repr

/-- The inner loop `for (x = 0; width > x; x++)` of a loader for row `y`, with
`n` iterations left from column `x`: read one item from the stream (`none` when
`1 != fread (...)`), store `f item` at `img[width * y + x]`. Returns the rest
of the stream and the pixel block. -/
def load_row (f : Nat → Option Nat) (width y : Nat) :
    Nat → Nat → List Nat → List Nat → Option (List Nat × List Nat)
  | 0, _, stream, img => some (stream, img)
  | n + 1, x, stream, img =>
    match stream with
    | [] => none
    | pixel :: rest =>
      match f pixel with
      | none => none
      | some v =>
        match writeAt img ((width : Int) * (y : Int) + (x : Int)) v with
        | none => none
        | some img1 => load_row f width y n (x + 1) rest img1

/-- The outer loop `for (y = height; y-- > 0; )` of a loader, with `y` rows
left: the body runs for rows `y - 1`, ..., `0` in this order. -/
def load_rows (f : Nat → Option Nat) (width : Nat) :
    Nat → List Nat → List Nat → Option (List Nat × List Nat)
  | 0, stream, img => some (stream, img)
  | y + 1, stream, img =>
    match load_row f width y width 0 stream img with
    | none => none
    | some (stream1, img1) => load_rows f width y stream1 img1

/-- Model of `read_obj_image`, the file being open and the allocations
succeeding: `none` is the return value `NULL`. The pixel block is allocated with
`width * height` bytes (its initial content, here zeros, is overwritten). -/
def read_obj_image (file : image_file) : Option image_t :=
  match file.hdr with
  | none => none
  | some hdr =>
    if MAX_OBJECT_WIDTH < hdr.width ∨ MAX_OBJECT_HEIGHT < hdr.height then none
    else
      match load_rows (fun pixel => some pixel) hdr.width hdr.height file.data
          (List.replicate (hdr.width * hdr.height) 0) with
      | none => none
      | some (_, img) => some ⟨hdr, img⟩

/-- Model of `read_photo`, the file being open and the allocations succeeding:
header and size checks, first pass over `width * height` samples (`accumulate`
inside `build_palette`; `none` on a short read), palette construction,
`rewind (in)`, which puts the stream back at the start of the file, and second
pass storing `determinePaletteValue` of each item read. `none` is the return
value `NULL` or a fault. -/
def read_photo (qsort : List Node → List Node) (file : photo_file) : Option photo_t :=
  match file.hdr with
  | none => none
  | some hdr =>
    if MAX_PHOTO_WIDTH < hdr.width ∨ MAX_PHOTO_HEIGHT < hdr.height then none
    else if file.data.length < hdr.width * hdr.height then none
    else
      match build_palette qsort (file.data.take (hdr.width * hdr.height)) with
      | none => none
      | some palette =>
        match load_rows (fun pixel => determinePaletteValue pixel palette) hdr.width hdr.height
            (file.header ++ file.data) (List.replicate (hdr.width * hdr.height) 0) with
        | none => none
        | some (_, img) => some ⟨hdr, palette, img⟩

/-- Exchange the entries at positions 1 and 2 of a table. -/
def swap12 : List Node → List Node
  | a :: b :: c :: rest => a :: c :: b :: rest
  | table => table

/-- A second sorting function: `sort_desc` followed by the exchange of the
entries at positions 1 and 2. -/
def sort_desc_alt (table : List Node) : List Node := swap12 (sort_desc table)

/-- A 3 x 2 object image file with rows `[1,2,3]` (stored first) and `[4,5,6]`. -/
def demo_image_file : image_file := ⟨some ⟨3, 2⟩, [1, 2, 3, 4, 5, 6]⟩

/-- The photo file with header 321 x 1 (two unsigned integers, stored as the
16-bit items 321, 1) and the samples of `sample_image`. -/
def sample_photo_file : photo_file := ⟨[321, 1], some ⟨321, 1⟩, sample_image⟩

instance (T : Nat) (obj : object_t) (mx y : Int) : Decidable (paints T obj mx y) := by
  unfold paints; infer_instance

/-- A third sorting function: merge sort by descending count that places,
among equal counts, the node with the smaller red sum first. -/
def sort_desc_red (table : List Node) : List Node :=
  table.mergeSort (fun a b => decide (b.count_ < a.count_ ∨ (b.count_ = a.count_ ∧ a.rSum_ ≤ b.rSum_)))

/-- A room with `demo_photo` and two overlapping objects. -/
def overlap_room : room_t := ⟨demo_photo, [⟨3, 0, demo_image⟩, ⟨4, 0, demo_image⟩]⟩

/-- A room with `demo_photo` and a single object. -/
def single_room : room_t := ⟨demo_photo, [⟨3, 0, demo_image⟩]⟩

/-! ## Inputs and specification-side definitions for the palette invariants -/

/-- A palette of 192 entries, every one the colour `(0, 1, 0)`: red equal to
the red channel of the black sample `0x0000`, green different from it. -/
def stuck_palette : List Nat := (List.range (3 * 192)).map (fun i => if i % 3 = 1 then 1 else 0)

/-- Specification-side formula of the coarse key from the fine key alone:
`(((fine >> 10) & 3) << 4) | (((fine >> 6) & 3) << 2) | ((fine >> 2) & 3)`. -/
def coarse_of_fine_spec (fine : Nat) : Nat :=
  ((((fine >>> 10) &&& 3) <<< 4) ||| (((fine >>> 6) &&& 3) <<< 2) ||| ((fine >>> 2) &&& 3))

/-- Three samples of one level 4 bucket (key `0xCCC`): `0xC618` and twice
`0xCE79`, which differs from it in the lowest bit of each channel field. -/
def bucket_samples : List Nat := [0xC618, 0xCE79, 0xCE79]

/-- The level 4 node accumulated for `bucket_samples`: sums 74, 150, 74 of the
channels, count 3, parent 63. -/
def bucket_node : Node := ⟨74, 150, 74, 3, 63⟩

/-- Largest value of channel `ch` of a 5:6:5 sample (1 for the count). -/
def chan_max : Chan → Int
  | Chan.r => 31
  | Chan.g => 63
  | Chan.b => 31
  | Chan.n => 1

/-! ## Coordinates for which the culling tests do not overflow -/

/-- The anchor and the object positions are C `int` values and no sum of the
culling test of `fill_horiz_buffer` leaves the range of `int`: `x + SCROLL_X_DIM`,
and `obj_x + width`, `obj_y + height` of every object. -/
def horiz_in_range (SCROLL_X_DIM : Nat) (x y : Int) (objs : List object_t) : Prop :=
  int_range x ∧ int_range y ∧ int_range (x + (SCROLL_X_DIM : Int)) ∧
  ∀ obj ∈ objs, int_range obj.obj_x ∧ int_range obj.obj_y ∧
    int_range (obj.obj_x + (obj.image.hdr.width : Int)) ∧
    int_range (obj.obj_y + (obj.image.hdr.height : Int))

instance (W : Nat) (x y : Int) (objs : List object_t) : Decidable (horiz_in_range W x y objs) := by
  unfold horiz_in_range; infer_instance

/-- The anchor and the object positions are C `int` values and no sum of the
culling test of `fill_vert_buffer` leaves the range of `int`: `y + SCROLL_Y_DIM`,
and `obj_x + width`, `obj_y + height` of every object. -/
def vert_in_range (SCROLL_Y_DIM : Nat) (x y : Int) (objs : List object_t) : Prop :=
  int_range x ∧ int_range y ∧ int_range (y + (SCROLL_Y_DIM : Int)) ∧
  ∀ obj ∈ objs, int_range obj.obj_x ∧ int_range obj.obj_y ∧
    int_range (obj.obj_x + (obj.image.hdr.width : Int)) ∧
    int_range (obj.obj_y + (obj.image.hdr.height : Int))

instance (W : Nat) (x y : Int) (objs : List object_t) : Decidable (vert_in_range W x y objs) := by
  unfold vert_in_range; infer_instance

/-- A room with `demo_photo` and one object whose left edge is at map column
`2147483645`, three columns below the largest `int`. -/
def far_room : room_t := ⟨demo_photo, [⟨2147483645, 0, demo_image⟩]⟩

/-- A room with `demo_photo` and two overlapping objects at map columns
`2147483645` and `2147483643`. -/
def far_overlap_room : room_t :=
  ⟨demo_photo, [⟨2147483645, 0, demo_image⟩, ⟨2147483643, 0, demo_image⟩]⟩

/-- A room with `demo_photo` and one object whose top edge is at map row `2147483645`. -/
def far_column_room : room_t := ⟨demo_photo, [⟨3, 2147483645, demo_image⟩]⟩

/-! ## Ties in the sorted level 4 table -/

/-- The count `octree4[k].count_` of level 4 bucket `k` after the first pass. -/
def bucket_count (P : List Nat) (k : Nat) : Int := ((accumulate P).1.getD k init).count_

/-- The number of level 4 buckets that hold more samples than bucket `k`: the
number of nodes every descending sort places before the node of bucket `k`. -/
def larger_count (P : List Nat) (k : Nat) : Nat :=
  ((List.range (8*8*8*8)).filter (fun j => decide (bucket_count P k < bucket_count P j))).length

/-- The sample of the `j`-th of 128 level 4 buckets, two per level 2 region. -/
def ranked_pixel (j : Nat) : Nat := region_base (j / 2) + (j % 2) * 4096

/-- A stream of 8448 samples: level 4 bucket `j` of 128 buckets holds `j + 2`
samples, and each of the 64 level 2 regions has one more bucket with a single
sample; all other buckets are empty. -/
def ranked_image : List Nat :=
  (List.range 128).flatMap (fun j => List.replicate (j + 2) (ranked_pixel j)) ++
    (List.range 64).map sample_lone

/-- The 128 level 4 keys that hold at least two samples of `ranked_image`. -/
def ranked_keys : List Nat := (List.range 128).map (fun j => index4 (ranked_pixel j))

/-- A fourth sorting function: merge sort by descending count that places,
among equal counts, the node with the larger red sum first. -/
def sort_desc_rev (table : List Node) : List Node :=
  table.mergeSort (fun a b => decide (b.count_ < a.count_ ∨ (b.count_ = a.count_ ∧ b.rSum_ ≤ a.rSum_)))

/-! # Part II: lemmas -/

/-! ## Lemmas on memory access -/

theorem readAt_of_bounds (mem : List Nat) (i : Int) (h0 : 0 ≤ i) (h1 : i < (mem.length : Int)) :
    readAt mem i = some (mem.getD i.toNat 0) := by
  have hlt : i.toNat < mem.length := by omega
  simp [readAt, h0, List.getD_eq_getElem?_getD, List.getElem?_eq_getElem hlt]

theorem writeAt_nat (mem : List Nat) (i : Nat) (v : Nat) (h : i < mem.length) :
    writeAt mem (i : Int) v = some (mem.set i v) := by
  simp [writeAt, h]

theorem block_index_bounds (w h : Nat) (r c : Int) (hr0 : 0 ≤ r) (hr1 : r < (h : Int))
    (hc0 : 0 ≤ c) (hc1 : c < (w : Int)) :
    0 ≤ (w : Int) * r + c ∧ (w : Int) * r + c < ((w * h : Nat) : Int) := by
  have hw : (0 : Int) ≤ (w : Int) := Int.ofNat_nonneg w
  have h1 : 0 ≤ (w : Int) * r := mul_nonneg hw hr0
  have h2 : (w : Int) * r ≤ (w : Int) * ((h : Int) - 1) :=
    mul_le_mul_of_nonneg_left (by omega) hw
  have h3 : (w : Int) * ((h : Int) - 1) = (w : Int) * (h : Int) - (w : Int) := by ring
  push_cast
  constructor <;> omega

/-- A sum that a C `int` holds is not changed by the 32-bit wrap. -/
theorem wrap32_int_range (v : Int) (h : int_range v) : wrap32 v = v := by
  unfold int_range at h
  unfold wrap32
  omega

/-! ## Lemmas on the loops of `fill_horiz_buffer` -/

theorem horiz_background_eq (view : photo_t) (x y : Int) (idx : Nat)
    (hwf : view.img.length = view.hdr.width * view.hdr.height)
    (hy0 : 0 ≤ y) (hy1 : y < (view.hdr.height : Int)) :
    horiz_background view x y idx = some (naive_background view (x + (idx : Int)) y) := by
  unfold horiz_background naive_background
  by_cases hc : 0 ≤ x + (idx : Int) ∧ (view.hdr.width : Int) > x + (idx : Int)
  · have hb := block_index_bounds view.hdr.width view.hdr.height y (x + (idx : Int)) hy0 hy1 hc.1 hc.2
    rw [← hwf] at hb
    have hc2 : 0 ≤ x + (idx : Int) ∧ x + (idx : Int) < (view.hdr.width : Int) := ⟨hc.1, hc.2⟩
    rw [if_pos hc, if_pos hc2]
    have he : (view.hdr.width : Int) * y + x + (idx : Int) = (view.hdr.width : Int) * y + (x + (idx : Int)) := by ring
    rw [he]
    exact readAt_of_bounds _ _ hb.1 hb.2
  · have hc2 : ¬ (0 ≤ x + (idx : Int) ∧ x + (idx : Int) < (view.hdr.width : Int)) := by
      intro h; exact hc ⟨h.1, h.2⟩
    rw [if_neg hc, if_neg hc2]

theorem horiz_background_loop_spec (view : photo_t) (x y : Int) (f : Nat → Nat)
    (hf : ∀ j, horiz_background view x y j = some (f j)) :
    ∀ (n idx : Nat) (buf : List Nat), idx + n = buf.length →
      ∃ out, horiz_background_loop view x y n idx buf = some out ∧ out.length = buf.length ∧
        ∀ j, j < buf.length → out[j]? = if idx ≤ j then some (f j) else buf[j]? := by
  intro n
  induction n with
  | zero =>
    intro idx buf hlen
    refine ⟨buf, rfl, rfl, ?_⟩
    intro j hj
    have : ¬ idx ≤ j := by omega
    simp [this]
  | succ n ih =>
    intro idx buf hlen
    have hidx : idx < buf.length := by omega
    obtain ⟨out, h1, h2, h3⟩ := ih (idx + 1) (buf.set idx (f idx)) (by simp; omega)
    refine ⟨out, ?_, ?_, ?_⟩
    · simp only [horiz_background_loop, hf, writeAt_nat _ _ _ hidx]
      exact h1
    · simpa using h2
    · intro j hj
      rw [h3 j (by simpa using hj)]
      by_cases hj1 : idx + 1 ≤ j
      · have : idx ≤ j := by omega
        simp [hj1, this]
      · by_cases hj2 : idx = j
        · subst hj2
          simp [hidx]
        · have : ¬ idx ≤ j := by omega
          simp [hj1, this, List.getElem?_set, hj2]

theorem horiz_copy_loop_spec (W T : Nat) (img : image_t) (yoff : Int) (pix : Nat → Nat) :
    ∀ (fuel : Nat) (idx imgx : Nat) (buf : List Nat),
      buf.length = W → idx ≤ W → W < idx + fuel →
      (∀ k : Nat, imgx ≤ k → k < img.hdr.width → readAt img.img (yoff + (k : Int)) = some (pix k)) →
      ∃ out, horiz_copy_loop W T img yoff fuel (idx : Int) (imgx : Int) buf = some out ∧
        out.length = W ∧
        ∀ j, j < W → out[j]? =
          if idx ≤ j ∧ j - idx + imgx < img.hdr.width ∧ pix (j - idx + imgx) ≠ T
          then some (pix (j - idx + imgx)) else buf[j]? := by
  intro fuel
  induction fuel with
  | zero =>
    intro idx imgx buf hlen hidx hfuel hread
    omega
  | succ fuel ih =>
    intro idx imgx buf hlen hidxW hfuel hread
    unfold horiz_copy_loop
    by_cases hc : (W : Int) > (idx : Int) ∧ (img.hdr.width : Int) > (imgx : Int)
    · rw [if_pos hc]
      have hidx : idx < W := by omega
      have himgx : imgx < img.hdr.width := by omega
      rw [hread imgx (le_refl _) himgx]
      simp only []
      have hcast1 : ((idx : Int) + 1) = ((idx + 1 : Nat) : Int) := by push_cast; rfl
      have hcast2 : ((imgx : Int) + 1) = ((imgx + 1 : Nat) : Int) := by push_cast; rfl
      have hread2 : ∀ k : Nat, imgx + 1 ≤ k → k < img.hdr.width →
          readAt img.img (yoff + (k : Int)) = some (pix k) :=
        fun k hk1 hk2 => hread k (by omega) hk2
      by_cases hp : T ≠ pix imgx
      · rw [if_pos hp, writeAt_nat _ _ _ (by omega), hcast1, hcast2]
        simp only []
        obtain ⟨out, h1, h2, h3⟩ := ih (idx + 1) (imgx + 1)
          (buf.set idx (pix imgx)) (by simp [hlen]) (by omega) (by omega) hread2
        refine ⟨out, h1, h2, ?_⟩
        intro j hj
        rw [h3 j hj]
        by_cases hj1 : idx + 1 ≤ j
        · have e : j - (idx + 1) + (imgx + 1) = j - idx + imgx := by omega
          have hle : idx ≤ j := by omega
          have hne : ¬ idx = j := by omega
          simp only [e, hj1, hle, true_and, List.getElem?_set, hne, if_false]
        · by_cases hj2 : idx = j
          · subst hj2
            have e : idx - idx + imgx = imgx := by omega
            have hlt : idx < buf.length := by omega
            have hp2 : pix imgx ≠ T := fun h => hp h.symm
            simp [hj1, e, himgx, hp2, List.getElem?_set, hlt]
          · have hle : ¬ idx ≤ j := by omega
            simp [hj1, hle, List.getElem?_set, hj2]
      · rw [if_neg hp, hcast1, hcast2]
        obtain ⟨out, h1, h2, h3⟩ := ih (idx + 1) (imgx + 1) buf hlen (by omega) (by omega) hread2
        refine ⟨out, h1, h2, ?_⟩
        intro j hj
        rw [h3 j hj]
        by_cases hj1 : idx + 1 ≤ j
        · have e : j - (idx + 1) + (imgx + 1) = j - idx + imgx := by omega
          have hle : idx ≤ j := by omega
          simp only [e, hj1, hle, true_and]
        · by_cases hj2 : idx = j
          · subst hj2
            have e : idx - idx + imgx = imgx := by omega
            have hp2 : pix imgx = T := by
              by_contra h; exact hp (fun h2 => h h2.symm)
            simp [hj1, e, hp2]
          · have hle : ¬ idx ≤ j := by omega
            simp [hj1, hle]
    · rw [if_neg hc]
      refine ⟨buf, rfl, hlen, ?_⟩
      intro j hj
      have : ¬ (idx ≤ j ∧ j - idx + imgx < img.hdr.width ∧ pix (j - idx + imgx) ≠ T) := by
        intro ⟨ha, hb, _⟩
        apply hc
        constructor <;> omega
      rw [if_neg this]

theorem naive_overlay_culled (W T : Nat) (x y : Int) (obj : object_t) (v j : Nat) (hj : j < W)
    (hcull : y < obj.obj_y ∨ y ≥ obj.obj_y + (obj.image.hdr.height : Int) ∨
      x + (W : Int) ≤ obj.obj_x ∨ x ≥ obj.obj_x + (obj.image.hdr.width : Int)) :
    naive_overlay T (x + (j : Int)) y v obj = v := by
  unfold naive_overlay
  have : ¬ covers obj (x + (j : Int)) y := by
    unfold covers
    omega
  simp [this]

theorem horiz_object_step (W T : Nat) (x y : Int) (obj : object_t) (buf : List Nat)
    (hlen : buf.length = W)
    (hwf : obj.image.img.length = obj.image.hdr.width * obj.image.hdr.height)
    (hnc : ¬ (y < obj.obj_y ∨ y ≥ obj.obj_y + (obj.image.hdr.height : Int) ∨
      x + (W : Int) ≤ obj.obj_x ∨ x ≥ obj.obj_x + (obj.image.hdr.width : Int))) :
    ∃ out, horiz_copy_loop W T obj.image ((y - obj.obj_y) * (obj.image.hdr.width : Int)) (W + 1)
        (if x ≤ obj.obj_x then obj.obj_x - x else 0) (if x ≤ obj.obj_x then 0 else x - obj.obj_x) buf
          = some out ∧ out.length = W ∧
      ∀ j, j < W → out[j]? = (buf[j]?).map (fun v => naive_overlay T (x + (j : Int)) y v obj) := by
  have hy0 : 0 ≤ y - obj.obj_y := by omega
  have hy1 : y - obj.obj_y < (obj.image.hdr.height : Int) := by omega
  have hidx : (if x ≤ obj.obj_x then obj.obj_x - x else 0) = (((obj.obj_x - x).toNat : Nat) : Int) := by
    split <;> omega
  have himgx : (if x ≤ obj.obj_x then 0 else x - obj.obj_x) = (((x - obj.obj_x).toNat : Nat) : Int) := by
    split <;> omega
  rw [hidx, himgx]
  have hread : ∀ k : Nat, (x - obj.obj_x).toNat ≤ k → k < obj.image.hdr.width →
      readAt obj.image.img ((y - obj.obj_y) * (obj.image.hdr.width : Int) + (k : Int)) =
        some (obj.image.img.getD ((y - obj.obj_y) * (obj.image.hdr.width : Int) + (k : Int)).toNat 0) := by
    intro k _ hk
    have hb := block_index_bounds obj.image.hdr.width obj.image.hdr.height (y - obj.obj_y) (k : Int)
      hy0 hy1 (by omega) (by omega)
    rw [← hwf, mul_comm] at hb
    exact readAt_of_bounds _ _ hb.1 hb.2
  obtain ⟨out, h1, h2, h3⟩ := horiz_copy_loop_spec W T obj.image
    ((y - obj.obj_y) * (obj.image.hdr.width : Int))
    (fun k => obj.image.img.getD ((y - obj.obj_y) * (obj.image.hdr.width : Int) + (k : Int)).toNat 0)
    (W + 1) (obj.obj_x - x).toNat (x - obj.obj_x).toNat buf hlen (by omega) (by omega) hread
  refine ⟨out, h1, h2, ?_⟩
  intro j hj
  rw [h3 j hj]
  have hbj : buf[j]? = some buf[j] := List.getElem?_eq_getElem (by omega)
  rw [hbj]
  simp only [Option.map_some']
  unfold naive_overlay
  by_cases hcov : covers obj (x + (j : Int)) y
  · have hc := hcov
    unfold covers at hc
    have hle : (obj.obj_x - x).toNat ≤ j := by omega
    have hlt : j - (obj.obj_x - x).toNat + (x - obj.obj_x).toNat < obj.image.hdr.width := by omega
    have he : ((j - (obj.obj_x - x).toNat + (x - obj.obj_x).toNat : Nat) : Int)
        = x + (j : Int) - obj.obj_x := by omega
    have hpix : obj.image.img.getD ((y - obj.obj_y) * (obj.image.hdr.width : Int) +
        ((j - (obj.obj_x - x).toNat + (x - obj.obj_x).toNat : Nat) : Int)).toNat 0
        = object_pixel obj (x + (j : Int)) y := by
      unfold object_pixel
      rw [he]
    simp only [hpix, hle, hlt, true_and, hcov]
    split <;> rfl
  · have hn : ¬ ((obj.obj_x - x).toNat ≤ j ∧
        j - (obj.obj_x - x).toNat + (x - obj.obj_x).toNat < obj.image.hdr.width) := by
      intro ⟨ha, hb⟩
      apply hcov
      unfold covers
      omega
    have hn2 : ¬ ((obj.obj_x - x).toNat ≤ j ∧
        j - (obj.obj_x - x).toNat + (x - obj.obj_x).toNat < obj.image.hdr.width ∧
        obj.image.img.getD ((y - obj.obj_y) * (obj.image.hdr.width : Int) +
        ((j - (obj.obj_x - x).toNat + (x - obj.obj_x).toNat : Nat) : Int)).toNat 0 ≠ T) := by
      intro ⟨ha, hb, _⟩
      exact hn ⟨ha, hb⟩
    rw [if_neg hn2]
    simp [hcov]

theorem horiz_objects_loop_spec (W T : Nat) (x y : Int) (hxr : int_range (x + (W : Int))) :
    ∀ (objs : List object_t) (buf : List Nat), buf.length = W →
      (∀ obj ∈ objs, obj.image.img.length = obj.image.hdr.width * obj.image.hdr.height) →
      (∀ obj ∈ objs, int_range (obj.obj_x + (obj.image.hdr.width : Int)) ∧
        int_range (obj.obj_y + (obj.image.hdr.height : Int))) →
      ∃ out, horiz_objects_loop W T x y objs buf = some out ∧ out.length = W ∧
        ∀ j, j < W → out[j]? =
          (buf[j]?).map (fun v => objs.foldl (naive_overlay T (x + (j : Int)) y) v) := by
  intro objs
  induction objs with
  | nil =>
    intro buf hlen _ _
    exact ⟨buf, rfl, hlen, fun j _ => by simp⟩
  | cons obj rest ih =>
    intro buf hlen hwf hr
    have hwf1 := hwf obj (List.mem_cons_self _ _)
    have hwf2 : ∀ o ∈ rest, o.image.img.length = o.image.hdr.width * o.image.hdr.height :=
      fun o ho => hwf o (List.mem_cons_of_mem _ ho)
    have hr1 := hr obj (List.mem_cons_self _ _)
    have hr2 : ∀ o ∈ rest, int_range (o.obj_x + (o.image.hdr.width : Int)) ∧
        int_range (o.obj_y + (o.image.hdr.height : Int)) :=
      fun o ho => hr o (List.mem_cons_of_mem _ ho)
    unfold horiz_objects_loop
    simp only []
    rw [wrap32_int_range _ hxr, wrap32_int_range _ hr1.1, wrap32_int_range _ hr1.2]
    by_cases hcull : y < obj.obj_y ∨ y ≥ obj.obj_y + (obj.image.hdr.height : Int) ∨
        x + (W : Int) ≤ obj.obj_x ∨ x ≥ obj.obj_x + (obj.image.hdr.width : Int)
    · rw [if_pos hcull]
      obtain ⟨out, h1, h2, h3⟩ := ih buf hlen hwf2 hr2
      refine ⟨out, h1, h2, ?_⟩
      intro j hj
      rw [h3 j hj]
      simp only [List.foldl_cons, naive_overlay_culled W T x y obj _ j hj hcull]
    · rw [if_neg hcull]
      obtain ⟨out1, g1, g2, g3⟩ := horiz_object_step W T x y obj buf hlen hwf1 hcull
      rw [g1]
      simp only []
      obtain ⟨out, h1, h2, h3⟩ := ih out1 g2 hwf2 hr2
      refine ⟨out, h1, h2, ?_⟩
      intro j hj
      rw [h3 j hj, g3 j hj, Option.map_map]
      rfl

theorem fill_horiz_buffer_refines (W T : Nat) (room : room_t) (x y : Int) (buf : List Nat)
    (hbuf : buf.length = W) (hwf : room_wf room)
    (hy0 : 0 ≤ y) (hy1 : y < (room.photo.hdr.height : Int))
    (hr : horiz_in_range W x y room.contents) :
    ∃ out, fill_horiz_buffer W T room x y buf = some out ∧ out.length = W ∧
      ∀ i, i < W → out[i]? = some (naive_horiz T room x y i) := by
  obtain ⟨out1, h1, h2, h3⟩ := horiz_background_loop_spec room.photo x y
    (fun j => naive_background room.photo (x + (j : Int)) y)
    (fun j => horiz_background_eq room.photo x y j hwf.1 hy0 hy1) W 0 buf (by omega)
  obtain ⟨out, g1, g2, g3⟩ := horiz_objects_loop_spec W T x y hr.2.2.1 room.contents out1
    (by omega) hwf.2 (fun o ho => (hr.2.2.2 o ho).2.2)
  refine ⟨out, ?_, g2, ?_⟩
  · unfold fill_horiz_buffer
    rw [h1]
    exact g1
  · intro i hi
    rw [g3 i hi, h3 i (by omega)]
    simp [naive_horiz]

/-- With no objects the culling test is never run: the refinement needs no
range condition. -/
theorem fill_horiz_buffer_refines_empty (W T : Nat) (view : photo_t) (x y : Int) (buf : List Nat)
    (hbuf : buf.length = W) (hwf : view.img.length = view.hdr.width * view.hdr.height)
    (hy0 : 0 ≤ y) (hy1 : y < (view.hdr.height : Int)) :
    ∃ out, fill_horiz_buffer W T ⟨view, []⟩ x y buf = some out ∧ out.length = W ∧
      ∀ i, i < W → out[i]? = some (naive_horiz T ⟨view, []⟩ x y i) := by
  obtain ⟨out1, h1, h2, h3⟩ := horiz_background_loop_spec view x y
    (fun j => naive_background view (x + (j : Int)) y)
    (fun j => horiz_background_eq view x y j hwf hy0 hy1) W 0 buf (by omega)
  refine ⟨out1, ?_, by omega, ?_⟩
  · unfold fill_horiz_buffer
    simp only []
    rw [h1]
    rfl
  · intro i hi
    rw [h3 i (by omega)]
    simp [naive_horiz]

/-! ## Bit-level facts on the keys and channels -/

theorem and_mask (x n : Nat) : x &&& (2 ^ n - 1) = x % 2 ^ n :=
  Nat.and_pow_two_sub_one_eq_mod x n

theorem red_eq (p : Nat) : red p = (p / 2048) % 32 := by
  unfold red
  rw [Nat.shiftRight_eq_div_pow]
  exact and_mask _ 5

theorem green_eq (p : Nat) : green p = (p / 32) % 64 := by
  unfold green
  rw [Nat.shiftRight_eq_div_pow]
  exact and_mask _ 6

theorem blue_eq (p : Nat) : blue p = p % 32 := by
  unfold blue
  exact and_mask _ 5

theorem or_fields (a b c i j : Nat) (hb : b < 2 ^ i) (hc : c < 2 ^ j) :
    ((a <<< (i + j)) ||| (b <<< j) ||| c) = a * 2 ^ (i + j) + b * 2 ^ j + c := by
  rw [Nat.shiftLeft_eq, Nat.shiftLeft_eq]
  have h1 : a * 2 ^ (i + j) ||| b * 2 ^ j = a * 2 ^ (i + j) + b * 2 ^ j := by
    have hlt : b * 2 ^ j < 2 ^ (i + j) := by
      rw [Nat.pow_add]
      exact Nat.mul_lt_mul_of_pos_right hb (Nat.two_pow_pos j)
    rw [Nat.mul_comm a, ← Nat.mul_add_lt_is_or hlt]
  rw [h1]
  have h2 : a * 2 ^ (i + j) + b * 2 ^ j = 2 ^ j * (a * 2 ^ i + b) := by
    rw [Nat.pow_add]; ring
  rw [h2, ← Nat.mul_add_lt_is_or hc]

theorem index4_eq (p : Nat) :
    index4 p = ((p / 4096) % 16) * 256 + ((p / 128) % 16) * 16 + (p / 2) % 16 := by
  unfold index4
  have k : ∀ x : Nat, x &&& 0xF = x % 16 := fun x => and_mask x 4
  rw [Nat.shiftRight_eq_div_pow, Nat.shiftRight_eq_div_pow, Nat.shiftRight_eq_div_pow, k, k, k]
  exact or_fields (p / 2 ^ 12 % 16) (p / 2 ^ 7 % 16) (p / 2 ^ 1 % 16) 4 4
    (Nat.mod_lt _ (by norm_num)) (Nat.mod_lt _ (by norm_num))

theorem index2_eq (p : Nat) :
    index2 p = ((p / 16384) % 4) * 16 + ((p / 512) % 4) * 4 + (p / 8) % 4 := by
  unfold index2
  have k : ∀ x : Nat, x &&& 0x3 = x % 4 := fun x => and_mask x 2
  rw [Nat.shiftRight_eq_div_pow, Nat.shiftRight_eq_div_pow, Nat.shiftRight_eq_div_pow, k, k, k]
  exact or_fields (p / 2 ^ 14 % 4) (p / 2 ^ 9 % 4) (p / 2 ^ 3 % 4) 2 2
    (Nat.mod_lt _ (by norm_num)) (Nat.mod_lt _ (by norm_num))

theorem index4_lt (p : Nat) : index4 p < 4096 := by
  rw [index4_eq]; omega

theorem index2_lt (p : Nat) : index2 p < 64 := by
  rw [index2_eq]; omega

theorem coarse_key_eq (p : Nat) : coarse_key p = index2 p := by
  have h : coarse_key p = index2 p % 256 := rfl
  rw [h]
  have := index2_lt p
  omega

/-- The level 2 index is a function of the level 4 index. -/
theorem index2_of_index4 (p : Nat) :
    index2 p = ((index4 p / 1024) % 4) * 16 + ((index4 p / 64) % 4) * 4 + (index4 p / 4) % 4 := by
  rw [index2_eq, index4_eq]
  have h1 : p / 16384 % 4 = p / 4096 % 16 / 4 := by omega
  have h2 : p / 512 % 4 = p / 128 % 16 / 4 := by omega
  have h3 : p / 8 % 4 = p / 2 % 16 / 4 := by omega
  rw [h1, h2, h3]
  have ha : p / 4096 % 16 < 16 := Nat.mod_lt _ (by norm_num)
  have hb : p / 128 % 16 < 16 := Nat.mod_lt _ (by norm_num)
  have hc : p / 2 % 16 < 16 := Nat.mod_lt _ (by norm_num)
  generalize p / 4096 % 16 = a at ha ⊢
  generalize p / 128 % 16 = b at hb ⊢
  generalize p / 2 % 16 = c at hc ⊢
  omega

/-- The channels of a pixel lie in the ranges its level 2 index determines. -/
theorem channel_ranges (p : Nat) :
    8 * (index2 p / 16) ≤ red p ∧ red p ≤ 8 * (index2 p / 16) + 7 ∧
    16 * (index2 p / 4 % 4) ≤ green p ∧ green p ≤ 16 * (index2 p / 4 % 4) + 15 ∧
    8 * (index2 p % 4) ≤ blue p ∧ blue p ≤ 8 * (index2 p % 4) + 7 := by
  rw [index2_eq, red_eq, green_eq, blue_eq]
  have h1 : p / 16384 % 4 = p / 2048 % 32 / 8 := by omega
  have h2 : p / 512 % 4 = p / 32 % 64 / 16 := by omega
  have h3 : p / 8 % 4 = p % 32 / 8 := by omega
  rw [h1, h2, h3]
  have ha : p / 2048 % 32 < 32 := Nat.mod_lt _ (by norm_num)
  have hb : p / 32 % 64 < 64 := Nat.mod_lt _ (by norm_num)
  have hc : p % 32 < 32 := Nat.mod_lt _ (by norm_num)
  generalize p / 2048 % 32 = a at ha ⊢
  generalize p / 32 % 64 = b at hb ⊢
  generalize p % 32 = c at hc ⊢
  omega

/-! ## Lemmas on `updateAt` -/

theorem length_updateAt (f : Node → Node) : ∀ (i : Nat) (l : List Node),
    (updateAt f i l).length = l.length
  | _, [] => by simp [updateAt]
  | 0, _ :: _ => by simp [updateAt]
  | i + 1, _ :: l => by simp [updateAt, length_updateAt f i l]

theorem getElem?_updateAt (f : Node → Node) : ∀ (i : Nat) (l : List Node) (j : Nat),
    (updateAt f i l)[j]? = if j = i then (l[j]?).map f else l[j]?
  | _, [], j => by simp [updateAt]
  | 0, a :: l, j => by
    cases j with
    | zero => simp [updateAt]
    | succ j => simp [updateAt]
  | i + 1, a :: l, j => by
    cases j with
    | zero => simp [updateAt]
    | succ j => simp [updateAt, getElem?_updateAt f i l j]


/-! ## The accumulated tables -/

theorem total_append (ch : Chan) (sel : Nat → Bool) (l1 l2 : List Nat) :
    total ch sel (l1 ++ l2) = total ch sel l1 + total ch sel l2 := by
  simp [total, List.filter_append, List.map_append, List.sum_append]

theorem total_single (ch : Chan) (sel : Nat → Bool) (p : Nat) :
    total ch sel [p] = if sel p then weight p ch else 0 := by
  by_cases h : sel p <;> simp [total, List.filter, h]

theorem fine_node_snoc (Q : List Nat) (p k : Nat) :
    fine_node (Q ++ [p]) k = if k = index4 p then add_fine p (fine_node Q k) else fine_node Q k := by
  by_cases h : k = index4 p
  · subst h
    rw [if_pos rfl]
    simp [fine_node, add_fine, total_append, total_single, weight, index2_of_index4, parent_of]
  · have h2 : ¬ index4 p = k := fun e => h e.symm
    rw [if_neg h]
    simp [fine_node, total_append, total_single, h2]

theorem coarse_node_snoc (Q : List Nat) (p c : Nat) :
    coarse_node (Q ++ [p]) c =
      if c = index2 p then add_coarse p (coarse_node Q c) else coarse_node Q c := by
  by_cases h : c = index2 p
  · subst h
    rw [if_pos rfl]
    simp [coarse_node, add_coarse, total_append, total_single, weight]
  · have h2 : ¬ index2 p = c := fun e => h e.symm
    rw [if_neg h]
    simp [coarse_node, total_append, total_single, h2]

theorem updateAt_map_range (f : Node → Node) (g g2 : Nat → Node) (i n : Nat)
    (h : ∀ j, g2 j = if j = i then f (g j) else g j) :
    updateAt f i ((List.range n).map g) = (List.range n).map g2 := by
  apply List.ext_getElem?
  intro j
  rw [getElem?_updateAt]
  by_cases hj : j < n
  · simp [List.getElem?_map, List.getElem?_range hj, h j]
    split <;> rfl
  · have hn : n ≤ j := by omega
    simp [List.getElem?_map, List.getElem?_eq_none, hn]

theorem accumulate_from (n4 n2 : Nat) (P : List Nat) : ∀ Q : List Nat,
    P.foldl accumulate_pixel
      ((List.range n4).map (fine_node Q), (List.range n2).map (coarse_node Q)) =
      ((List.range n4).map (fine_node (Q ++ P)), (List.range n2).map (coarse_node (Q ++ P))) := by
  induction P with
  | nil => intro Q; simp
  | cons p P ih =>
    intro Q
    have e : Q ++ p :: P = (Q ++ [p]) ++ P := by simp
    have step : accumulate_pixel
        ((List.range n4).map (fine_node Q), (List.range n2).map (coarse_node Q)) p =
        ((List.range n4).map (fine_node (Q ++ [p])), (List.range n2).map (coarse_node (Q ++ [p]))) := by
      unfold accumulate_pixel
      simp only []
      rw [updateAt_map_range (add_fine p) (fine_node Q) (fine_node (Q ++ [p])) (index4 p) _
          (fun j => fine_node_snoc Q p j),
        updateAt_map_range (add_coarse p) (coarse_node Q) (coarse_node (Q ++ [p])) (index2 p) _
          (fun j => coarse_node_snoc Q p j)]
    rw [List.foldl_cons, e, step, ih (Q ++ [p])]

theorem fine_node_nil (k : Nat) : fine_node [] k = init := by
  simp [fine_node, total, init]

theorem coarse_node_nil (c : Nat) : coarse_node [] c = init := by
  simp [coarse_node, total, init]

theorem replicate_eq_map_range (n : Nat) (g : Nat → Node) (h : ∀ k, g k = init) :
    List.replicate n init = (List.range n).map g := by
  apply List.ext_getElem?
  intro j
  by_cases hj : j < n
  · simp [List.getElem?_map, List.getElem?_range hj, List.getElem?_replicate, hj, h j]
  · have hn : n ≤ j := by omega
    simp [List.getElem?_map, List.getElem?_eq_none, hn]

/-- The tables after the first pass, described from the sample stream. -/
theorem accumulate_eq (P : List Nat) :
    accumulate P =
      ((List.range (8*8*8*8)).map (fine_node P), (List.range (8*8)).map (coarse_node P)) := by
  unfold accumulate
  rw [replicate_eq_map_range (8*8*8*8) (fine_node []) fine_node_nil,
    replicate_eq_map_range (8*8) (coarse_node []) coarse_node_nil, accumulate_from]
  rfl

/-! ## Totals over the sample stream -/

theorem total_nil (ch : Chan) (sel : Nat → Bool) : total ch sel [] = 0 := by
  simp [total]

theorem total_cons (ch : Chan) (sel : Nat → Bool) (p : Nat) (P : List Nat) :
    total ch sel (p :: P) = (if sel p then weight p ch else 0) + total ch sel P := by
  by_cases h : sel p <;> simp [total, List.filter, h]

theorem total_congr (ch : Chan) (a b : Nat → Bool) (P : List Nat)
    (h : ∀ p ∈ P, a p = b p) : total ch a P = total ch b P := by
  induction P with
  | nil => simp [total_nil]
  | cons p P ih =>
    rw [total_cons, total_cons, h p (List.mem_cons_self _ _),
      ih (fun q hq => h q (List.mem_cons_of_mem _ hq))]

theorem total_eq_zero (ch : Chan) (a : Nat → Bool) (P : List Nat)
    (h : ∀ p ∈ P, a p = false) : total ch a P = 0 := by
  induction P with
  | nil => simp [total_nil]
  | cons p P ih =>
    rw [total_cons, h p (List.mem_cons_self _ _), ih (fun q hq => h q (List.mem_cons_of_mem _ hq))]
    simp

theorem total_split (ch : Chan) (a b : Nat → Bool) (P : List Nat) :
    total ch a P = total ch (fun p => a p && b p) P + total ch (fun p => a p && !b p) P := by
  induction P with
  | nil => simp [total_nil]
  | cons p P ih =>
    rw [total_cons, total_cons, total_cons, ih]
    cases a p <;> cases b p <;> simp <;> ring

theorem total_or (ch : Chan) (a b : Nat → Bool) (P : List Nat)
    (h : ∀ p, ¬ (a p = true ∧ b p = true)) :
    total ch (fun p => a p || b p) P = total ch a P + total ch b P := by
  induction P with
  | nil => simp [total_nil]
  | cons p P ih =>
    rw [total_cons, total_cons, total_cons, ih]
    have hp := h p
    cases ha : a p <;> cases hb : b p <;> simp_all <;> ring

theorem weight_nonneg (p : Nat) (ch : Chan) : 0 ≤ weight p ch := by
  cases ch <;> simp [weight]

theorem total_nonneg (ch : Chan) (a : Nat → Bool) (P : List Nat) : 0 ≤ total ch a P := by
  induction P with
  | nil => simp [total_nil]
  | cons p P ih =>
    rw [total_cons]
    have := weight_nonneg p ch
    split <;> omega

theorem fine_node_get (P : List Nat) (k : Nat) (ch : Chan) :
    (fine_node P k).get ch = total ch (fun p => index4 p = k) P := by
  cases ch <;> rfl

theorem coarse_node_get (P : List Nat) (c : Nat) (ch : Chan) :
    (coarse_node P c).get ch = total ch (fun p => index2 p = c) P := by
  cases ch <;> rfl

theorem parent_of_lt (k : Nat) : parent_of k < 64 := by
  unfold parent_of; omega

theorem index2_eq_parent_of (p : Nat) : index2 p = parent_of (index4 p) :=
  index2_of_index4 p

theorem fine_node_parent_range (P : List Nat) (k : Nat) :
    0 ≤ (fine_node P k).parent_ ∧ (fine_node P k).parent_ < 64 := by
  unfold fine_node
  simp only []
  have := parent_of_lt k
  split <;> omega

/-- What a level 4 node takes away from level 2 bucket `c`: the total
over the samples of bucket `c` that have the node's level 4 index. -/
theorem fine_node_share (P : List Nat) (k c : Nat) (ch : Chan) :
    (if (fine_node P k).parent_ = (c : Int) then (fine_node P k).get ch else 0) =
      total ch (fun p => decide (index2 p = c) && decide (index4 p = k)) P := by
  rw [fine_node_get]
  by_cases hany : P.any (fun p => index4 p = k) = true
  · have hpar : (fine_node P k).parent_ = (parent_of k : Int) := by
      simp only [fine_node, hany, if_true]
    rw [hpar]
    by_cases hc : parent_of k = c
    · rw [if_pos (by exact_mod_cast hc)]
      apply total_congr
      intro p _
      by_cases h4 : index4 p = k
      · have : index2 p = c := by rw [index2_eq_parent_of, h4, hc]
        simp [h4, this]
      · simp [h4]
    · rw [if_neg (by exact_mod_cast hc)]
      symm
      apply total_eq_zero
      intro p _
      by_cases h4 : index4 p = k
      · have : ¬ index2 p = c := by rw [index2_eq_parent_of, h4]; exact hc
        simp [this]
      · simp [h4]
  · have hnone : ∀ p ∈ P, ¬ index4 p = k := by
      intro p hp h4
      apply hany
      rw [List.any_eq_true]
      exact ⟨p, hp, by simp [h4]⟩
    have z1 : total ch (fun p => decide (index4 p = k)) P = 0 :=
      total_eq_zero _ _ _ (fun p hp => by simp [hnone p hp])
    have z2 : total ch (fun p => decide (index2 p = c) && decide (index4 p = k)) P = 0 :=
      total_eq_zero _ _ _ (fun p hp => by simp [hnone p hp])
    rw [z1, z2]
    simp

/-- Sum of the shares of the level 4 nodes with distinct keys `sel`. -/
theorem share_sum (P : List Nat) (c : Nat) (ch : Chan) : ∀ sel : List Nat, sel.Nodup →
    (((sel.map (fine_node P)).filter (fun nd => nd.parent_ = (c : Int))).map (fun nd => nd.get ch)).sum =
      total ch (fun p => decide (index2 p = c) && decide (index4 p ∈ sel)) P := by
  intro sel
  induction sel with
  | nil =>
    intro _
    simp
    symm
    exact total_eq_zero _ _ _ (fun p _ => rfl)
  | cons k s ih =>
    intro hnd
    have hk : k ∉ s := (List.nodup_cons.mp hnd).1
    have hs : s.Nodup := (List.nodup_cons.mp hnd).2
    have hsplit : total ch (fun p => decide (index2 p = c) && decide (index4 p ∈ k :: s)) P =
        total ch (fun p => decide (index2 p = c) && decide (index4 p = k)) P +
        total ch (fun p => decide (index2 p = c) && decide (index4 p ∈ s)) P := by
      rw [← total_or]
      · apply total_congr
        intro p _
        by_cases h2 : index2 p = c <;> simp [h2]
      · intro p ⟨ha, hb⟩
        simp only [Bool.and_eq_true, decide_eq_true_eq] at ha hb
        exact hk (ha.2 ▸ hb.2)
    rw [hsplit, ← ih hs, ← fine_node_share]
    simp only [List.map_cons, List.filter_cons]
    by_cases hp : (fine_node P k).parent_ = (c : Int)
    · simp [hp]
    · simp [hp]

/-! ## The subtraction loop -/

theorem sub_node_get (nd c : Node) (ch : Chan) :
    (sub_node nd c).get ch = c.get ch - nd.get ch := by
  cases ch <;> rfl

/-- Sum of quantity `ch` over the nodes of `l` whose parent is `c`. -/
theorem sum_filter_cons (c : Nat) (ch : Chan) (nd : Node) (l : List Node) :
    (((nd :: l).filter (fun x => x.parent_ = (c : Int))).map (fun x => x.get ch)).sum =
      (if nd.parent_ = (c : Int) then nd.get ch else 0) +
        ((l.filter (fun x => x.parent_ = (c : Int))).map (fun x => x.get ch)).sum := by
  by_cases h : nd.parent_ = (c : Int) <;> simp [List.filter_cons, h]

theorem subtract_loop_spec (octree4 : List Node) :
    ∀ (n i : Nat) (octree2 : List Node), i + n ≤ octree4.length →
      (∀ nd ∈ octree4, 0 ≤ nd.parent_ ∧ nd.parent_ < (octree2.length : Int)) →
      ∃ out, subtract_loop octree4 n i octree2 = some out ∧ out.length = octree2.length ∧
        ∀ (c : Nat) (nd0 : Node), octree2[c]? = some nd0 →
          ∃ nd1, out[c]? = some nd1 ∧ nd1.parent_ = nd0.parent_ ∧
            ∀ ch, nd1.get ch = nd0.get ch -
              ((((octree4.drop i).take n).filter (fun x => x.parent_ = (c : Int))).map
                (fun x => x.get ch)).sum := by
  intro n
  induction n with
  | zero =>
    intro i octree2 _ _
    refine ⟨octree2, rfl, rfl, ?_⟩
    intro c nd0 h0
    exact ⟨nd0, h0, rfl, fun ch => by simp⟩
  | succ n ih =>
    intro i octree2 hlen hpar
    have hi : i < octree4.length := by omega
    have hget : octree4[i]? = some octree4[i] := List.getElem?_eq_getElem hi
    have hmem : octree4[i] ∈ octree4 := List.getElem_mem hi
    have hp := hpar _ hmem
    obtain ⟨out, h1, h2, h3⟩ := ih (i + 1)
      (updateAt (sub_node octree4[i]) octree4[i].parent_.toNat octree2) (by omega)
      (by rw [length_updateAt]; exact hpar)
    refine ⟨out, ?_, ?_, ?_⟩
    · simp only [subtract_loop, hget, hp, and_self, if_true]
      exact h1
    · rw [h2, length_updateAt]
    · intro c nd0 h0
      have hdrop : (octree4.drop i).take (n + 1) = octree4[i] :: (octree4.drop (i + 1)).take n := by
        rw [List.drop_eq_getElem_cons hi, List.take_succ_cons]
      rw [hdrop]
      by_cases hc : c = octree4[i].parent_.toNat
      · have hup : (updateAt (sub_node octree4[i]) octree4[i].parent_.toNat octree2)[c]? =
            some (sub_node octree4[i] nd0) := by
          rw [getElem?_updateAt, if_pos hc, h0]; rfl
        obtain ⟨nd1, g1, g2, g3⟩ := h3 c _ hup
        refine ⟨nd1, g1, by rw [g2]; rfl, ?_⟩
        intro ch
        have hpc : octree4[i].parent_ = (c : Int) := by omega
        rw [g3 ch, sub_node_get, sum_filter_cons, if_pos hpc]
        ring
      · have hup : (updateAt (sub_node octree4[i]) octree4[i].parent_.toNat octree2)[c]? =
            some nd0 := by
          rw [getElem?_updateAt, if_neg hc, h0]
        obtain ⟨nd1, g1, g2, g3⟩ := h3 c _ hup
        refine ⟨nd1, g1, g2, ?_⟩
        intro ch
        have hpc : ¬ octree4[i].parent_ = (c : Int) := by omega
        rw [g3 ch, sum_filter_cons, if_neg hpc]
        ring

/-! ## The sorted table as a rearrangement of keys -/

theorem perm_map_lift {α β : Type} (g : α → β) {l2 l1 : List β} (h : l2.Perm l1) :
    ∀ la : List α, l1 = la.map g → ∃ lb : List α, lb.Perm la ∧ l2 = lb.map g := by
  induction h with
  | nil =>
    intro la hla
    refine ⟨[], ?_, rfl⟩
    have : la = [] := by
      cases la with
      | nil => rfl
      | cons a t => simp at hla
    rw [this]
  | cons x _ ih =>
    intro la hla
    cases la with
    | nil => simp at hla
    | cons a t =>
      simp only [List.map_cons, List.cons.injEq] at hla
      obtain ⟨lb, hb1, hb2⟩ := ih t hla.2
      exact ⟨a :: lb, List.Perm.cons a hb1, by simp [hla.1, hb2]⟩
  | swap x y l =>
    intro la hla
    cases la with
    | nil => simp at hla
    | cons a t =>
      cases t with
      | nil => simp at hla
      | cons b t =>
        simp only [List.map_cons, List.cons.injEq] at hla
        exact ⟨b :: a :: t, List.Perm.swap a b t, by simp [hla.1, hla.2.1, hla.2.2]⟩
  | trans _ _ ih1 ih2 =>
    intro la hla
    obtain ⟨lm, hm1, hm2⟩ := ih2 la hla
    obtain ⟨lb, hb1, hb2⟩ := ih1 lm hm2
    exact ⟨lb, hb1.trans hm1, hb2⟩

theorem accumulate_fst (P : List Nat) :
    (accumulate P).1 = (List.range (8*8*8*8)).map (fine_node P) := by
  rw [accumulate_eq]

theorem accumulate_snd (P : List Nat) :
    (accumulate P).2 = (List.range (8*8)).map (coarse_node P) := by
  rw [accumulate_eq]

theorem accumulate_snd_length (P : List Nat) : (accumulate P).2.length = 64 := by
  rw [accumulate_snd]; simp

theorem accumulate_fst_length (P : List Nat) : (accumulate P).1.length = 4096 := by
  rw [accumulate_fst]; simp

theorem accumulate_snd_get (P : List Nat) (c : Nat) (hc : c < 64) :
    (accumulate P).2[c]? = some (coarse_node P c) := by
  rw [accumulate_snd, List.getElem?_map, List.getElem?_range (by omega)]
  rfl

/-- The sorted table lists the level 4 nodes of a rearrangement `idx` of the keys. -/
theorem sorted_keys (P : List Nat) (sorted : List Node) (h : sorted.Perm (accumulate P).1) :
    ∃ idx : List Nat, idx.Perm (List.range (8*8*8*8)) ∧ sorted = idx.map (fine_node P) :=
  perm_map_lift (fine_node P) h (List.range (8*8*8*8)) (accumulate_fst P)

theorem sorted_parent_range (P : List Nat) (sorted : List Node)
    (h : sorted.Perm (accumulate P).1) :
    ∀ nd ∈ sorted, 0 ≤ nd.parent_ ∧ nd.parent_ < 64 := by
  intro nd hnd
  have hm : nd ∈ (accumulate P).1 := h.subset hnd
  rw [accumulate_fst, List.mem_map] at hm
  obtain ⟨k, _, hk⟩ := hm
  rw [← hk]
  exact fine_node_parent_range P k

/-- The subtraction loop runs without fault on a rearrangement of the
accumulated level 4 table, and leaves in each level 2 bucket its accumulated
quantities minus those of the first 128 nodes that name it as parent. -/
theorem subtract_spec (P : List Nat) (sorted : List Node) (h : sorted.Perm (accumulate P).1) :
    ∃ post2, subtract_loop sorted 128 0 (accumulate P).2 = some post2 ∧ post2.length = 64 ∧
      ∀ c, c < 64 → ∃ nd, post2[c]? = some nd ∧ nd.parent_ = 0 ∧
        ∀ ch, nd.get ch = total ch (fun p => index2 p = c) P -
          ((((sorted.take 128).filter (fun x => x.parent_ = (c : Int))).map
            (fun x => x.get ch)).sum) := by
  have hlen : sorted.length = 4096 := by rw [h.length_eq, accumulate_fst_length]
  obtain ⟨post2, h1, h2, h3⟩ := subtract_loop_spec sorted 128 0 (accumulate P).2 (by omega)
    (by rw [accumulate_snd_length]; exact sorted_parent_range P sorted h)
  refine ⟨post2, h1, by rw [h2, accumulate_snd_length], ?_⟩
  intro c hc
  obtain ⟨nd, g1, g2, g3⟩ := h3 c _ (accumulate_snd_get P c hc)
  refine ⟨nd, g1, by rw [g2]; rfl, ?_⟩
  intro ch
  rw [g3 ch, coarse_node_get, List.drop_zero]

/-- With the first 128 sorted nodes those of the distinct keys `sel`, what
they take from level 2 bucket `c` is the total over the samples of `c` whose
level 4 index is in `sel`. -/
theorem selected_sum_eq (P : List Nat) (sorted : List Node) (sel : List Nat)
    (hnd : sel.Nodup) (hsel : sorted.take 128 = sel.map (fine_node P)) (c : Nat) (ch : Chan) :
    ((((sorted.take 128).filter (fun x => x.parent_ = (c : Int))).map (fun x => x.get ch)).sum) =
      total ch (fun p => decide (index2 p = c) && decide (index4 p ∈ sel)) P := by
  rw [hsel]
  exact share_sum P c ch sel hnd

theorem remaining_eq (P : List Nat) (sel : List Nat) (c : Nat) (ch : Chan) :
    total ch (fun p => index2 p = c) P -
      total ch (fun p => decide (index2 p = c) && decide (index4 p ∈ sel)) P =
      total ch (fun p => decide (index2 p = c) && !decide (index4 p ∈ sel)) P := by
  rw [total_split ch (fun p => index2 p = c) (fun p => decide (index4 p ∈ sel)) P]
  ring

/-- Keys of the first 128 sorted nodes exist: distinct, 128 of them, below 4096. -/
theorem selected_keys (P : List Nat) (sorted : List Node) (h : sorted.Perm (accumulate P).1) :
    ∃ sel : List Nat, sel.Nodup ∧ sel.length = 128 ∧ (∀ k ∈ sel, k < 4096) ∧
      sorted.take 128 = sel.map (fine_node P) := by
  obtain ⟨idx, hperm, hmap⟩ := sorted_keys P sorted h
  have hnd : idx.Nodup := hperm.nodup_iff.mpr (List.nodup_range _)
  have hlen : idx.length = 4096 := by rw [hperm.length_eq]; simp
  refine ⟨idx.take 128, ?_, ?_, ?_, ?_⟩
  · exact List.Nodup.sublist (List.take_sublist _ _) hnd
  · rw [List.length_take]; omega
  · intro k hk
    have : k ∈ List.range (8*8*8*8) := hperm.subset (List.mem_of_mem_take hk)
    simpa using this
  · rw [hmap, List.map_take]

/-! ## The averaging loop -/

theorem fill_palette_inv (octree2 octree4 : List Node) :
    ∀ (n i : Nat) (pal : List Nat), fill_palette octree2 octree4 n i = some pal →
      pal.length = n ∧ ∀ j, j < n → pal[j]? = palette_byte octree2 octree4 (i + j) := by
  intro n
  induction n with
  | zero =>
    intro i pal h
    simp only [fill_palette, Option.some.injEq] at h
    subst h
    exact ⟨rfl, fun j hj => by omega⟩
  | succ n ih =>
    intro i pal h
    unfold fill_palette at h
    cases hb : palette_byte octree2 octree4 i with
    | none => rw [hb] at h; simp at h
    | some b =>
      rw [hb] at h
      simp only [] at h
      cases hr : fill_palette octree2 octree4 n (i + 1) with
      | none => rw [hr] at h; simp at h
      | some rest =>
        rw [hr] at h
        simp only [Option.some.injEq] at h
        subst h
        obtain ⟨h1, h2⟩ := ih (i + 1) rest hr
        refine ⟨by simp [h1], ?_⟩
        intro j hj
        cases j with
        | zero => simp [hb]
        | succ j =>
          have := h2 j (by omega)
          simp only [List.getElem?_cons_succ, this]
          congr 1
          omega

theorem fill_palette_some (octree2 octree4 : List Node) :
    ∀ (n i : Nat), (∀ j, j < n → palette_byte octree2 octree4 (i + j) ≠ none) →
      ∃ pal, fill_palette octree2 octree4 n i = some pal := by
  intro n
  induction n with
  | zero => intro i _; exact ⟨[], rfl⟩
  | succ n ih =>
    intro i h
    have h0 := h 0 (by omega)
    obtain ⟨rest, hr⟩ := ih (i + 1) (fun j hj => by
      have := h (j + 1) (by omega)
      rwa [show i + (j + 1) = i + 1 + j by omega] at this)
    cases hb : palette_byte octree2 octree4 i with
    | none => exact absurd hb h0
    | some b => exact ⟨b :: rest, by simp [fill_palette, hb, hr]⟩

theorem fill_palette_fault (octree2 octree4 : List Node) (n i j : Nat) (hj : j < n)
    (h : palette_byte octree2 octree4 (i + j) = none) :
    fill_palette octree2 octree4 n i = none := by
  cases hf : fill_palette octree2 octree4 n i with
  | none => rfl
  | some pal =>
    obtain ⟨h1, h2⟩ := fill_palette_inv octree2 octree4 n i pal hf
    have := h2 j hj
    rw [h, List.getElem?_eq_none_iff] at this
    omega

/-- The value of `palette_byte` on a node with a non-zero count. -/
theorem palette_byte_coarse (octree2 octree4 : List Node) (c : Nat) (hc : c < 64) (nd : Node)
    (hnd : octree2[c]? = some nd) (hcount : nd.count_ ≠ 0) :
    palette_byte octree2 octree4 (3 * c) = some ((nd.rSum_.tdiv nd.count_) % 256).toNat ∧
    palette_byte octree2 octree4 (3 * c + 1) = some ((nd.gSum_.tdiv nd.count_) % 256).toNat ∧
    palette_byte octree2 octree4 (3 * c + 2) = some ((nd.bSum_.tdiv nd.count_) % 256).toNat := by
  have d0 : 3 * c / 3 = c := by omega
  have d1 : (3 * c + 1) / 3 = c := by omega
  have d2 : (3 * c + 2) / 3 = c := by omega
  have m0 : 3 * c % 3 = 0 := by omega
  have m1 : (3 * c + 1) % 3 = 1 := by omega
  have m2 : (3 * c + 2) % 3 = 2 := by omega
  have l0 : 3 * c < 3 * 64 := by omega
  have l1 : 3 * c + 1 < 3 * 64 := by omega
  have l2 : 3 * c + 2 < 3 * 64 := by omega
  refine ⟨?_, ?_, ?_⟩
  · simp only [palette_byte, if_pos l0, d0, hnd, hcount, if_false, m0, if_true]
  · simp only [palette_byte, if_pos l1, d1, hnd, hcount, if_false, m1, if_true]
    simp
  · simp only [palette_byte, if_pos l2, d2, hnd, hcount, if_false, m2, if_true]
    simp

theorem palette_byte_fine (octree2 octree4 : List Node) (j : Nat) (nd : Node)
    (hnd : octree4[j]? = some nd) (hcount : nd.count_ ≠ 0) :
    palette_byte octree2 octree4 (3 * (64 + j)) = some ((nd.rSum_.tdiv nd.count_) % 256).toNat ∧
    palette_byte octree2 octree4 (3 * (64 + j) + 1) = some ((nd.gSum_.tdiv nd.count_) % 256).toNat ∧
    palette_byte octree2 octree4 (3 * (64 + j) + 2) = some ((nd.bSum_.tdiv nd.count_) % 256).toNat := by
  have d0 : 3 * (64 + j) / 3 - 64 = j := by omega
  have d1 : (3 * (64 + j) + 1) / 3 - 64 = j := by omega
  have d2 : (3 * (64 + j) + 2) / 3 - 64 = j := by omega
  have m0 : 3 * (64 + j) % 3 = 0 := by omega
  have m1 : (3 * (64 + j) + 1) % 3 = 1 := by omega
  have m2 : (3 * (64 + j) + 2) % 3 = 2 := by omega
  have l0 : ¬ 3 * (64 + j) < 3 * 64 := by omega
  have l1 : ¬ 3 * (64 + j) + 1 < 3 * 64 := by omega
  have l2 : ¬ 3 * (64 + j) + 2 < 3 * 64 := by omega
  refine ⟨?_, ?_, ?_⟩
  · simp only [palette_byte, if_neg l0, d0, hnd, hcount, if_false, m0, if_true]
  · simp only [palette_byte, if_neg l1, d1, hnd, hcount, if_false, m1, if_true]
    simp
  · simp only [palette_byte, if_neg l2, d2, hnd, hcount, if_false, m2, if_true]
    simp

/-- A zero count at the node read for position `i` is a division by zero. -/
theorem palette_byte_zero_count (octree2 octree4 : List Node) (c : Nat) (hc : c < 64) (nd : Node)
    (hnd : octree2[c]? = some nd) (hcount : nd.count_ = 0) :
    palette_byte octree2 octree4 (3 * c) = none := by
  have d0 : 3 * c / 3 = c := by omega
  have l0 : 3 * c < 3 * 64 := by omega
  simp only [palette_byte, if_pos l0, d0, hnd, hcount, if_true]

theorem palette_byte_some_count (octree2 octree4 : List Node) (i : Nat) (b : Nat)
    (h : palette_byte octree2 octree4 i = some b) :
    ∃ nd, (if i < 3 * 64 then octree2[i / 3]? else octree4[i / 3 - 64]?) = some nd ∧
      nd.count_ ≠ 0 := by
  unfold palette_byte at h
  cases hn : (if i < 3 * 64 then octree2[i / 3]? else octree4[i / 3 - 64]?) with
  | none => rw [hn] at h; simp at h
  | some nd =>
    rw [hn] at h
    refine ⟨nd, rfl, ?_⟩
    intro hz
    simp [hz] at h

/-! ## Range of the stored means -/

theorem total_bounds (ch : Chan) (S : Nat → Bool) (lo hi : Int) (P : List Nat)
    (h : ∀ p ∈ P, S p = true → lo ≤ weight p ch ∧ weight p ch ≤ hi) :
    lo * total Chan.n S P ≤ total ch S P ∧ total ch S P ≤ hi * total Chan.n S P := by
  induction P with
  | nil => simp [total_nil]
  | cons p P ih =>
    obtain ⟨i1, i2⟩ := ih (fun q hq => h q (List.mem_cons_of_mem _ hq))
    rw [total_cons, total_cons]
    by_cases hs : S p = true
    · obtain ⟨b1, b2⟩ := h p (List.mem_cons_self _ _) hs
      simp only [hs, if_true]
      have : weight p Chan.n = 1 := rfl
      rw [this, mul_add, mul_add]
      constructor <;> omega
    · simp only [hs]
      simp only [Bool.false_eq_true, if_false, zero_add]
      exact ⟨i1, i2⟩

theorem stored_mean (s cnt lo hi : Int) (hcnt : 0 < cnt) (hlo : 0 ≤ lo) (hhi : hi ≤ 255)
    (h1 : lo * cnt ≤ s) (h2 : s ≤ hi * cnt) :
    ((s.tdiv cnt) % 256).toNat = mean s cnt ∧ lo ≤ ((mean s cnt : Nat) : Int) ∧
      ((mean s cnt : Nat) : Int) ≤ hi := by
  have hs : 0 ≤ s := le_trans (mul_nonneg hlo (le_of_lt hcnt)) h1
  have e : s.tdiv cnt = s / cnt := Int.tdiv_eq_ediv hs (le_of_lt hcnt)
  have b1 : lo ≤ s / cnt := Int.le_ediv_of_mul_le hcnt h1
  have b2 : s / cnt ≤ hi := Int.ediv_le_of_le_mul hcnt h2
  unfold mean
  rw [e]
  refine ⟨?_, ?_, ?_⟩ <;> omega

/-- The three stored means of a node whose quantities are totals over samples of
level 2 region `c` lie in region `c`. -/
theorem region_means (P : List Nat) (S : Nat → Bool) (c : Nat) (hc : c < 64) (nd : Node)
    (hS : ∀ p ∈ P, S p = true → index2 p = c)
    (hget : ∀ ch, nd.get ch = total ch S P) (hcount : nd.count_ ≠ 0) :
    ((nd.rSum_.tdiv nd.count_) % 256).toNat = mean nd.rSum_ nd.count_ ∧
    ((nd.gSum_.tdiv nd.count_) % 256).toNat = mean nd.gSum_ nd.count_ ∧
    ((nd.bSum_.tdiv nd.count_) % 256).toNat = mean nd.bSum_ nd.count_ ∧
    in_region (mean nd.rSum_ nd.count_) (mean nd.gSum_ nd.count_) (mean nd.bSum_ nd.count_) c := by
  have hn : nd.count_ = total Chan.n S P := hget Chan.n
  have hr : nd.rSum_ = total Chan.r S P := hget Chan.r
  have hg : nd.gSum_ = total Chan.g S P := hget Chan.g
  have hb : nd.bSum_ = total Chan.b S P := hget Chan.b
  have hpos : 0 < nd.count_ := by
    have := total_nonneg Chan.n S P
    omega
  have br := total_bounds Chan.r S (8 * (c / 16 : Nat)) (8 * (c / 16 : Nat) + 7) P (by
    intro p hp hs
    have := channel_ranges p
    rw [hS p hp hs] at this
    simp only [weight]
    omega)
  have bg := total_bounds Chan.g S (16 * (c / 4 % 4 : Nat)) (16 * (c / 4 % 4 : Nat) + 15) P (by
    intro p hp hs
    have := channel_ranges p
    rw [hS p hp hs] at this
    simp only [weight]
    omega)
  have bb := total_bounds Chan.b S (8 * (c % 4 : Nat)) (8 * (c % 4 : Nat) + 7) P (by
    intro p hp hs
    have := channel_ranges p
    rw [hS p hp hs] at this
    simp only [weight]
    omega)
  rw [← hn, ← hr] at br
  rw [← hn, ← hg] at bg
  rw [← hn, ← hb] at bb
  have sr := stored_mean nd.rSum_ nd.count_ _ _ hpos (by omega) (by omega) br.1 br.2
  have sg := stored_mean nd.gSum_ nd.count_ _ _ hpos (by omega) (by omega) bg.1 bg.2
  have sb := stored_mean nd.bSum_ nd.count_ _ _ hpos (by omega) (by omega) bb.1 bb.2
  refine ⟨sr.1, sg.1, sb.1, ?_⟩
  unfold in_region
  omega

/-! ## Structure of a finished palette -/

theorem build_palette_inv (qsort : List Node → List Node) (P : List Nat) (pal : List Nat)
    (hb : build_palette qsort P = some pal) :
    ∃ post2, subtract_loop (qsort (accumulate P).1) 128 0 (accumulate P).2 = some post2 ∧
      fill_palette post2 (qsort (accumulate P).1) (3 * 192) 0 = some pal := by
  unfold build_palette at hb
  simp only [] at hb
  cases hs : subtract_loop (qsort (accumulate P).1) 128 0 (accumulate P).2 with
  | none => rw [hs] at hb; simp at hb
  | some post2 =>
    rw [hs] at hb
    exact ⟨post2, rfl, hb⟩

theorem fill_palette_count (octree2 octree4 : List Node) (pal : List Nat)
    (hf : fill_palette octree2 octree4 (3 * 192) 0 = some pal) (i : Nat) (hi : i < 3 * 192) :
    ∃ nd, (if i < 3 * 64 then octree2[i / 3]? else octree4[i / 3 - 64]?) = some nd ∧
      nd.count_ ≠ 0 := by
  obtain ⟨h1, h2⟩ := fill_palette_inv octree2 octree4 (3 * 192) 0 pal hf
  have hlt : i < pal.length := by omega
  have hg := h2 i hi
  rw [List.getElem?_eq_getElem hlt, Nat.zero_add] at hg
  exact palette_byte_some_count octree2 octree4 i _ hg.symm

/-- In a finished palette each of the first 64 entries is the stored mean of its
level 2 bucket after subtraction, has a non-zero count, and lies in the region
of its own index. -/
theorem finished_coarse_entries (qsort : List Node → List Node) (P : List Nat) (pal : List Nat)
    (hperm : (qsort (accumulate P).1).Perm (accumulate P).1)
    (hb : build_palette qsort P = some pal) :
    ∃ post2, subtract_loop (qsort (accumulate P).1) 128 0 (accumulate P).2 = some post2 ∧
      pal.length = 3 * 192 ∧
      ∀ c, c < 64 → ∃ nd, post2[c]? = some nd ∧ nd.count_ ≠ 0 ∧
        pal[3 * c]? = some (mean nd.rSum_ nd.count_) ∧
        pal[3 * c + 1]? = some (mean nd.gSum_ nd.count_) ∧
        pal[3 * c + 2]? = some (mean nd.bSum_ nd.count_) ∧
        in_region (mean nd.rSum_ nd.count_) (mean nd.gSum_ nd.count_) (mean nd.bSum_ nd.count_) c := by
  obtain ⟨post2, hs, hf⟩ := build_palette_inv qsort P pal hb
  obtain ⟨post2b, hs2, _, hspec⟩ := subtract_spec P _ hperm
  rw [hs] at hs2
  simp only [Option.some.injEq] at hs2
  subst hs2
  obtain ⟨sel, hnd, _, _, hsel⟩ := selected_keys P _ hperm
  obtain ⟨hlen, hget⟩ := fill_palette_inv _ _ _ _ _ hf
  refine ⟨post2, hs, hlen, ?_⟩
  intro c hc
  obtain ⟨nd, g1, _, g3⟩ := hspec c hc
  have hcnt : nd.count_ ≠ 0 := by
    obtain ⟨nd2, e1, e2⟩ := fill_palette_count _ _ _ hf (3 * c) (by omega)
    rw [if_pos (by omega), show 3 * c / 3 = c by omega, g1] at e1
    simp only [Option.some.injEq] at e1
    rw [e1]
    exact e2
  have hget2 : ∀ ch, nd.get ch =
      total ch (fun p => decide (index2 p = c) && !decide (index4 p ∈ sel)) P := by
    intro ch
    rw [g3 ch, selected_sum_eq P _ sel hnd hsel c ch, remaining_eq]
  obtain ⟨m1, m2, m3, hreg⟩ := region_means P _ c hc nd (by
    intro p _ hs
    simp only [Bool.and_eq_true, decide_eq_true_eq] at hs
    exact hs.1) hget2 hcnt
  obtain ⟨b1, b2, b3⟩ := palette_byte_coarse post2 (qsort (accumulate P).1) c hc nd g1 hcnt
  refine ⟨nd, g1, hcnt, ?_, ?_, ?_, hreg⟩
  · rw [hget (3 * c) (by omega), Nat.zero_add, b1, m1]
  · rw [hget (3 * c + 1) (by omega), Nat.zero_add, b2, m2]
  · rw [hget (3 * c + 2) (by omega), Nat.zero_add, b3, m3]

/-! ## `determinePaletteValue` on a palette whose first entries lie in their regions -/

theorem determinePaletteValue_loop_region (pixel : Nat) (pal : List Nat)
    (hreg : ∀ c, c < 64 → ∃ r g b, pal[3 * c]? = some r ∧ pal[3 * c + 1]? = some g ∧
      pal[3 * c + 2]? = some b ∧ in_region r g b c) :
    ∀ (n i : Nat), i ≤ 16 → 17 ≤ i + n → (0 < i → red pixel ≤ 7) →
      determinePaletteValue_loop pixel pal n i = some (64 + index2 pixel) := by
  intro n
  induction n with
  | zero => intro i h1 h2 _; omega
  | succ n ih =>
    intro i h1 h2 hred
    obtain ⟨r, g, b, e1, e2, e3, hin⟩ := hreg i (by omega)
    have hcr := channel_ranges pixel
    have hlt := index2_lt pixel
    unfold in_region at hin
    unfold determinePaletteValue_loop
    rw [show i * 3 = 3 * i by omega, e1]
    simp only []
    by_cases hr : r = red pixel
    · rw [if_pos hr, e2]
      simp only []
      have hi16 : i < 16 := by
        by_contra hcon
        have hi : i = 16 := by omega
        have := hred (by omega)
        subst hi
        omega
      have hnext : determinePaletteValue_loop pixel pal n (i + 1) = some (64 + index2 pixel) :=
        ih (i + 1) (by omega) (by omega) (fun _ => by omega)
      by_cases hg : g = green pixel
      · rw [if_pos hg, e3]
        simp only []
        by_cases hb : b = blue pixel
        · rw [if_pos hb]
          have : index2 pixel = i := by omega
          rw [this]
          congr 1
          omega
        · rw [if_neg hb]
          exact hnext
      · rw [if_neg hg]
        exact hnext
    · rw [if_neg hr, coarse_key_eq]
      congr 1
      omega

/-- On a finished palette `determinePaletteValue` returns the level 2 index of
the sample plus 64, for every sample. -/
theorem determinePaletteValue_finished (qsort : List Node → List Node) (P : List Nat)
    (pal : List Nat) (hperm : (qsort (accumulate P).1).Perm (accumulate P).1)
    (hb : build_palette qsort P = some pal) (pixel : Nat) :
    determinePaletteValue pixel pal = some (64 + index2 pixel) := by
  obtain ⟨post2, _, _, hc⟩ := finished_coarse_entries qsort P pal hperm hb
  apply determinePaletteValue_loop_region pixel pal _ 192 0 (by omega) (by omega) (fun h => by omega)
  intro c hc64
  obtain ⟨nd, _, _, e1, e2, e3, hin⟩ := hc c hc64
  exact ⟨_, _, _, e1, e2, e3, hin⟩

/-! ## The order `cmpfunc` induces on the accumulated table -/

theorem wrap32_small (v : Int) (h1 : -2147483648 ≤ v) (h2 : v < 2147483648) : wrap32 v = v := by
  unfold wrap32; omega

theorem cmpfunc_le_iff (a b : Node) (ha0 : 0 ≤ a.count_) (ha1 : a.count_ ≤ 1024 * 1024)
    (hb0 : 0 ≤ b.count_) (hb1 : b.count_ ≤ 1024 * 1024) :
    cmpfunc a b ≤ 0 ↔ b.count_ ≤ a.count_ := by
  unfold cmpfunc
  rw [wrap32_small _ (by omega) (by omega)]
  omega

theorem total_n_le_length (S : Nat → Bool) (P : List Nat) :
    total Chan.n S P ≤ (P.length : Int) := by
  induction P with
  | nil => simp [total_nil]
  | cons p P ih =>
    rw [total_cons]
    have : weight p Chan.n = 1 := rfl
    rw [this]
    simp only [List.length_cons]
    push_cast
    split <;> omega

theorem fine_count_range (P : List Nat) (k : Nat) :
    0 ≤ (fine_node P k).count_ ∧ (fine_node P k).count_ ≤ (P.length : Int) :=
  ⟨total_nonneg Chan.n _ P, total_n_le_length _ P⟩

theorem accumulate_count_range (P : List Nat) (nd : Node) (h : nd ∈ (accumulate P).1) :
    0 ≤ nd.count_ ∧ nd.count_ ≤ (P.length : Int) := by
  rw [accumulate_fst, List.mem_map] at h
  obtain ⟨k, _, hk⟩ := h
  rw [← hk]
  exact fine_count_range P k

/-- On the table of an image of at most 1024 x 1024 samples, ascending
order of `cmpfunc` is non-increasing order of the counts. -/
theorem sorted_counts (P : List Nat) (sorted : List Node) (hlen : P.length ≤ 1024 * 1024)
    (hq : qsort_post cmpfunc (accumulate P).1 sorted) :
    sorted.Pairwise (fun a b => b.count_ ≤ a.count_) := by
  apply List.Pairwise.imp_of_mem _ hq.2
  intro a b ha hb hab
  have ra := accumulate_count_range P a (hq.1.subset ha)
  have rb := accumulate_count_range P b (hq.1.subset hb)
  have hl : (P.length : Int) ≤ 1024 * 1024 := by exact_mod_cast hlen
  exact (cmpfunc_le_iff a b ra.1 (by omega) rb.1 (by omega)).mp hab

theorem pairwise_getElem_le (l : List Node) (h : l.Pairwise (fun a b => b.count_ ≤ a.count_))
    (i j : Nat) (hij : i < j) (hj : j < l.length) :
    (l.get ⟨j, hj⟩).count_ ≤ (l.get ⟨i, by omega⟩).count_ :=
  List.pairwise_iff_get.mp h ⟨i, by omega⟩ ⟨j, hj⟩ hij

/-- The concrete merge sort meets the contract of `qsort` with `cmpfunc` on
the table of an image of at most 1024 x 1024 samples. -/
theorem sort_desc_post (P : List Nat) (hlen : P.length ≤ 1024 * 1024) :
    qsort_post cmpfunc (accumulate P).1 (sort_desc (accumulate P).1) := by
  have hperm : (sort_desc (accumulate P).1).Perm (accumulate P).1 := List.mergeSort_perm _ _
  refine ⟨hperm, ?_⟩
  have hs : (sort_desc (accumulate P).1).Pairwise
      (fun a b => decide (b.count_ ≤ a.count_) = true) :=
    List.sorted_mergeSort
      (fun a b c hab hbc => by
        simp only [decide_eq_true_eq] at hab hbc ⊢
        omega)
      (fun a b => by
        simp only [Bool.or_eq_true, decide_eq_true_eq]
        omega) _
  apply List.Pairwise.imp_of_mem _ hs
  intro a b ha hb hab
  simp only [decide_eq_true_eq] at hab
  have ra := accumulate_count_range P a (hperm.subset ha)
  have rb := accumulate_count_range P b (hperm.subset hb)
  have hl : (P.length : Int) ≤ 1024 * 1024 := by exact_mod_cast hlen
  exact (cmpfunc_le_iff a b ra.1 (by omega) rb.1 (by omega)).mpr hab

/-! ## Which keys are selected -/

/-- If at least 128 distinct keys have count at least `m`, every key among
the first 128 of a count-sorted rearrangement has count at least `m`. -/
theorem selected_counts_ge (cnt : Nat → Int) (idx : List Nat)
    (hperm : idx.Perm (List.range (8*8*8*8)))
    (hpw : idx.Pairwise (fun i j => cnt j ≤ cnt i))
    (K : List Nat) (m : Int) (hK : K.Nodup) (hKlen : 128 ≤ K.length)
    (hKk : ∀ k ∈ K, k < 4096 ∧ m ≤ cnt k) :
    ∀ k ∈ idx.take 128, m ≤ cnt k := by
  intro k hk
  by_contra hlt
  obtain ⟨L, R, hLR⟩ := List.append_of_mem hk
  have hidx : idx = L ++ (k :: (R ++ idx.drop 128)) := by
    calc idx = idx.take 128 ++ idx.drop 128 := (List.take_append_drop 128 idx).symm
      _ = L ++ (k :: (R ++ idx.drop 128)) := by rw [hLR]; simp
  have hLlen : L.length < 128 := by
    have h1 : (idx.take 128).length ≤ 128 := List.length_take_le _ _
    rw [hLR] at h1
    simp at h1
    omega
  rw [hidx] at hpw
  have hp2 := (List.pairwise_append.mp hpw).2.1
  have hafter := (List.pairwise_cons.mp hp2).1
  have hsub : K ⊆ L := by
    intro k2 hk2
    obtain ⟨hk2lt, hk2m⟩ := hKk k2 hk2
    have hmem : k2 ∈ idx := hperm.symm.subset (by simpa using hk2lt)
    rw [hidx, List.mem_append, List.mem_cons] at hmem
    rcases hmem with h | h | h
    · exact h
    · subst h; exact absurd hk2m hlt
    · have := hafter k2 h
      omega
  have := (List.subperm_of_subset hK hsub).length_le
  omega

theorem total_pos_of_mem (S : Nat → Bool) (P : List Nat) (p : Nat) (hp : p ∈ P)
    (hs : S p = true) : 1 ≤ total Chan.n S P := by
  induction P with
  | nil => simp at hp
  | cons q P ih =>
    rw [total_cons]
    have hnn := total_nonneg Chan.n S P
    have hw : weight q Chan.n = 1 := rfl
    rcases List.mem_cons.mp hp with h | h
    · subst h
      rw [hs, hw]
      simp
      omega
    · have := ih h
      split <;> omega

theorem palette_byte_ne_none (octree2 octree4 : List Node) (i : Nat) (nd : Node)
    (h : (if i < 3 * 64 then octree2[i / 3]? else octree4[i / 3 - 64]?) = some nd)
    (hcount : nd.count_ ≠ 0) : palette_byte octree2 octree4 i ≠ none := by
  unfold palette_byte
  rw [h]
  simp [hcount]

/-- A criterion for the palette construction to complete: at least 128 distinct
level 4 keys hold at least `m >= 1` samples, and every level 2 region has a
sample whose level 4 bucket holds fewer than `m`. -/
theorem build_palette_completes (qsort : List Node → List Node) (P : List Nat)
    (hlen : P.length ≤ 1024 * 1024)
    (hq : qsort_post cmpfunc (accumulate P).1 (qsort (accumulate P).1))
    (K : List Nat) (m : Int) (hm : 1 ≤ m) (hK : K.Nodup) (hKlen : 128 ≤ K.length)
    (hKk : ∀ k ∈ K, k < 4096 ∧ m ≤ (fine_node P k).count_)
    (lone : Nat → Nat)
    (hlone : ∀ c, c < 64 → lone c ∈ P ∧ index2 (lone c) = c ∧
      (fine_node P (index4 (lone c))).count_ < m) :
    ∃ pal, build_palette qsort P = some pal := by
  obtain ⟨idx, hperm, hmap⟩ := sorted_keys P _ hq.1
  have hsorted := sorted_counts P _ hlen hq
  rw [hmap, List.pairwise_map] at hsorted
  have hge := selected_counts_ge (fun k => (fine_node P k).count_) idx hperm hsorted K m hK hKlen hKk
  obtain ⟨post2, hs, hplen, hspec⟩ := subtract_spec P _ hq.1
  have hidxlen : idx.length = 4096 := by rw [hperm.length_eq]; simp
  have hnd : (idx.take 128).Nodup :=
    List.Nodup.sublist (List.take_sublist _ _) (hperm.nodup_iff.mpr (List.nodup_range _))
  have hsel : (qsort (accumulate P).1).take 128 = (idx.take 128).map (fine_node P) := by
    rw [hmap, List.map_take]
  obtain ⟨pal, hpal⟩ := fill_palette_some post2 (qsort (accumulate P).1) (3 * 192) 0 (by
    intro j hj
    rw [Nat.zero_add]
    by_cases hj2 : j < 3 * 64
    · obtain ⟨nd, g1, _, g3⟩ := hspec (j / 3) (by omega)
      apply palette_byte_ne_none _ _ j nd (by rw [if_pos hj2]; exact g1)
      have hcnt : nd.count_ = total Chan.n
          (fun p => decide (index2 p = j / 3) && !decide (index4 p ∈ idx.take 128)) P := by
        have := g3 Chan.n
        rw [selected_sum_eq P _ (idx.take 128) hnd hsel (j / 3) Chan.n, remaining_eq] at this
        exact this
      obtain ⟨l1, l2, l3⟩ := hlone (j / 3) (by omega)
      have hnot : index4 (lone (j / 3)) ∉ idx.take 128 := by
        intro hmem
        have := hge _ hmem
        simp only at this
        omega
      have := total_pos_of_mem
        (fun p => decide (index2 p = j / 3) && !decide (index4 p ∈ idx.take 128)) P
        (lone (j / 3)) l1 (by simp [l2, hnot])
      omega
    · have hjj : j / 3 - 64 < 128 := by omega
      have hlt : j / 3 - 64 < idx.length := by omega
      have hg : (qsort (accumulate P).1)[j / 3 - 64]? = some (fine_node P (idx[j / 3 - 64])) := by
        rw [hmap, List.getElem?_map, List.getElem?_eq_getElem hlt]
        rfl
      apply palette_byte_ne_none _ _ j _ (by rw [if_neg hj2]; exact hg)
      have hmem : idx[j / 3 - 64] ∈ idx.take 128 := by
        rw [List.mem_take_iff_getElem]
        exact ⟨j / 3 - 64, by omega, rfl⟩
      have := hge _ hmem
      simp only at this
      omega)
  refine ⟨pal, ?_⟩
  unfold build_palette
  simp only []
  rw [hs]
  exact hpal

theorem sample_image_length : sample_image.length ≤ 1024 * 1024 := by decide!

theorem sample_keys_nodup : sample_keys.Nodup := by decide!

theorem sample_keys_length : 128 ≤ sample_keys.length := by decide!

theorem sample_keys_counts :
    ∀ k ∈ sample_keys, k < 4096 ∧ (2 : Int) ≤ (fine_node sample_image k).count_ := by decide!

theorem sample_lone_spec : ∀ c, c < 64 → sample_lone c ∈ sample_image ∧
    index2 (sample_lone c) = c ∧ (fine_node sample_image (index4 (sample_lone c))).count_ < 2 := by
  decide!

/-- The palette construction completes on `sample_image`, for every outcome of `qsort`. -/
theorem sample_image_completes (qsort : List Node → List Node)
    (hq : qsort_post cmpfunc (accumulate sample_image).1 (qsort (accumulate sample_image).1)) :
    ∃ pal, build_palette qsort sample_image = some pal :=
  build_palette_completes qsort sample_image sample_image_length hq sample_keys 2 (by omega)
    sample_keys_nodup sample_keys_length sample_keys_counts sample_lone sample_lone_spec

/-! ## Keys of the sorted nodes -/

theorem accumulate_fst_getD (P : List Nat) (k : Nat) (hk : k < 4096) :
    (accumulate P).1.getD k init = fine_node P k := by
  rw [accumulate_fst, List.getD_eq_getElem?_getD, List.getElem?_map,
    List.getElem?_range (by omega)]
  rfl

theorem rearranged_by_fine (P : List Nat) (sorted : List Node) (idx : List Nat)
    (h : rearranged_by (accumulate P).1 sorted idx) :
    idx.Perm (List.range (8*8*8*8)) ∧ sorted = idx.map (fine_node P) := by
  obtain ⟨h1, h2⟩ := h
  rw [accumulate_fst_length] at h1
  refine ⟨h1, ?_⟩
  rw [h2]
  apply List.map_congr_left
  intro k hk
  have : k ∈ List.range 4096 := h1.subset hk
  exact accumulate_fst_getD P k (by simpa using this)

theorem rearranged_by_exists (P : List Nat) (sorted : List Node)
    (h : sorted.Perm (accumulate P).1) :
    ∃ idx, rearranged_by (accumulate P).1 sorted idx := by
  obtain ⟨idx, h1, h2⟩ := sorted_keys P sorted h
  refine ⟨idx, ?_, ?_⟩
  · rw [accumulate_fst_length]; exact h1
  · rw [h2]
    apply List.map_congr_left
    intro k hk
    have : k ∈ List.range 4096 := h1.subset hk
    exact (accumulate_fst_getD P k (by simpa using this)).symm

theorem rearranged_take (P : List Nat) (sorted : List Node) (idx : List Nat)
    (h : rearranged_by (accumulate P).1 sorted idx) :
    (idx.take 128).Nodup ∧ (idx.take 128).length = 128 ∧ (∀ k ∈ idx.take 128, k < 4096) ∧
      sorted.take 128 = (idx.take 128).map (fine_node P) := by
  obtain ⟨hperm, hmap⟩ := rearranged_by_fine P sorted idx h
  have hlen : idx.length = 4096 := by rw [hperm.length_eq]; simp
  refine ⟨?_, ?_, ?_, ?_⟩
  · exact List.Nodup.sublist (List.take_sublist _ _) (hperm.nodup_iff.mpr (List.nodup_range _))
  · rw [List.length_take]; omega
  · intro k hk
    have : k ∈ List.range (8*8*8*8) := hperm.subset (List.mem_of_mem_take hk)
    simpa using this
  · rw [hmap, List.map_take]

theorem rearranged_get (P : List Nat) (sorted : List Node) (idx : List Nat)
    (h : rearranged_by (accumulate P).1 sorted idx) (j k : Nat) (hk : idx[j]? = some k) :
    sorted[j]? = some (fine_node P k) := by
  obtain ⟨_, hmap⟩ := rearranged_by_fine P sorted idx h
  rw [hmap, List.getElem?_map, hk]
  rfl

theorem total_n_eq_countP (S : Nat → Bool) (P : List Nat) :
    total Chan.n S P = (P.countP S : Int) := by
  induction P with
  | nil => simp [total_nil]
  | cons p P ih =>
    rw [total_cons, ih, List.countP_cons]
    have : weight p Chan.n = 1 := rfl
    rw [this]
    by_cases h : S p = true
    · simp [h]; ring
    · simp [h]

theorem exists_of_fine_count_pos (P : List Nat) (k : Nat) (h : 1 ≤ (fine_node P k).count_) :
    ∃ p ∈ P, index4 p = k := by
  by_contra hcon
  have hz : total Chan.n (fun p => decide (index4 p = k)) P = 0 := by
    apply total_eq_zero
    intro p hp
    have : ¬ index4 p = k := fun e => hcon ⟨p, hp, e⟩
    simp [this]
  have : (fine_node P k).count_ = total Chan.n (fun p => decide (index4 p = k)) P := rfl
  omega

/-- The palette construction faults when some level 2 region has no sample:
its count is zero when its palette entry is averaged. -/
theorem build_palette_empty_region (qsort : List Node → List Node) (P : List Nat)
    (hperm : (qsort (accumulate P).1).Perm (accumulate P).1) (c : Nat) (hc : c < 64)
    (hempty : ∀ p ∈ P, index2 p ≠ c) : build_palette qsort P = none := by
  obtain ⟨post2, hs, _, hspec⟩ := subtract_spec P _ hperm
  obtain ⟨sel, hnd, _, _, hsel⟩ := selected_keys P _ hperm
  obtain ⟨nd, g1, _, g3⟩ := hspec c hc
  have hcnt : nd.count_ = 0 := by
    have h := g3 Chan.n
    rw [selected_sum_eq P _ sel hnd hsel c Chan.n, remaining_eq] at h
    have hz : total Chan.n (fun p => decide (index2 p = c) && !decide (index4 p ∈ sel)) P = 0 := by
      apply total_eq_zero
      intro p hp
      simp [hempty p hp]
    rw [hz] at h
    exact h
  unfold build_palette
  simp only []
  rw [hs]
  simp only []
  apply fill_palette_fault post2 _ (3 * 192) 0 (3 * c) (by omega)
  rw [Nat.zero_add]
  exact palette_byte_zero_count post2 _ c hc nd g1 hcnt

/-! ## Counts during accumulation -/

theorem count_sum_updateAt (f : Node → Node) (hf : ∀ nd, (f nd).count_ = nd.count_ + 1) :
    ∀ (i : Nat) (l : List Node), i < l.length →
      ((updateAt f i l).map (fun nd => nd.count_)).sum = (l.map (fun nd => nd.count_)).sum + 1
  | _, [], h => by simp at h
  | 0, a :: l, _ => by simp [updateAt, hf]; ring
  | i + 1, a :: l, h => by
    have := count_sum_updateAt f hf i l (by simpa using h)
    simp only [updateAt, List.map_cons, List.sum_cons, this]
    ring

theorem count_sum_foldl (P : List Nat) : ∀ (t4 t2 : List Node), t4.length = 4096 → t2.length = 64 →
    (P.foldl accumulate_pixel (t4, t2)).1.length = 4096 ∧
    (P.foldl accumulate_pixel (t4, t2)).2.length = 64 ∧
    (((P.foldl accumulate_pixel (t4, t2)).1).map (fun nd => nd.count_)).sum =
      (t4.map (fun nd => nd.count_)).sum + (P.length : Int) ∧
    (((P.foldl accumulate_pixel (t4, t2)).2).map (fun nd => nd.count_)).sum =
      (t2.map (fun nd => nd.count_)).sum + (P.length : Int) := by
  induction P with
  | nil => intro t4 t2 h4 h2; simp [h4, h2]
  | cons p P ih =>
    intro t4 t2 h4 h2
    have step : accumulate_pixel (t4, t2) p =
        (updateAt (add_fine p) (index4 p) t4, updateAt (add_coarse p) (index2 p) t2) := rfl
    rw [List.foldl_cons, step]
    obtain ⟨a1, a2, a3, a4⟩ := ih (updateAt (add_fine p) (index4 p) t4)
      (updateAt (add_coarse p) (index2 p) t2) (by rw [length_updateAt, h4])
      (by rw [length_updateAt, h2])
    refine ⟨a1, a2, ?_, ?_⟩
    · rw [a3, count_sum_updateAt (add_fine p) (fun _ => rfl) (index4 p) t4
        (by rw [h4]; exact index4_lt p)]
      simp only [List.length_cons]
      push_cast
      ring
    · rw [a4, count_sum_updateAt (add_coarse p) (fun _ => rfl) (index2 p) t2
        (by rw [h2]; exact index2_lt p)]
      simp only [List.length_cons]
      push_cast
      ring

theorem replicate_count_sum (n : Nat) :
    ((List.replicate n init).map (fun nd => nd.count_)).sum = 0 := by
  induction n with
  | zero => simp
  | succ n ih => simp [List.replicate_succ, ih, init]

theorem accumulate_fst_getD_all (P : List Nat) (k : Nat) :
    (accumulate P).1.getD k init = if k < 4096 then fine_node P k else init := by
  by_cases hk : k < 4096
  · rw [if_pos hk, accumulate_fst_getD P k hk]
  · rw [if_neg hk, List.getD_eq_getElem?_getD, List.getElem?_eq_none_iff.mpr]
    · rfl
    · rw [accumulate_fst_length]; omega

theorem accumulate_snd_getD_all (P : List Nat) (c : Nat) :
    (accumulate P).2.getD c init = if c < 64 then coarse_node P c else init := by
  by_cases hc : c < 64
  · rw [if_pos hc, List.getD_eq_getElem?_getD, accumulate_snd_get P c hc]
    rfl
  · rw [if_neg hc, List.getD_eq_getElem?_getD, List.getElem?_eq_none_iff.mpr]
    · rfl
    · rw [accumulate_snd_length]; omega

/-! ## The fine entries of a finished palette -/

/-- The channels of a pixel lie in the ranges its level 4 index determines. -/
theorem channel_ranges4 (p : Nat) :
    2 * (index4 p / 256) ≤ red p ∧ red p ≤ 2 * (index4 p / 256) + 1 ∧
    4 * (index4 p / 16 % 16) ≤ green p ∧ green p ≤ 4 * (index4 p / 16 % 16) + 3 ∧
    2 * (index4 p % 16) ≤ blue p ∧ blue p ≤ 2 * (index4 p % 16) + 1 := by
  rw [index4_eq, red_eq, green_eq, blue_eq]
  have h1 : p / 4096 % 16 = p / 2048 % 32 / 2 := by omega
  have h2 : p / 128 % 16 = p / 32 % 64 / 4 := by omega
  have h3 : p / 2 % 16 = p % 32 / 2 := by omega
  rw [h1, h2, h3]
  have ha : p / 2048 % 32 < 32 := Nat.mod_lt _ (by norm_num)
  have hb : p / 32 % 64 < 64 := Nat.mod_lt _ (by norm_num)
  have hc : p % 32 < 32 := Nat.mod_lt _ (by norm_num)
  generalize p / 2048 % 32 = a at ha ⊢
  generalize p / 32 % 64 = b at hb ⊢
  generalize p % 32 = c at hc ⊢
  omega

/-- The three stored means of a level 4 node with a non-zero count are the
means of its samples and lie in its bucket. -/
theorem bucket_means (P : List Nat) (k : Nat) (hk : k < 4096)
    (hcount : (fine_node P k).count_ ≠ 0) :
    (((fine_node P k).rSum_.tdiv (fine_node P k).count_) % 256).toNat =
      mean (fine_node P k).rSum_ (fine_node P k).count_ ∧
    (((fine_node P k).gSum_.tdiv (fine_node P k).count_) % 256).toNat =
      mean (fine_node P k).gSum_ (fine_node P k).count_ ∧
    (((fine_node P k).bSum_.tdiv (fine_node P k).count_) % 256).toNat =
      mean (fine_node P k).bSum_ (fine_node P k).count_ ∧
    in_bucket (mean (fine_node P k).rSum_ (fine_node P k).count_)
      (mean (fine_node P k).gSum_ (fine_node P k).count_)
      (mean (fine_node P k).bSum_ (fine_node P k).count_) k := by
  have hn : (fine_node P k).count_ = total Chan.n (fun p => decide (index4 p = k)) P := rfl
  have hr : (fine_node P k).rSum_ = total Chan.r (fun p => decide (index4 p = k)) P := rfl
  have hg : (fine_node P k).gSum_ = total Chan.g (fun p => decide (index4 p = k)) P := rfl
  have hb : (fine_node P k).bSum_ = total Chan.b (fun p => decide (index4 p = k)) P := rfl
  have hpos : 0 < (fine_node P k).count_ := by
    have := total_nonneg Chan.n (fun p => decide (index4 p = k)) P
    omega
  have br := total_bounds Chan.r (fun p => decide (index4 p = k)) (2 * (k / 256 : Nat))
    (2 * (k / 256 : Nat) + 1) P (by
    intro p _ hs
    simp only [decide_eq_true_eq] at hs
    have := channel_ranges4 p
    rw [hs] at this
    simp only [weight]
    omega)
  have bg := total_bounds Chan.g (fun p => decide (index4 p = k)) (4 * (k / 16 % 16 : Nat))
    (4 * (k / 16 % 16 : Nat) + 3) P (by
    intro p _ hs
    simp only [decide_eq_true_eq] at hs
    have := channel_ranges4 p
    rw [hs] at this
    simp only [weight]
    omega)
  have bb := total_bounds Chan.b (fun p => decide (index4 p = k)) (2 * (k % 16 : Nat))
    (2 * (k % 16 : Nat) + 1) P (by
    intro p _ hs
    simp only [decide_eq_true_eq] at hs
    have := channel_ranges4 p
    rw [hs] at this
    simp only [weight]
    omega)
  rw [← hn, ← hr] at br
  rw [← hn, ← hg] at bg
  rw [← hn, ← hb] at bb
  have sr := stored_mean _ _ _ _ hpos (by omega) (by omega) br.1 br.2
  have sg := stored_mean _ _ _ _ hpos (by omega) (by omega) bg.1 bg.2
  have sb := stored_mean _ _ _ _ hpos (by omega) (by omega) bb.1 bb.2
  refine ⟨sr.1, sg.1, sb.1, ?_⟩
  unfold in_bucket
  omega

/-- In a finished palette entry `64 + j` is the stored mean of the `j`-th
sorted level 4 node, which has a non-zero count and is the node of some key. -/
theorem finished_fine_entries (qsort : List Node → List Node) (P : List Nat) (pal : List Nat)
    (hperm : (qsort (accumulate P).1).Perm (accumulate P).1)
    (hb : build_palette qsort P = some pal) (j : Nat) (hj : j < 128) :
    ∃ nd, (qsort (accumulate P).1)[j]? = some nd ∧ nd.count_ ≠ 0 ∧
      pal[3 * (64 + j)]? = some (mean nd.rSum_ nd.count_) ∧
      pal[3 * (64 + j) + 1]? = some (mean nd.gSum_ nd.count_) ∧
      pal[3 * (64 + j) + 2]? = some (mean nd.bSum_ nd.count_) ∧
      ∃ k, k < 4096 ∧ nd = fine_node P k ∧
        in_bucket (mean nd.rSum_ nd.count_) (mean nd.gSum_ nd.count_) (mean nd.bSum_ nd.count_) k := by
  obtain ⟨post2, _, hf⟩ := build_palette_inv qsort P pal hb
  obtain ⟨idx, hip, hmap⟩ := sorted_keys P _ hperm
  obtain ⟨hlen, hget⟩ := fill_palette_inv _ _ _ _ _ hf
  have hidxlen : idx.length = 4096 := by rw [hip.length_eq]; simp
  have hlt : j < idx.length := by omega
  have hk : idx[j] < 4096 := by
    have : idx[j] ∈ List.range (8*8*8*8) := hip.subset (List.getElem_mem hlt)
    simpa using this
  have hg : (qsort (accumulate P).1)[j]? = some (fine_node P idx[j]) := by
    rw [hmap, List.getElem?_map, List.getElem?_eq_getElem hlt]
    rfl
  have hcnt : (fine_node P idx[j]).count_ ≠ 0 := by
    obtain ⟨nd2, e1, e2⟩ := fill_palette_count _ _ _ hf (3 * (64 + j)) (by omega)
    rw [if_neg (by omega), show 3 * (64 + j) / 3 - 64 = j by omega, hg] at e1
    simp only [Option.some.injEq] at e1
    rw [e1]
    exact e2
  obtain ⟨m1, m2, m3, hin⟩ := bucket_means P idx[j] hk hcnt
  obtain ⟨b1, b2, b3⟩ := palette_byte_fine post2 (qsort (accumulate P).1) j _ hg hcnt
  refine ⟨fine_node P idx[j], hg, hcnt, ?_, ?_, ?_, idx[j], hk, rfl, hin⟩
  · rw [hget (3 * (64 + j)) (by omega), Nat.zero_add, b1, m1]
  · rw [hget (3 * (64 + j) + 1) (by omega), Nat.zero_add, b2, m2]
  · rw [hget (3 * (64 + j) + 2) (by omega), Nat.zero_add, b3, m3]

/-! ## The selected keys of `sample_image` -/

theorem sample_counts_keys : ∀ p ∈ sample_image,
    (2 : Int) ≤ (fine_node sample_image (index4 p)).count_ → index4 p ∈ sample_keys := by
  decide!

theorem sample_keys_length_eq : sample_keys.length = 128 := by decide!

/-- Whatever order `qsort` leaves ties in, the first 128 sorted nodes of
`sample_image` are those of the keys `sample_keys`. -/
theorem sample_selected (sorted : List Node) (idx : List Nat)
    (hq : qsort_post cmpfunc (accumulate sample_image).1 sorted)
    (hr : rearranged_by (accumulate sample_image).1 sorted idx) :
    (∀ k ∈ idx.take 128, (2 : Int) ≤ (fine_node sample_image k).count_) ∧
    ∀ k ∈ sample_keys, k ∈ idx.take 128 := by
  obtain ⟨hperm, hmap⟩ := rearranged_by_fine _ sorted idx hr
  have hsorted := sorted_counts sample_image sorted sample_image_length hq
  rw [hmap, List.pairwise_map] at hsorted
  have hge := selected_counts_ge (fun k => (fine_node sample_image k).count_) idx hperm hsorted
    sample_keys 2 sample_keys_nodup sample_keys_length sample_keys_counts
  obtain ⟨hnd, hlen, _, _⟩ := rearranged_take sample_image sorted idx hr
  refine ⟨hge, ?_⟩
  have hsub : idx.take 128 ⊆ sample_keys := by
    intro k hk
    have h2 := hge k hk
    simp only at h2
    obtain ⟨p, hp, hpk⟩ := exists_of_fine_count_pos sample_image k (by omega)
    have := sample_counts_keys p hp (by rw [hpk]; exact h2)
    rw [hpk] at this
    exact this
  have hp : (idx.take 128).Perm sample_keys :=
    (List.subperm_of_subset hnd hsub).perm_of_length_le (by rw [hlen, sample_keys_length_eq])
  exact fun k hk => hp.symm.subset hk

theorem sample_max_node :
    fine_node sample_image (index4 (region_base 63)) = ⟨72, 144, 72, 3, 63⟩ := by decide!

theorem sample_max_unique : ∀ p ∈ sample_image,
    (3 : Int) ≤ (fine_node sample_image (index4 p)).count_ →
      index4 p = index4 (region_base 63) := by
  decide!

/-- Whatever order `qsort` leaves ties in, the first sorted node of `sample_image`
is the one of the bucket of `region_base 63`, the only bucket with three samples. -/
theorem sample_first (sorted : List Node) (idx : List Nat)
    (hq : qsort_post cmpfunc (accumulate sample_image).1 sorted)
    (hr : rearranged_by (accumulate sample_image).1 sorted idx) :
    idx[0]? = some (index4 (region_base 63)) := by
  obtain ⟨hperm, hmap⟩ := rearranged_by_fine _ sorted idx hr
  have hsorted := sorted_counts sample_image sorted sample_image_length hq
  rw [hmap, List.pairwise_map] at hsorted
  have hmem : index4 (region_base 63) ∈ idx :=
    hperm.symm.subset (by simpa using index4_lt (region_base 63))
  cases idx with
  | nil => simp at hmem
  | cons k0 rest =>
    simp only [List.getElem?_cons_zero, Option.some.injEq]
    rcases List.mem_cons.mp hmem with h | h
    · exact h.symm
    · have hle := (List.pairwise_cons.mp hsorted).1 _ h
      rw [sample_max_node] at hle
      simp only at hle
      obtain ⟨p, hp, hpk⟩ := exists_of_fine_count_pos sample_image k0 (by omega)
      have := sample_max_unique p hp (by rw [hpk]; exact hle)
      rw [hpk] at this
      exact this

theorem coarse_of_channels_eq (p : Nat) : coarse_of_channels p = index2 p := by
  unfold coarse_of_channels
  rw [Nat.shiftRight_eq_div_pow, Nat.shiftRight_eq_div_pow, Nat.shiftRight_eq_div_pow,
    red_eq, green_eq, blue_eq]
  have h1 : p / 16384 % 4 = p / 2048 % 32 / 8 := by omega
  have h2 : p / 512 % 4 = p / 32 % 64 / 16 := by omega
  have h3 : p / 8 % 4 = p % 32 / 8 := by omega
  have e := or_fields (p / 2048 % 32 / 2 ^ 3) (p / 32 % 64 / 2 ^ 4) (p % 32 / 2 ^ 3) 2 2
    (by norm_num; omega) (by norm_num; omega)
  rw [e, index2_eq, h1, h2, h3]
  norm_num

theorem fine_of_channels_eq (p : Nat) : fine_of_channels p = index4 p := by
  unfold fine_of_channels
  rw [Nat.shiftRight_eq_div_pow, Nat.shiftRight_eq_div_pow, Nat.shiftRight_eq_div_pow,
    red_eq, green_eq, blue_eq]
  have h1 : p / 4096 % 16 = p / 2048 % 32 / 2 := by omega
  have h2 : p / 128 % 16 = p / 32 % 64 / 4 := by omega
  have h3 : p / 2 % 16 = p % 32 / 2 := by omega
  have e := or_fields (p / 2048 % 32 / 2 ^ 1) (p / 32 % 64 / 2 ^ 2) (p % 32 / 2 ^ 1) 4 4
    (by norm_num; omega) (by norm_num; omega)
  rw [e, index4_eq, h1, h2, h3]
  norm_num

theorem region_base_63 : region_base 63 = 0xC618 := by decide

theorem sample_mem_max : 0xC618 ∈ sample_image := by decide!

/-- What the palette construction and `determinePaletteValue` do on `sample_image`
for the sample `0xC618`, with any function meeting the contract of `qsort`. -/
theorem sample_image_facts (qsort : List Node → List Node)
    (hq : qsort_post cmpfunc (accumulate sample_image).1 (qsort (accumulate sample_image).1)) :
    ∃ pal r, build_palette qsort sample_image = some pal ∧
      determinePaletteValue 0xC618 pal = some 127 ∧
      pal[0]? = some r ∧ r ≠ red 0xC618 ∧
      pal[3 * 64]? = some (red 0xC618) ∧ pal[3 * 64 + 1]? = some (green 0xC618) ∧
      pal[3 * 64 + 2]? = some (blue 0xC618) := by
  obtain ⟨pal, hb⟩ := sample_image_completes qsort hq
  obtain ⟨_, _, _, hco⟩ := finished_coarse_entries qsort sample_image pal hq.1 hb
  obtain ⟨nd0, _, _, e0, _, _, hin0⟩ := hco 0 (by omega)
  obtain ⟨nd, g1, _, f1, f2, f3, _⟩ := finished_fine_entries qsort sample_image pal hq.1 hb 0 (by omega)
  obtain ⟨idx, hr⟩ := rearranged_by_exists sample_image _ hq.1
  have hfirst := sample_first _ idx hq hr
  have hnode := rearranged_get sample_image _ idx hr 0 _ hfirst
  rw [g1, sample_max_node] at hnode
  simp only [Option.some.injEq] at hnode
  subst hnode
  have hd := determinePaletteValue_finished qsort sample_image pal hq.1 hb 0xC618
  refine ⟨pal, _, hb, ?_, e0, ?_, ?_, ?_, ?_⟩
  · rw [hd]; decide
  · unfold in_region at hin0
    have : red 0xC618 = 24 := by decide
    omega
  · rw [f1]; decide
  · rw [f2]; decide
  · rw [f3]; decide

/-! ## Lemmas on the loops of `fill_vert_buffer` -/

theorem vert_background_eq (view : photo_t) (x y : Int) (idx : Nat)
    (hwf : view.img.length = view.hdr.width * view.hdr.height)
    (hx0 : 0 ≤ x) (hx1 : x < (view.hdr.width : Int)) :
    vert_background view x y idx = some (naive_background_col view x (y + (idx : Int))) := by
  unfold vert_background naive_background_col
  by_cases hc : 0 ≤ y + (idx : Int) ∧ (view.hdr.height : Int) > y + (idx : Int)
  · have hb := block_index_bounds view.hdr.width view.hdr.height (y + (idx : Int)) x hc.1 hc.2 hx0 hx1
    rw [← hwf] at hb
    have hc2 : 0 ≤ y + (idx : Int) ∧ y + (idx : Int) < (view.hdr.height : Int) := ⟨hc.1, hc.2⟩
    rw [if_pos hc, if_pos hc2]
    exact readAt_of_bounds _ _ hb.1 hb.2
  · have hc2 : ¬ (0 ≤ y + (idx : Int) ∧ y + (idx : Int) < (view.hdr.height : Int)) := by
      intro h; exact hc ⟨h.1, h.2⟩
    rw [if_neg hc, if_neg hc2]

theorem vert_background_loop_spec (view : photo_t) (x y : Int) (f : Nat → Nat)
    (hf : ∀ j, vert_background view x y j = some (f j)) :
    ∀ (n idx : Nat) (buf : List Nat), idx + n = buf.length →
      ∃ out, vert_background_loop view x y n idx buf = some out ∧ out.length = buf.length ∧
        ∀ j, j < buf.length → out[j]? = if idx ≤ j then some (f j) else buf[j]? := by
  intro n
  induction n with
  | zero =>
    intro idx buf hlen
    refine ⟨buf, rfl, rfl, ?_⟩
    intro j hj
    have : ¬ idx ≤ j := by omega
    simp [this]
  | succ n ih =>
    intro idx buf hlen
    have hidx : idx < buf.length := by omega
    obtain ⟨out, h1, h2, h3⟩ := ih (idx + 1) (buf.set idx (f idx)) (by simp; omega)
    refine ⟨out, ?_, ?_, ?_⟩
    · simp only [vert_background_loop, hf, writeAt_nat _ _ _ hidx]
      exact h1
    · simpa using h2
    · intro j hj
      rw [h3 j (by simpa using hj)]
      by_cases hj1 : idx + 1 ≤ j
      · have : idx ≤ j := by omega
        simp [hj1, this]
      · by_cases hj2 : idx = j
        · subst hj2
          simp [hidx]
        · have : ¬ idx ≤ j := by omega
          simp [hj1, this, List.getElem?_set, hj2]

theorem vert_copy_loop_spec (W T : Nat) (img : image_t) (xoff : Int) (pix : Nat → Nat) :
    ∀ (fuel : Nat) (idx imgy : Nat) (buf : List Nat),
      buf.length = W → idx ≤ W → W < idx + fuel →
      (∀ k : Nat, imgy ≤ k → k < img.hdr.height →
        readAt img.img (xoff + (img.hdr.width : Int) * (k : Int)) = some (pix k)) →
      ∃ out, vert_copy_loop W T img xoff fuel (idx : Int) (imgy : Int) buf = some out ∧
        out.length = W ∧
        ∀ j, j < W → out[j]? =
          if idx ≤ j ∧ j - idx + imgy < img.hdr.height ∧ pix (j - idx + imgy) ≠ T
          then some (pix (j - idx + imgy)) else buf[j]? := by
  intro fuel
  induction fuel with
  | zero =>
    intro idx imgy buf hlen hidx hfuel hread
    omega
  | succ fuel ih =>
    intro idx imgy buf hlen hidxW hfuel hread
    unfold vert_copy_loop
    by_cases hc : (W : Int) > (idx : Int) ∧ (img.hdr.height : Int) > (imgy : Int)
    · rw [if_pos hc]
      have hidx : idx < W := by omega
      have himgy : imgy < img.hdr.height := by omega
      rw [hread imgy (le_refl _) himgy]
      simp only []
      have hcast1 : ((idx : Int) + 1) = ((idx + 1 : Nat) : Int) := by push_cast; rfl
      have hcast2 : ((imgy : Int) + 1) = ((imgy + 1 : Nat) : Int) := by push_cast; rfl
      have hread2 : ∀ k : Nat, imgy + 1 ≤ k → k < img.hdr.height →
          readAt img.img (xoff + (img.hdr.width : Int) * (k : Int)) = some (pix k) :=
        fun k hk1 hk2 => hread k (by omega) hk2
      by_cases hp : T ≠ pix imgy
      · rw [if_pos hp, writeAt_nat _ _ _ (by omega), hcast1, hcast2]
        simp only []
        obtain ⟨out, h1, h2, h3⟩ := ih (idx + 1) (imgy + 1)
          (buf.set idx (pix imgy)) (by simp [hlen]) (by omega) (by omega) hread2
        refine ⟨out, h1, h2, ?_⟩
        intro j hj
        rw [h3 j hj]
        by_cases hj1 : idx + 1 ≤ j
        · have e : j - (idx + 1) + (imgy + 1) = j - idx + imgy := by omega
          have hle : idx ≤ j := by omega
          have hne : ¬ idx = j := by omega
          simp only [e, hj1, hle, true_and, List.getElem?_set, hne, if_false]
        · by_cases hj2 : idx = j
          · subst hj2
            have e : idx - idx + imgy = imgy := by omega
            have hlt : idx < buf.length := by omega
            have hp2 : pix imgy ≠ T := fun h => hp h.symm
            simp [hj1, e, himgy, hp2, List.getElem?_set, hlt]
          · have hle : ¬ idx ≤ j := by omega
            simp [hj1, hle, List.getElem?_set, hj2]
      · rw [if_neg hp, hcast1, hcast2]
        obtain ⟨out, h1, h2, h3⟩ := ih (idx + 1) (imgy + 1) buf hlen (by omega) (by omega) hread2
        refine ⟨out, h1, h2, ?_⟩
        intro j hj
        rw [h3 j hj]
        by_cases hj1 : idx + 1 ≤ j
        · have e : j - (idx + 1) + (imgy + 1) = j - idx + imgy := by omega
          have hle : idx ≤ j := by omega
          simp only [e, hj1, hle, true_and]
        · by_cases hj2 : idx = j
          · subst hj2
            have e : idx - idx + imgy = imgy := by omega
            have hp2 : pix imgy = T := by
              by_contra h; exact hp (fun h2 => h h2.symm)
            simp [hj1, e, hp2]
          · have hle : ¬ idx ≤ j := by omega
            simp [hj1, hle]
    · rw [if_neg hc]
      refine ⟨buf, rfl, hlen, ?_⟩
      intro j hj
      have : ¬ (idx ≤ j ∧ j - idx + imgy < img.hdr.height ∧ pix (j - idx + imgy) ≠ T) := by
        intro ⟨ha, hb, _⟩
        apply hc
        constructor <;> omega
      rw [if_neg this]

theorem naive_overlay_culled_col (W T : Nat) (x y : Int) (obj : object_t) (v j : Nat) (hj : j < W)
    (hcull : x < obj.obj_x ∨ x ≥ obj.obj_x + (obj.image.hdr.width : Int) ∨
      y + (W : Int) ≤ obj.obj_y ∨ y ≥ obj.obj_y + (obj.image.hdr.height : Int)) :
    naive_overlay T x (y + (j : Int)) v obj = v := by
  unfold naive_overlay
  have : ¬ covers obj x (y + (j : Int)) := by
    unfold covers
    omega
  simp [this]

theorem vert_object_step (W T : Nat) (x y : Int) (obj : object_t) (buf : List Nat)
    (hlen : buf.length = W)
    (hwf : obj.image.img.length = obj.image.hdr.width * obj.image.hdr.height)
    (hnc : ¬ (x < obj.obj_x ∨ x ≥ obj.obj_x + (obj.image.hdr.width : Int) ∨
      y + (W : Int) ≤ obj.obj_y ∨ y ≥ obj.obj_y + (obj.image.hdr.height : Int))) :
    ∃ out, vert_copy_loop W T obj.image (x - obj.obj_x) (W + 1)
        (if y ≤ obj.obj_y then obj.obj_y - y else 0) (if y ≤ obj.obj_y then 0 else y - obj.obj_y) buf
          = some out ∧ out.length = W ∧
      ∀ j, j < W → out[j]? = (buf[j]?).map (fun v => naive_overlay T x (y + (j : Int)) v obj) := by
  have hx0 : 0 ≤ x - obj.obj_x := by omega
  have hx1 : x - obj.obj_x < (obj.image.hdr.width : Int) := by omega
  have hidx : (if y ≤ obj.obj_y then obj.obj_y - y else 0) = (((obj.obj_y - y).toNat : Nat) : Int) := by
    split <;> omega
  have himgy : (if y ≤ obj.obj_y then 0 else y - obj.obj_y) = (((y - obj.obj_y).toNat : Nat) : Int) := by
    split <;> omega
  rw [hidx, himgy]
  have hread : ∀ k : Nat, (y - obj.obj_y).toNat ≤ k → k < obj.image.hdr.height →
      readAt obj.image.img ((x - obj.obj_x) + (obj.image.hdr.width : Int) * (k : Int)) =
        some (obj.image.img.getD ((x - obj.obj_x) + (obj.image.hdr.width : Int) * (k : Int)).toNat 0) := by
    intro k _ hk
    have hb := block_index_bounds obj.image.hdr.width obj.image.hdr.height (k : Int) (x - obj.obj_x)
      (by omega) (by omega) hx0 hx1
    rw [← hwf, add_comm] at hb
    exact readAt_of_bounds _ _ hb.1 hb.2
  obtain ⟨out, h1, h2, h3⟩ := vert_copy_loop_spec W T obj.image (x - obj.obj_x)
    (fun k => obj.image.img.getD ((x - obj.obj_x) + (obj.image.hdr.width : Int) * (k : Int)).toNat 0)
    (W + 1) (obj.obj_y - y).toNat (y - obj.obj_y).toNat buf hlen (by omega) (by omega) hread
  refine ⟨out, h1, h2, ?_⟩
  intro j hj
  rw [h3 j hj]
  have hbj : buf[j]? = some buf[j] := List.getElem?_eq_getElem (by omega)
  rw [hbj]
  simp only [Option.map_some']
  unfold naive_overlay
  by_cases hcov : covers obj x (y + (j : Int))
  · have hc := hcov
    unfold covers at hc
    have hle : (obj.obj_y - y).toNat ≤ j := by omega
    have hlt : j - (obj.obj_y - y).toNat + (y - obj.obj_y).toNat < obj.image.hdr.height := by omega
    have he : ((j - (obj.obj_y - y).toNat + (y - obj.obj_y).toNat : Nat) : Int)
        = y + (j : Int) - obj.obj_y := by omega
    have hpix : obj.image.img.getD ((x - obj.obj_x) + (obj.image.hdr.width : Int) *
        ((j - (obj.obj_y - y).toNat + (y - obj.obj_y).toNat : Nat) : Int)).toNat 0
        = object_pixel obj x (y + (j : Int)) := by
      unfold object_pixel
      rw [he]
      congr 2
      ring
    simp only [hpix, hle, hlt, true_and, hcov]
    split <;> rfl
  · have hn : ¬ ((obj.obj_y - y).toNat ≤ j ∧
        j - (obj.obj_y - y).toNat + (y - obj.obj_y).toNat < obj.image.hdr.height) := by
      intro ⟨ha, hb⟩
      apply hcov
      unfold covers
      omega
    have hn2 : ¬ ((obj.obj_y - y).toNat ≤ j ∧
        j - (obj.obj_y - y).toNat + (y - obj.obj_y).toNat < obj.image.hdr.height ∧
        obj.image.img.getD ((x - obj.obj_x) + (obj.image.hdr.width : Int) *
        ((j - (obj.obj_y - y).toNat + (y - obj.obj_y).toNat : Nat) : Int)).toNat 0 ≠ T) := by
      intro ⟨ha, hb, _⟩
      exact hn ⟨ha, hb⟩
    rw [if_neg hn2]
    simp [hcov]

theorem vert_objects_loop_spec (W T : Nat) (x y : Int) (hyr : int_range (y + (W : Int))) :
    ∀ (objs : List object_t) (buf : List Nat), buf.length = W →
      (∀ obj ∈ objs, obj.image.img.length = obj.image.hdr.width * obj.image.hdr.height) →
      (∀ obj ∈ objs, int_range (obj.obj_x + (obj.image.hdr.width : Int)) ∧
        int_range (obj.obj_y + (obj.image.hdr.height : Int))) →
      ∃ out, vert_objects_loop W T x y objs buf = some out ∧ out.length = W ∧
        ∀ j, j < W → out[j]? =
          (buf[j]?).map (fun v => objs.foldl (naive_overlay T x (y + (j : Int))) v) := by
  intro objs
  induction objs with
  | nil =>
    intro buf hlen _ _
    exact ⟨buf, rfl, hlen, fun j _ => by simp⟩
  | cons obj rest ih =>
    intro buf hlen hwf hr
    have hwf1 := hwf obj (List.mem_cons_self _ _)
    have hwf2 : ∀ o ∈ rest, o.image.img.length = o.image.hdr.width * o.image.hdr.height :=
      fun o ho => hwf o (List.mem_cons_of_mem _ ho)
    have hr1 := hr obj (List.mem_cons_self _ _)
    have hr2 : ∀ o ∈ rest, int_range (o.obj_x + (o.image.hdr.width : Int)) ∧
        int_range (o.obj_y + (o.image.hdr.height : Int)) :=
      fun o ho => hr o (List.mem_cons_of_mem _ ho)
    unfold vert_objects_loop
    simp only []
    rw [wrap32_int_range _ hyr, wrap32_int_range _ hr1.1, wrap32_int_range _ hr1.2]
    by_cases hcull : x < obj.obj_x ∨ x ≥ obj.obj_x + (obj.image.hdr.width : Int) ∨
        y + (W : Int) ≤ obj.obj_y ∨ y ≥ obj.obj_y + (obj.image.hdr.height : Int)
    · rw [if_pos hcull]
      obtain ⟨out, h1, h2, h3⟩ := ih buf hlen hwf2 hr2
      refine ⟨out, h1, h2, ?_⟩
      intro j hj
      rw [h3 j hj]
      simp only [List.foldl_cons, naive_overlay_culled_col W T x y obj _ j hj hcull]
    · rw [if_neg hcull]
      obtain ⟨out1, g1, g2, g3⟩ := vert_object_step W T x y obj buf hlen hwf1 hcull
      rw [g1]
      simp only []
      obtain ⟨out, h1, h2, h3⟩ := ih out1 g2 hwf2 hr2
      refine ⟨out, h1, h2, ?_⟩
      intro j hj
      rw [h3 j hj, g3 j hj, Option.map_map]
      rfl

theorem fill_vert_buffer_refines (W T : Nat) (room : room_t) (x y : Int) (buf : List Nat)
    (hbuf : buf.length = W) (hwf : room_wf room)
    (hx0 : 0 ≤ x) (hx1 : x < (room.photo.hdr.width : Int))
    (hr : vert_in_range W x y room.contents) :
    ∃ out, fill_vert_buffer W T room x y buf = some out ∧ out.length = W ∧
      ∀ i, i < W → out[i]? = some (naive_vert T room x y i) := by
  obtain ⟨out1, h1, h2, h3⟩ := vert_background_loop_spec room.photo x y
    (fun j => naive_background_col room.photo x (y + (j : Int)))
    (fun j => vert_background_eq room.photo x y j hwf.1 hx0 hx1) W 0 buf (by omega)
  obtain ⟨out, g1, g2, g3⟩ := vert_objects_loop_spec W T x y hr.2.2.1 room.contents out1
    (by omega) hwf.2 (fun o ho => (hr.2.2.2 o ho).2.2)
  refine ⟨out, ?_, g2, ?_⟩
  · unfold fill_vert_buffer
    rw [h1]
    exact g1
  · intro i hi
    rw [g3 i hi, h3 i (by omega)]
    simp [naive_vert]

theorem fill_vert_buffer_refines_empty (W T : Nat) (view : photo_t) (x y : Int) (buf : List Nat)
    (hbuf : buf.length = W) (hwf : view.img.length = view.hdr.width * view.hdr.height)
    (hx0 : 0 ≤ x) (hx1 : x < (view.hdr.width : Int)) :
    ∃ out, fill_vert_buffer W T ⟨view, []⟩ x y buf = some out ∧ out.length = W ∧
      ∀ i, i < W → out[i]? = some (naive_vert T ⟨view, []⟩ x y i) := by
  obtain ⟨out1, h1, h2, h3⟩ := vert_background_loop_spec view x y
    (fun j => naive_background_col view x (y + (j : Int)))
    (fun j => vert_background_eq view x y j hwf hx0 hx1) W 0 buf (by omega)
  refine ⟨out1, ?_, by omega, ?_⟩
  · unfold fill_vert_buffer
    simp only []
    rw [h1]
    rfl
  · intro i hi
    rw [h3 i (by omega)]
    simp [naive_vert]

/-! ## `fill_horiz_buffer` on a row outside the photo -/

theorem readAt_none (mem : List Nat) (i : Int) (h : i < 0 ∨ (mem.length : Int) ≤ i) :
    readAt mem i = none := by
  unfold readAt
  by_cases h0 : 0 ≤ i
  · rw [if_pos h0, List.getElem?_eq_none_iff]
    omega
  · rw [if_neg h0]

theorem horiz_background_loop_spec_on (view : photo_t) (x y : Int) (f : Nat → Nat) :
    ∀ (n idx : Nat) (buf : List Nat), idx + n = buf.length →
      (∀ j, idx ≤ j → j < idx + n → horiz_background view x y j = some (f j)) →
      ∃ out, horiz_background_loop view x y n idx buf = some out ∧ out.length = buf.length ∧
        ∀ j, j < buf.length → out[j]? = if idx ≤ j then some (f j) else buf[j]? := by
  intro n
  induction n with
  | zero =>
    intro idx buf hlen _
    refine ⟨buf, rfl, rfl, ?_⟩
    intro j hj
    have : ¬ idx ≤ j := by omega
    simp [this]
  | succ n ih =>
    intro idx buf hlen hf
    have hidx : idx < buf.length := by omega
    obtain ⟨out, h1, h2, h3⟩ := ih (idx + 1) (buf.set idx (f idx)) (by simp; omega)
      (fun j hj1 hj2 => hf j (by omega) (by omega))
    refine ⟨out, ?_, ?_, ?_⟩
    · simp only [horiz_background_loop, hf idx (le_refl _) (by omega), writeAt_nat _ _ _ hidx]
      exact h1
    · simpa using h2
    · intro j hj
      rw [h3 j (by simpa using hj)]
      by_cases hj1 : idx + 1 ≤ j
      · have : idx ≤ j := by omega
        simp [hj1, this]
      · by_cases hj2 : idx = j
        · subst hj2
          simp [hidx]
        · have : ¬ idx ≤ j := by omega
          simp [hj1, this, List.getElem?_set, hj2]

theorem horiz_background_loop_fault (view : photo_t) (x y : Int) :
    ∀ (n idx : Nat) (buf : List Nat) (j : Nat), idx ≤ j → j < idx + n →
      horiz_background view x y j = none →
      horiz_background_loop view x y n idx buf = none := by
  intro n
  induction n with
  | zero => intro idx buf j h1 h2 _; omega
  | succ n ih =>
    intro idx buf j h1 h2 hj
    unfold horiz_background_loop
    cases hb : horiz_background view x y idx with
    | none => rfl
    | some v =>
      simp only []
      cases hw : writeAt buf (idx : Int) v with
      | none => rfl
      | some buf1 =>
        simp only []
        have hne : idx ≠ j := by
          intro e
          subst e
          rw [hb] at hj
          simp at hj
        exact ih (idx + 1) buf1 j (by omega) (by omega) hj

/-- The first loop of `fill_horiz_buffer` does not test `y`: at a column inside
the photo and a row outside it the index read lies outside the pixel block. -/
theorem horiz_background_outside (view : photo_t) (x y : Int) (idx : Nat)
    (hwf : view.img.length = view.hdr.width * view.hdr.height)
    (hy : y < 0 ∨ y ≥ (view.hdr.height : Int))
    (hx0 : 0 ≤ x + (idx : Int)) (hx1 : x + (idx : Int) < (view.hdr.width : Int)) :
    horiz_background view x y idx = none := by
  unfold horiz_background
  rw [if_pos ⟨hx0, hx1⟩]
  apply readAt_none
  have hw : (0 : Int) ≤ (view.hdr.width : Int) := Int.ofNat_nonneg _
  rw [hwf]
  push_cast
  rcases hy with h | h
  · left
    have h2 : (view.hdr.width : Int) * y ≤ (view.hdr.width : Int) * (-1) :=
      mul_le_mul_of_nonneg_left (by omega) hw
    omega
  · right
    have h2 : (view.hdr.width : Int) * (view.hdr.height : Int) ≤ (view.hdr.width : Int) * y :=
      mul_le_mul_of_nonneg_left h hw
    omega

theorem fill_horiz_buffer_no_column (W T : Nat) (view : photo_t) (x y : Int) (buf : List Nat)
    (hbuf : buf.length = W)
    (hx : ∀ i : Nat, i < W → x + (i : Int) < 0 ∨ x + (i : Int) ≥ (view.hdr.width : Int)) :
    fill_horiz_buffer W T ⟨view, []⟩ x y buf = some (List.replicate W 0) := by
  obtain ⟨out, h1, h2, h3⟩ := horiz_background_loop_spec_on view x y (fun _ => 0) W 0 buf
    (by omega) (by
      intro j _ hj
      unfold horiz_background
      have := hx j (by omega)
      rw [if_neg (by omega)])
  unfold fill_horiz_buffer
  simp only []
  rw [h1]
  simp only [horiz_objects_loop]
  congr 1
  apply List.ext_getElem?
  intro j
  by_cases hj : j < W
  · rw [h3 j (by omega)]
    simp [List.getElem?_replicate, hj]
  · rw [List.getElem?_eq_none_iff.mpr (by omega), List.getElem?_eq_none_iff.mpr (by simp; omega)]

theorem fill_horiz_buffer_row_outside (W T : Nat) (view : photo_t) (x y : Int) (buf : List Nat)
    (hwf : view.img.length = view.hdr.width * view.hdr.height)
    (hy : y < 0 ∨ y ≥ (view.hdr.height : Int)) (i : Nat) (hi : i < W)
    (hx0 : 0 ≤ x + (i : Int)) (hx1 : x + (i : Int) < (view.hdr.width : Int)) :
    fill_horiz_buffer W T ⟨view, []⟩ x y buf = none := by
  unfold fill_horiz_buffer
  simp only []
  rw [horiz_background_loop_fault view x y W 0 buf i (by omega) (by omega)
    (horiz_background_outside view x y i hwf hy hx0 hx1)]

/-! ## Overlay of the objects in list order -/

theorem foldl_overlay_no_paint (T : Nat) (mx y : Int) : ∀ (objs : List object_t) (v : Nat),
    (∀ o ∈ objs, ¬ paints T o mx y) → objs.foldl (naive_overlay T mx y) v = v := by
  intro objs
  induction objs with
  | nil => intro v _; rfl
  | cons o rest ih =>
    intro v h
    have h1 : ¬ paints T o mx y := h o (List.mem_cons_self _ _)
    have h2 : naive_overlay T mx y v o = v := by
      unfold naive_overlay
      unfold paints at h1
      rw [if_neg h1]
    rw [List.foldl_cons, h2]
    exact ih v (fun o2 ho2 => h o2 (List.mem_cons_of_mem _ ho2))

theorem foldl_overlay_last (T : Nat) (mx y : Int) (before after : List object_t)
    (obj : object_t) (v : Nat) (hp : paints T obj mx y)
    (hafter : ∀ o ∈ after, ¬ paints T o mx y) :
    (before ++ obj :: after).foldl (naive_overlay T mx y) v = object_pixel obj mx y := by
  rw [List.foldl_append, List.foldl_cons]
  have h2 : ∀ w, naive_overlay T mx y w obj = object_pixel obj mx y := by
    intro w
    unfold naive_overlay
    unfold paints at hp
    rw [if_pos hp]
  rw [h2]
  exact foldl_overlay_no_paint T mx y after _ hafter

/-! ## What the loops of `fill_horiz_buffer` leave when they complete -/

theorem readAt_some_getD (mem : List Nat) (i : Int) (v : Nat) (h : readAt mem i = some v) :
    v = mem.getD i.toNat 0 := by
  unfold readAt at h
  by_cases h0 : 0 ≤ i
  · rw [if_pos h0] at h
    rw [List.getD_eq_getElem?_getD, h]
    rfl
  · rw [if_neg h0] at h
    exact absurd h (by simp)

theorem horiz_background_loop_length (view : photo_t) (x y : Int) :
    ∀ (n idx : Nat) (buf out : List Nat),
      horiz_background_loop view x y n idx buf = some out → out.length = buf.length := by
  intro n
  induction n with
  | zero =>
    intro idx buf out h
    have e : horiz_background_loop view x y 0 idx buf = some buf := rfl
    rw [e] at h
    rw [← Option.some.inj h]
  | succ n ih =>
    intro idx buf out h
    unfold horiz_background_loop at h
    cases hb : horiz_background view x y idx with
    | none => rw [hb] at h; exact absurd h (by simp)
    | some v =>
      rw [hb] at h
      simp only [] at h
      cases hw : writeAt buf (idx : Int) v with
      | none => rw [hw] at h; exact absurd h (by simp)
      | some buf1 =>
        rw [hw] at h
        simp only [] at h
        have hl : buf1.length = buf.length := by
          unfold writeAt at hw
          by_cases hc : 0 ≤ (idx : Int) ∧ (idx : Int) < (buf.length : Int)
          · rw [if_pos hc] at hw
            rw [← Option.some.inj hw]
            simp
          · rw [if_neg hc] at hw
            exact absurd hw (by simp)
        rw [ih (idx + 1) buf1 out h, hl]

theorem horiz_copy_loop_inv (W T : Nat) (img : image_t) (yoff : Int) (pix : Nat → Nat)
    (hread : ∀ (k : Nat) (v : Nat), readAt img.img (yoff + (k : Int)) = some v → v = pix k) :
    ∀ (fuel : Nat) (idx imgx : Nat) (buf out : List Nat), buf.length = W →
      horiz_copy_loop W T img yoff fuel (idx : Int) (imgx : Int) buf = some out →
      out.length = W ∧
        ∀ j, j < W → out[j]? =
          if idx ≤ j ∧ j - idx + imgx < img.hdr.width ∧ pix (j - idx + imgx) ≠ T
          then some (pix (j - idx + imgx)) else buf[j]? := by
  intro fuel
  induction fuel with
  | zero =>
    intro idx imgx buf out _ h
    have e : horiz_copy_loop W T img yoff 0 (idx : Int) (imgx : Int) buf = none := rfl
    rw [e] at h
    exact absurd h (by simp)
  | succ fuel ih =>
    intro idx imgx buf out hlen h
    unfold horiz_copy_loop at h
    by_cases hc : (W : Int) > (idx : Int) ∧ (img.hdr.width : Int) > (imgx : Int)
    · rw [if_pos hc] at h
      have hidx : idx < W := by omega
      have himgx : imgx < img.hdr.width := by omega
      cases hr : readAt img.img (yoff + (imgx : Int)) with
      | none => rw [hr] at h; exact absurd h (by simp)
      | some pixel =>
        rw [hr] at h
        simp only [] at h
        have hpx : pixel = pix imgx := hread imgx pixel hr
        rw [hpx] at h
        have hcast1 : ((idx : Int) + 1) = ((idx + 1 : Nat) : Int) := by push_cast; rfl
        have hcast2 : ((imgx : Int) + 1) = ((imgx + 1 : Nat) : Int) := by push_cast; rfl
        by_cases hp : T ≠ pix imgx
        · rw [if_pos hp, writeAt_nat _ _ _ (by omega), hcast1, hcast2] at h
          simp only [] at h
          obtain ⟨h2, h3⟩ := ih (idx + 1) (imgx + 1) (buf.set idx (pix imgx)) out
            (by simp [hlen]) h
          refine ⟨h2, ?_⟩
          intro j hj
          rw [h3 j hj]
          by_cases hj1 : idx + 1 ≤ j
          · have e : j - (idx + 1) + (imgx + 1) = j - idx + imgx := by omega
            have hle : idx ≤ j := by omega
            have hne : ¬ idx = j := by omega
            simp only [e, hj1, hle, true_and, List.getElem?_set, hne, if_false]
          · by_cases hj2 : idx = j
            · subst hj2
              have e : idx - idx + imgx = imgx := by omega
              have hlt : idx < buf.length := by omega
              have hp2 : pix imgx ≠ T := fun h => hp h.symm
              simp [hj1, e, himgx, hp2, List.getElem?_set, hlt]
            · have hle : ¬ idx ≤ j := by omega
              simp [hj1, hle, List.getElem?_set, hj2]
        · rw [if_neg hp, hcast1, hcast2] at h
          obtain ⟨h2, h3⟩ := ih (idx + 1) (imgx + 1) buf out hlen h
          refine ⟨h2, ?_⟩
          intro j hj
          rw [h3 j hj]
          by_cases hj1 : idx + 1 ≤ j
          · have e : j - (idx + 1) + (imgx + 1) = j - idx + imgx := by omega
            have hle : idx ≤ j := by omega
            simp only [e, hj1, hle, true_and]
          · by_cases hj2 : idx = j
            · subst hj2
              have e : idx - idx + imgx = imgx := by omega
              have hp2 : pix imgx = T := by
                by_contra h; exact hp (fun h2 => h h2.symm)
              simp [hj1, e, hp2]
            · have hle : ¬ idx ≤ j := by omega
              simp [hj1, hle]
    · rw [if_neg hc] at h
      rw [← Option.some.inj h]
      refine ⟨hlen, ?_⟩
      intro j hj
      have : ¬ (idx ≤ j ∧ j - idx + imgx < img.hdr.width ∧ pix (j - idx + imgx) ≠ T) := by
        intro ⟨ha, hb, _⟩
        apply hc
        constructor <;> omega
      rw [if_neg this]

/-- The buffer the copy loop leaves for an object that is not culled, when the
loop completes: each position holds the overlay of the object on what it held. -/
theorem horiz_object_step_inv (W T : Nat) (x y : Int) (obj : object_t) (buf out : List Nat)
    (hlen : buf.length = W)
    (hnc : ¬ (y < obj.obj_y ∨ y ≥ obj.obj_y + (obj.image.hdr.height : Int) ∨
      x + (W : Int) ≤ obj.obj_x ∨ x ≥ obj.obj_x + (obj.image.hdr.width : Int)))
    (h : horiz_copy_loop W T obj.image ((y - obj.obj_y) * (obj.image.hdr.width : Int)) (W + 1)
        (if x ≤ obj.obj_x then obj.obj_x - x else 0) (if x ≤ obj.obj_x then 0 else x - obj.obj_x) buf
          = some out) :
    out.length = W ∧
      ∀ j, j < W → out[j]? = (buf[j]?).map (fun v => naive_overlay T (x + (j : Int)) y v obj) := by
  have hidx : (if x ≤ obj.obj_x then obj.obj_x - x else 0) = (((obj.obj_x - x).toNat : Nat) : Int) := by
    split <;> omega
  have himgx : (if x ≤ obj.obj_x then 0 else x - obj.obj_x) = (((x - obj.obj_x).toNat : Nat) : Int) := by
    split <;> omega
  rw [hidx, himgx] at h
  obtain ⟨h2, h3⟩ := horiz_copy_loop_inv W T obj.image
    ((y - obj.obj_y) * (obj.image.hdr.width : Int))
    (fun k => obj.image.img.getD ((y - obj.obj_y) * (obj.image.hdr.width : Int) + (k : Int)).toNat 0)
    (fun k v hv => readAt_some_getD _ _ v hv)
    (W + 1) (obj.obj_x - x).toNat (x - obj.obj_x).toNat buf out hlen h
  refine ⟨h2, ?_⟩
  intro j hj
  rw [h3 j hj]
  have hbj : buf[j]? = some buf[j] := List.getElem?_eq_getElem (by omega)
  rw [hbj]
  simp only [Option.map_some']
  unfold naive_overlay
  by_cases hcov : covers obj (x + (j : Int)) y
  · have hc := hcov
    unfold covers at hc
    have hle : (obj.obj_x - x).toNat ≤ j := by omega
    have hlt : j - (obj.obj_x - x).toNat + (x - obj.obj_x).toNat < obj.image.hdr.width := by omega
    have he : ((j - (obj.obj_x - x).toNat + (x - obj.obj_x).toNat : Nat) : Int)
        = x + (j : Int) - obj.obj_x := by omega
    have hpix : obj.image.img.getD ((y - obj.obj_y) * (obj.image.hdr.width : Int) +
        ((j - (obj.obj_x - x).toNat + (x - obj.obj_x).toNat : Nat) : Int)).toNat 0
        = object_pixel obj (x + (j : Int)) y := by
      unfold object_pixel
      rw [he]
    simp only [hpix, hle, hlt, true_and, hcov]
    split <;> rfl
  · have hn : ¬ ((obj.obj_x - x).toNat ≤ j ∧
        j - (obj.obj_x - x).toNat + (x - obj.obj_x).toNat < obj.image.hdr.width) := by
      intro ⟨ha, hb⟩
      apply hcov
      unfold covers
      omega
    have hn2 : ¬ ((obj.obj_x - x).toNat ≤ j ∧
        j - (obj.obj_x - x).toNat + (x - obj.obj_x).toNat < obj.image.hdr.width ∧
        obj.image.img.getD ((y - obj.obj_y) * (obj.image.hdr.width : Int) +
        ((j - (obj.obj_x - x).toNat + (x - obj.obj_x).toNat : Nat) : Int)).toNat 0 ≠ T) := by
      intro ⟨ha, hb, _⟩
      exact hn ⟨ha, hb⟩
    rw [if_neg hn2]
    simp [hcov]

/-- When the loop over the objects completes and no sum of the culling test
overflows, each position holds the overlay of the objects, in list order, on
what the buffer held. -/
theorem horiz_objects_loop_inv (W T : Nat) (x y : Int) (hxr : int_range (x + (W : Int))) :
    ∀ (objs : List object_t) (buf out : List Nat), buf.length = W →
      (∀ obj ∈ objs, int_range (obj.obj_x + (obj.image.hdr.width : Int)) ∧
        int_range (obj.obj_y + (obj.image.hdr.height : Int))) →
      horiz_objects_loop W T x y objs buf = some out →
      out.length = W ∧
        ∀ j, j < W → out[j]? =
          (buf[j]?).map (fun v => objs.foldl (naive_overlay T (x + (j : Int)) y) v) := by
  intro objs
  induction objs with
  | nil =>
    intro buf out hlen _ h
    have e : horiz_objects_loop W T x y [] buf = some buf := rfl
    rw [e] at h
    rw [← Option.some.inj h]
    exact ⟨hlen, fun j _ => by simp⟩
  | cons obj rest ih =>
    intro buf out hlen hr h
    have hr1 := hr obj (List.mem_cons_self _ _)
    have hr2 : ∀ o ∈ rest, int_range (o.obj_x + (o.image.hdr.width : Int)) ∧
        int_range (o.obj_y + (o.image.hdr.height : Int)) :=
      fun o ho => hr o (List.mem_cons_of_mem _ ho)
    unfold horiz_objects_loop at h
    simp only [] at h
    rw [wrap32_int_range _ hxr, wrap32_int_range _ hr1.1, wrap32_int_range _ hr1.2] at h
    by_cases hcull : y < obj.obj_y ∨ y ≥ obj.obj_y + (obj.image.hdr.height : Int) ∨
        x + (W : Int) ≤ obj.obj_x ∨ x ≥ obj.obj_x + (obj.image.hdr.width : Int)
    · rw [if_pos hcull] at h
      obtain ⟨h2, h3⟩ := ih buf out hlen hr2 h
      refine ⟨h2, ?_⟩
      intro j hj
      rw [h3 j hj]
      simp only [List.foldl_cons, naive_overlay_culled W T x y obj _ j hj hcull]
    · rw [if_neg hcull] at h
      cases hcp : horiz_copy_loop W T obj.image ((y - obj.obj_y) * (obj.image.hdr.width : Int))
          (W + 1) (if x ≤ obj.obj_x then obj.obj_x - x else 0)
          (if x ≤ obj.obj_x then 0 else x - obj.obj_x) buf with
      | none => rw [hcp] at h; exact absurd h (by simp)
      | some out1 =>
        rw [hcp] at h
        simp only [] at h
        obtain ⟨g2, g3⟩ := horiz_object_step_inv W T x y obj buf out1 hlen hcull hcp
        obtain ⟨h2, h3⟩ := ih out1 out g2 hr2 h
        refine ⟨h2, ?_⟩
        intro j hj
        rw [h3 j hj, g3 j hj, Option.map_map]
        rfl

/-- The output of `fill_horiz_buffer`, when it completes and no sum of the
culling test overflows, is the overlay of the objects, in list order, on the
output of the same call in the room without objects. -/
theorem fill_horiz_buffer_overlay (W T : Nat) (view : photo_t) (objs : List object_t)
    (x y : Int) (buf bg out : List Nat) (hbuf : buf.length = W)
    (hr : horiz_in_range W x y objs)
    (hbg : fill_horiz_buffer W T ⟨view, []⟩ x y buf = some bg)
    (hout : fill_horiz_buffer W T ⟨view, objs⟩ x y buf = some out) :
    bg.length = W ∧ out.length = W ∧
      ∀ j, j < W → out[j]? =
        (bg[j]?).map (fun v => objs.foldl (naive_overlay T (x + (j : Int)) y) v) := by
  unfold fill_horiz_buffer at hbg hout
  simp only [] at hbg hout
  cases hb : horiz_background_loop view x y W 0 buf with
  | none => rw [hb] at hbg; exact absurd hbg (by simp)
  | some bg1 =>
    rw [hb] at hbg hout
    simp only [] at hbg hout
    have e : horiz_objects_loop W T x y [] bg1 = some bg1 := rfl
    rw [e] at hbg
    have hbb : bg1 = bg := Option.some.inj hbg
    rw [hbb] at hout hb
    have hl : bg.length = W := by
      rw [horiz_background_loop_length view x y W 0 buf bg hb, hbuf]
    obtain ⟨h2, h3⟩ := horiz_objects_loop_inv W T x y hr.2.2.1 objs bg out hl
      (fun o ho => (hr.2.2.2 o ho).2.2) hout
    exact ⟨hl, h2, h3⟩

/-- With object blocks of the declared sizes and no overflow in the culling
test, `fill_horiz_buffer` completes whenever the same call completes in the
room without objects. -/
theorem fill_horiz_buffer_completes (W T : Nat) (view : photo_t) (objs : List object_t)
    (x y : Int) (buf bg : List Nat) (hbuf : buf.length = W)
    (hr : horiz_in_range W x y objs)
    (hwf : ∀ obj ∈ objs, obj.image.img.length = obj.image.hdr.width * obj.image.hdr.height)
    (hbg : fill_horiz_buffer W T ⟨view, []⟩ x y buf = some bg) :
    ∃ out, fill_horiz_buffer W T ⟨view, objs⟩ x y buf = some out := by
  unfold fill_horiz_buffer at hbg ⊢
  simp only [] at hbg ⊢
  cases hb : horiz_background_loop view x y W 0 buf with
  | none => rw [hb] at hbg; exact absurd hbg (by simp)
  | some bg1 =>
    simp only []
    have hl : bg1.length = W := by
      rw [horiz_background_loop_length view x y W 0 buf bg1 hb, hbuf]
    obtain ⟨out, h1, _, _⟩ := horiz_objects_loop_spec W T x y hr.2.2.1 objs bg1 hl hwf
      (fun o ho => (hr.2.2.2 o ho).2.2)
    exact ⟨out, h1⟩

theorem fill_horiz_buffer_background (W T : Nat) (view : photo_t) (objs : List object_t)
    (x y : Int) (buf out : List Nat)
    (hout : fill_horiz_buffer W T ⟨view, objs⟩ x y buf = some out) :
    ∃ bg, fill_horiz_buffer W T ⟨view, []⟩ x y buf = some bg := by
  unfold fill_horiz_buffer at hout ⊢
  simp only [] at hout ⊢
  cases hb : horiz_background_loop view x y W 0 buf with
  | none => rw [hb] at hout; exact absurd hout (by simp)
  | some bg1 => exact ⟨bg1, rfl⟩

/-! ## The iterations of the copy loop -/

theorem horiz_copy_loop_eq_run (W T : Nat) (img : image_t) (yoff : Int) :
    ∀ (fuel : Nat) (idx imgx : Int) (buf : List Nat), idx ≤ (W : Int) → (W : Int) < idx + (fuel : Int) →
      horiz_copy_loop W T img yoff fuel idx imgx buf =
        run_iterations (horiz_copy_body T img yoff)
          (horiz_copy_iterations W img.hdr.width fuel idx imgx) buf := by
  intro fuel
  induction fuel with
  | zero => intro idx imgx buf h1 h2; simp at h2; omega
  | succ fuel ih =>
    intro idx imgx buf h1 h2
    unfold horiz_copy_loop horiz_copy_iterations
    by_cases hc : (W : Int) > idx ∧ (img.hdr.width : Int) > imgx
    · rw [if_pos hc, if_pos hc]
      have hrec : ∀ b, horiz_copy_loop W T img yoff fuel (idx + 1) (imgx + 1) b =
          run_iterations (horiz_copy_body T img yoff)
            (horiz_copy_iterations W img.hdr.width fuel (idx + 1) (imgx + 1)) b :=
        fun b => ih (idx + 1) (imgx + 1) b (by omega) (by push_cast at h2; omega)
      simp only [run_iterations, horiz_copy_body]
      cases hr : readAt img.img (yoff + imgx) with
      | none => rfl
      | some pixel =>
        simp only []
        by_cases hp : T ≠ pixel
        · rw [if_pos hp, if_pos hp]
          cases hw : writeAt buf idx pixel with
          | none => rfl
          | some buf1 => exact hrec buf1
        · rw [if_neg hp, if_neg hp]
          exact hrec buf
    · rw [if_neg hc, if_neg hc]
      rfl

theorem horiz_copy_iterations_bounds (W width : Nat) :
    ∀ (fuel : Nat) (idx imgx : Int), ∀ it ∈ horiz_copy_iterations W width fuel idx imgx,
      idx ≤ it.1 ∧ it.1 < (W : Int) ∧ imgx ≤ it.2 ∧ it.2 < (width : Int) ∧
        it.1 - it.2 = idx - imgx := by
  intro fuel
  induction fuel with
  | zero => intro idx imgx it h; simp [horiz_copy_iterations] at h
  | succ fuel ih =>
    intro idx imgx it h
    unfold horiz_copy_iterations at h
    by_cases hc : (W : Int) > idx ∧ (width : Int) > imgx
    · rw [if_pos hc] at h
      rcases List.mem_cons.mp h with h | h
      · rw [h]
        exact ⟨le_refl _, hc.1, le_refl _, hc.2, rfl⟩
      · have := ih (idx + 1) (imgx + 1) it h
        omega
    · rw [if_neg hc] at h
      simp at h

theorem writeAt_ne_none (mem : List Nat) (i : Int) (v : Nat) (h0 : 0 ≤ i)
    (h1 : i < (mem.length : Int)) : writeAt mem i v ≠ none := by
  unfold writeAt
  rw [if_pos ⟨h0, h1⟩]
  simp

theorem readAt_ne_none (mem : List Nat) (i : Int) (h0 : 0 ≤ i)
    (h1 : i < (mem.length : Int)) : readAt mem i ≠ none := by
  rw [readAt_of_bounds mem i h0 h1]
  simp

/-! ## The loader loops -/

theorem writeAt_inv (mem : List Nat) (i : Int) (v : Nat) (m : List Nat)
    (h : writeAt mem i v = some m) : 0 ≤ i ∧ i < (mem.length : Int) ∧ m = mem.set i.toNat v := by
  unfold writeAt at h
  by_cases hc : 0 ≤ i ∧ i < (mem.length : Int)
  · rw [if_pos hc] at h
    simp only [Option.some.injEq] at h
    exact ⟨hc.1, hc.2, h.symm⟩
  · rw [if_neg hc] at h
    simp at h

theorem load_row_inv (f : Nat → Option Nat) (w y : Nat) :
    ∀ (n x : Nat) (stream img s1 i1 : List Nat),
      load_row f w y n x stream img = some (s1, i1) →
      n ≤ stream.length ∧ s1 = stream.drop n ∧ i1.length = img.length ∧
      w * y + x + n ≤ img.length + (if n = 0 then w * y + x else 0) ∧
      (∀ k, k < n → i1[w * y + x + k]? = (stream[k]?).bind f) ∧
      (∀ j, (j < w * y + x ∨ w * y + x + n ≤ j) → i1[j]? = img[j]?) := by
  intro n
  induction n with
  | zero =>
    intro x stream img s1 i1 h
    simp only [load_row, Option.some.injEq, Prod.mk.injEq] at h
    obtain ⟨h1, h2⟩ := h
    subst h1 h2
    refine ⟨by omega, by simp, rfl, by simp, fun k hk => by omega, fun j _ => rfl⟩
  | succ n ih =>
    intro x stream img s1 i1 h
    unfold load_row at h
    cases stream with
    | nil => simp at h
    | cons pixel rest =>
      simp only [] at h
      cases hf : f pixel with
      | none => rw [hf] at h; simp at h
      | some v =>
        rw [hf] at h
        simp only [] at h
        cases hw : writeAt img ((w : Int) * (y : Int) + (x : Int)) v with
        | none => rw [hw] at h; simp at h
        | some img1 =>
          rw [hw] at h
          simp only [] at h
          obtain ⟨w0, w1, w2⟩ := writeAt_inv _ _ _ _ hw
          have hcast : ((w : Int) * (y : Int) + (x : Int)) = ((w * y + x : Nat) : Int) := by
            push_cast; rfl
          rw [hcast] at w1 w2
          rw [Int.toNat_ofNat] at w2
          have hlt : w * y + x < img.length := by omega
          obtain ⟨a1, a2, a3, a4, a5, a6⟩ := ih (x + 1) rest img1 s1 i1 h
          have hl1 : img1.length = img.length := by rw [w2]; simp
          refine ⟨by simp; omega, by simp [a2], by rw [a3, hl1], ?_, ?_, ?_⟩
          · simp only [Nat.add_one_ne_zero, if_false]
            by_cases hn : n = 0
            · subst hn; omega
            · rw [if_neg hn, hl1] at a4
              omega
          · intro k hk
            cases k with
            | zero =>
              rw [Nat.add_zero, a6 (w * y + x) (Or.inl (by omega)), w2]
              simp [hlt, hf]
            | succ k =>
              have := a5 k (by omega)
              rw [show w * y + x + (k + 1) = w * y + (x + 1) + k by omega, this]
              simp
          · intro j hj
            rw [a6 j (by omega), w2, List.getElem?_set]
            have : ¬ w * y + x = j := by omega
            rw [if_neg this]

theorem load_rows_inv (f : Nat → Option Nat) (w : Nat) :
    ∀ (h : Nat) (stream img s1 i1 : List Nat),
      load_rows f w h stream img = some (s1, i1) →
      w * h ≤ stream.length ∧ s1 = stream.drop (w * h) ∧ i1.length = img.length ∧
      (∀ y x, y < h → x < w → i1[w * y + x]? = (stream[w * (h - 1 - y) + x]?).bind f) ∧
      (∀ j, w * h ≤ j → i1[j]? = img[j]?) := by
  intro h
  induction h with
  | zero =>
    intro stream img s1 i1 hl
    simp only [load_rows, Option.some.injEq, Prod.mk.injEq] at hl
    obtain ⟨h1, h2⟩ := hl
    subst h1 h2
    exact ⟨by simp, by simp, rfl, fun y x hy _ => by omega, fun j _ => rfl⟩
  | succ h ih =>
    intro stream img s1 i1 hl
    unfold load_rows at hl
    cases hr : load_row f w h w 0 stream img with
    | none => rw [hr] at hl; simp at hl
    | some r =>
      obtain ⟨s2, i2⟩ := r
      rw [hr] at hl
      simp only [] at hl
      obtain ⟨a1, a2, a3, _, a5, a6⟩ := load_row_inv f w h w 0 stream img s2 i2 hr
      obtain ⟨b1, b2, b3, b4, b5⟩ := ih s2 i2 s1 i1 hl
      have hmul : w * (h + 1) = w * h + w := by ring
      rw [a2, List.length_drop] at b1
      refine ⟨by omega, ?_, by rw [b3, a3], ?_, ?_⟩
      · rw [b2, a2, List.drop_drop, hmul]
        congr 1
        omega
      · intro y x hy hx
        by_cases hyh : y < h
        · rw [b4 y x hyh hx, a2, List.getElem?_drop]
          congr 2
          have e : h + 1 - 1 - y = (h - 1 - y) + 1 := by omega
          rw [e, Nat.mul_add, Nat.mul_one]
          omega
        · have hy2 : y = h := by omega
          subst hy2
          rw [b5 (w * y + x) (by omega)]
          have := a5 x hx
          rw [Nat.add_zero] at this
          rw [this, show y + 1 - 1 - y = 0 by omega, Nat.mul_zero, Nat.zero_add]
      · intro j hj
        rw [b5 j (by omega), a6 j (Or.inr (by omega))]

theorem load_row_some (f : Nat → Option Nat) (w y : Nat) :
    ∀ (n x : Nat) (stream img : List Nat), n ≤ stream.length → w * y + x + n ≤ img.length →
      (∀ k, k < n → (stream[k]?).bind f ≠ none) →
      ∃ r, load_row f w y n x stream img = some r := by
  intro n
  induction n with
  | zero => intro x stream img _ _ _; exact ⟨_, rfl⟩
  | succ n ih =>
    intro x stream img h1 h2 h3
    cases stream with
    | nil => simp at h1
    | cons pixel rest =>
      have h0 := h3 0 (by omega)
      simp only [List.getElem?_cons_zero, Option.some_bind] at h0
      cases hf : f pixel with
      | none => exact absurd hf h0
      | some v =>
        have hcast : ((w : Int) * (y : Int) + (x : Int)) = ((w * y + x : Nat) : Int) := by
          push_cast; rfl
        have hw : writeAt img ((w : Int) * (y : Int) + (x : Int)) v =
            some (img.set (w * y + x) v) := by
          rw [hcast]
          exact writeAt_nat _ _ _ (by omega)
        obtain ⟨r, hr⟩ := ih (x + 1) rest (img.set (w * y + x) v) (by simpa using h1)
          (by simp; omega) (fun k hk => by
            have := h3 (k + 1) (by omega)
            simpa using this)
        refine ⟨r, ?_⟩
        unfold load_row
        simp only [hf, hw]
        exact hr

theorem load_rows_some (f : Nat → Option Nat) (w : Nat) :
    ∀ (h : Nat) (stream img : List Nat), w * h ≤ stream.length → w * h ≤ img.length →
      (∀ k, k < w * h → (stream[k]?).bind f ≠ none) →
      ∃ r, load_rows f w h stream img = some r := by
  intro h
  induction h with
  | zero => intro stream img _ _ _; exact ⟨_, rfl⟩
  | succ h ih =>
    intro stream img h1 h2 h3
    have hmul : w * (h + 1) = w * h + w := by ring
    obtain ⟨r, hr⟩ := load_row_some f w h w 0 stream img (by omega) (by omega)
      (fun k hk => h3 k (by omega))
    obtain ⟨s2, i2⟩ := r
    obtain ⟨_, a2, a3, _, _, _⟩ := load_row_inv f w h w 0 stream img s2 i2 hr
    obtain ⟨r2, hr2⟩ := ih s2 i2 (by rw [a2, List.length_drop]; omega) (by omega)
      (fun k hk => by
        rw [a2, List.getElem?_drop]
        exact h3 (w + k) (by omega))
    refine ⟨r2, ?_⟩
    unfold load_rows
    rw [hr]
    exact hr2

/-! ## `read_obj_image` and `read_photo` -/

theorem read_obj_image_inv (file : image_file) (img : image_t)
    (h : read_obj_image file = some img) :
    ∃ hdr, file.hdr = some hdr ∧ hdr.width ≤ 160 ∧ hdr.height ≤ 100 ∧
      hdr.width * hdr.height ≤ file.data.length ∧ img.hdr = hdr ∧
      img.img.length = hdr.width * hdr.height ∧
      ∀ y x, y < hdr.height → x < hdr.width →
        img.img[hdr.width * y + x]? = file.data[hdr.width * (hdr.height - 1 - y) + x]? := by
  unfold read_obj_image at h
  cases hh : file.hdr with
  | none => rw [hh] at h; simp at h
  | some hdr =>
    rw [hh] at h
    simp only [] at h
    by_cases hc : MAX_OBJECT_WIDTH < hdr.width ∨ MAX_OBJECT_HEIGHT < hdr.height
    · rw [if_pos hc] at h; simp at h
    · rw [if_neg hc] at h
      cases hl : load_rows (fun pixel => some pixel) hdr.width hdr.height file.data
          (List.replicate (hdr.width * hdr.height) 0) with
      | none => rw [hl] at h; simp at h
      | some r =>
        obtain ⟨s1, i1⟩ := r
        rw [hl] at h
        simp only [Option.some.injEq] at h
        subst h
        obtain ⟨a1, _, a3, a4, _⟩ := load_rows_inv _ _ _ _ _ _ _ hl
        unfold MAX_OBJECT_WIDTH MAX_OBJECT_HEIGHT at hc
        refine ⟨hdr, rfl, by omega, by omega, a1, rfl, by rw [a3]; simp, ?_⟩
        intro y x hy hx
        rw [a4 y x hy hx]
        cases file.data[hdr.width * (hdr.height - 1 - y) + x]? <;> rfl

theorem read_obj_image_some (file : image_file) (hdr : photo_header_t)
    (hh : file.hdr = some hdr) (hw : hdr.width ≤ 160) (hht : hdr.height ≤ 100)
    (hd : hdr.width * hdr.height ≤ file.data.length) :
    ∃ img, read_obj_image file = some img := by
  obtain ⟨r, hr⟩ := load_rows_some (fun pixel => some pixel) hdr.width hdr.height file.data
    (List.replicate (hdr.width * hdr.height) 0) hd (by simp) (by
      intro k hk
      have hlt : k < file.data.length := by omega
      rw [List.getElem?_eq_getElem hlt]
      simp)
  have hc : ¬ (MAX_OBJECT_WIDTH < hdr.width ∨ MAX_OBJECT_HEIGHT < hdr.height) := by
    unfold MAX_OBJECT_WIDTH MAX_OBJECT_HEIGHT
    omega
  refine ⟨⟨hdr, r.2⟩, ?_⟩
  unfold read_obj_image
  rw [hh]
  simp only []
  rw [if_neg hc, hr]

theorem read_photo_inv (qsort : List Node → List Node) (file : photo_file) (p : photo_t)
    (h : read_photo qsort file = some p) :
    ∃ hdr, file.hdr = some hdr ∧ hdr.width ≤ 1024 ∧ hdr.height ≤ 1024 ∧
      hdr.width * hdr.height ≤ file.data.length ∧ p.hdr = hdr ∧
      build_palette qsort (file.data.take (hdr.width * hdr.height)) = some p.palette ∧
      p.img.length = hdr.width * hdr.height ∧
      ∀ y x, y < hdr.height → x < hdr.width →
        p.img[hdr.width * y + x]? =
          ((file.header ++ file.data)[hdr.width * (hdr.height - 1 - y) + x]?).bind
            (fun pixel => determinePaletteValue pixel p.palette) := by
  unfold read_photo at h
  cases hh : file.hdr with
  | none => rw [hh] at h; simp at h
  | some hdr =>
    rw [hh] at h
    simp only [] at h
    by_cases hc : MAX_PHOTO_WIDTH < hdr.width ∨ MAX_PHOTO_HEIGHT < hdr.height
    · rw [if_pos hc] at h; simp at h
    · rw [if_neg hc] at h
      by_cases hs : file.data.length < hdr.width * hdr.height
      · rw [if_pos hs] at h; simp at h
      · rw [if_neg hs] at h
        cases hb : build_palette qsort (file.data.take (hdr.width * hdr.height)) with
        | none => rw [hb] at h; simp at h
        | some palette =>
          rw [hb] at h
          simp only [] at h
          cases hl : load_rows (fun pixel => determinePaletteValue pixel palette) hdr.width
              hdr.height (file.header ++ file.data) (List.replicate (hdr.width * hdr.height) 0) with
          | none => rw [hl] at h; simp at h
          | some r =>
            obtain ⟨s1, i1⟩ := r
            rw [hl] at h
            simp only [Option.some.injEq] at h
            subst h
            obtain ⟨_, _, a3, a4, _⟩ := load_rows_inv _ _ _ _ _ _ _ hl
            unfold MAX_PHOTO_WIDTH MAX_PHOTO_HEIGHT at hc
            exact ⟨hdr, rfl, by omega, by omega, by omega, rfl, hb, by rw [a3]; simp, a4⟩

theorem read_photo_some (qsort : List Node → List Node) (file : photo_file)
    (hdr : photo_header_t) (pal : List Nat)
    (hh : file.hdr = some hdr) (hw : hdr.width ≤ 1024) (hht : hdr.height ≤ 1024)
    (hd : hdr.width * hdr.height ≤ file.data.length)
    (hperm : (qsort (accumulate (file.data.take (hdr.width * hdr.height))).1).Perm
      (accumulate (file.data.take (hdr.width * hdr.height))).1)
    (hb : build_palette qsort (file.data.take (hdr.width * hdr.height)) = some pal) :
    ∃ p, read_photo qsort file = some p := by
  obtain ⟨r, hr⟩ := load_rows_some (fun pixel => determinePaletteValue pixel pal) hdr.width
    hdr.height (file.header ++ file.data) (List.replicate (hdr.width * hdr.height) 0)
    (by simp; omega) (by simp) (by
      intro k hk
      have hlt : k < (file.header ++ file.data).length := by simp; omega
      rw [List.getElem?_eq_getElem hlt]
      simp only [Option.some_bind]
      rw [determinePaletteValue_finished qsort _ pal hperm hb]
      simp)
  have hc : ¬ (MAX_PHOTO_WIDTH < hdr.width ∨ MAX_PHOTO_HEIGHT < hdr.height) := by
    unfold MAX_PHOTO_WIDTH MAX_PHOTO_HEIGHT
    omega
  refine ⟨⟨hdr, pal, r.2⟩, ?_⟩
  unfold read_photo
  rw [hh]
  simp only []
  rw [if_neg hc, if_neg (by omega), hb]
  simp only []
  rw [hr]

/-! ## Dependence of the palette on the order of equal counts -/

theorem swap12_post (table sorted : List Node) (a b c : Node) (rest : List Node)
    (hq : qsort_post cmpfunc table sorted) (hs : sorted = a :: b :: c :: rest)
    (hcb : cmpfunc c b ≤ 0) : qsort_post cmpfunc table (swap12 sorted) := by
  obtain ⟨hperm, hpw⟩ := hq
  subst hs
  simp only [swap12]
  refine ⟨?_, ?_⟩
  · exact (List.Perm.cons a (List.Perm.swap b c rest).symm).symm.trans hperm |>.symm.symm
  · simp only [List.pairwise_cons, List.mem_cons] at hpw ⊢
    obtain ⟨h1, h2, h3, h4⟩ := hpw
    refine ⟨?_, ?_, ?_, h4⟩
    · intro x hx
      rcases hx with hx | hx | hx
      · exact h1 x (Or.inr (Or.inl hx))
      · exact h1 x (Or.inl hx)
      · exact h1 x (Or.inr (Or.inr hx))
    · intro x hx
      rcases hx with hx | hx
      · rw [hx]; exact hcb
      · exact h3 x hx
    · intro x hx
      exact h2 x (Or.inr hx)

theorem in_bucket_key (r g b k1 k2 : Nat) (h1 : k1 < 4096) (h2 : k2 < 4096)
    (hb1 : in_bucket r g b k1) (hb2 : in_bucket r g b k2) : k1 = k2 := by
  unfold in_bucket at hb1 hb2
  omega

theorem fine_node_of_count_zero (P : List Nat) (k : Nat) (h : (fine_node P k).count_ = 0) :
    fine_node P k = init := by
  have hnone : ∀ p ∈ P, ¬ index4 p = k := by
    intro p hp he
    have := total_pos_of_mem (fun q => decide (index4 q = k)) P p hp (by simp [he])
    have hc : (fine_node P k).count_ = total Chan.n (fun q => decide (index4 q = k)) P := rfl
    omega
  have hz : ∀ ch, total ch (fun q => decide (index4 q = k)) P = 0 := fun ch =>
    total_eq_zero ch _ P (fun p hp => by simp [hnone p hp])
  have hany : P.any (fun p => decide (index4 p = k)) = false := by
    rw [List.any_eq_false]
    intro p hp
    simp [hnone p hp]
  unfold fine_node init
  simp only [hz, hany]
  rfl

/-- In every count-sorted arrangement of the table of `sample_image` the keys at
positions 1 and 2 are distinct keys of buckets with exactly two samples. -/
theorem sample_second_third (sorted : List Node) (idx : List Nat)
    (hq : qsort_post cmpfunc (accumulate sample_image).1 sorted)
    (hr : rearranged_by (accumulate sample_image).1 sorted idx) :
    ∃ k0 k1 k2 rest, idx = k0 :: k1 :: k2 :: rest ∧ k1 ≠ k2 ∧ k1 < 4096 ∧ k2 < 4096 ∧
      (fine_node sample_image k1).count_ = 2 ∧ (fine_node sample_image k2).count_ = 2 := by
  obtain ⟨hperm, hmap⟩ := rearranged_by_fine _ sorted idx hr
  have hlen : idx.length = 4096 := by rw [hperm.length_eq]; simp
  have hnd : idx.Nodup := hperm.nodup_iff.mpr (List.nodup_range _)
  have hfirst := sample_first sorted idx hq hr
  have hsel := (sample_selected sorted idx hq hr).1
  match idx, hlen, hnd, hfirst, hsel, hperm with
  | k0 :: k1 :: k2 :: rest, _, hnd, hfirst, hsel, hperm =>
    simp only [List.getElem?_cons_zero, Option.some.injEq] at hfirst
    have hnd2 := List.nodup_cons.mp hnd
    have hnd3 := List.nodup_cons.mp hnd2.2
    have hk1 : k1 ≠ k0 := fun e => hnd2.1 (by rw [e]; simp)
    have hk2 : k2 ≠ k0 := fun e => hnd2.1 (by rw [e]; simp)
    have hk12 : k1 ≠ k2 := fun e => hnd3.1 (by rw [e]; simp)
    have hle : ∀ k, k ≠ k0 → (fine_node sample_image k).count_ ≤ 2 := by
      intro k hk
      by_contra hcon
      obtain ⟨p, hp, hpk⟩ := exists_of_fine_count_pos sample_image k (by omega)
      have := sample_max_unique p hp (by rw [hpk]; omega)
      rw [hpk, ← hfirst] at this
      exact hk this
    have hm1 : k1 ∈ (k0 :: k1 :: k2 :: rest).take 128 := by simp [List.take]
    have hm2 : k2 ∈ (k0 :: k1 :: k2 :: rest).take 128 := by simp [List.take]
    have g1 := hsel k1 hm1
    have g2 := hsel k2 hm2
    have l1 := hle k1 hk1
    have l2 := hle k2 hk2
    have r1 : k1 ∈ List.range (8*8*8*8) := hperm.subset (by simp)
    have r2 : k2 ∈ List.range (8*8*8*8) := hperm.subset (by simp)
    refine ⟨k0, k1, k2, rest, rfl, hk12, by simpa using r1, by simpa using r2, by omega, by omega⟩

/-- The exchange of the entries at positions 1 and 2 of the sorted table of
`sample_image` is another outcome that meets the contract of `qsort`. -/
theorem sample_alt_post :
    qsort_post cmpfunc (accumulate sample_image).1 (sort_desc_alt (accumulate sample_image).1) := by
  have hq := sort_desc_post sample_image sample_image_length
  obtain ⟨idx, hr⟩ := rearranged_by_exists sample_image _ hq.1
  obtain ⟨k0, k1, k2, rest, hidx, _, _, _, c1, c2⟩ := sample_second_third _ idx hq hr
  obtain ⟨_, hmap⟩ := rearranged_by_fine _ _ idx hr
  rw [hidx] at hmap
  simp only [List.map_cons] at hmap
  unfold sort_desc_alt
  apply swap12_post _ _ _ _ _ _ hq hmap
  unfold cmpfunc
  rw [c1, c2]
  decide

/-- Two sorts that both meet the contract of `qsort` give different palettes on
`sample_image`: entry 65 is the mean of a different bucket. -/
theorem sample_palettes_differ :
    ∃ pal1 pal2, build_palette sort_desc sample_image = some pal1 ∧
      build_palette sort_desc_alt sample_image = some pal2 ∧ pal1 ≠ pal2 := by
  have hq := sort_desc_post sample_image sample_image_length
  have hq2 := sample_alt_post
  obtain ⟨pal1, hb1⟩ := sample_image_completes sort_desc hq
  obtain ⟨pal2, hb2⟩ := sample_image_completes sort_desc_alt hq2
  refine ⟨pal1, pal2, hb1, hb2, ?_⟩
  obtain ⟨idx, hr⟩ := rearranged_by_exists sample_image _ hq.1
  obtain ⟨k0, k1, k2, rest, hidx, hne, hk1, hk2, c1, c2⟩ := sample_second_third _ idx hq hr
  obtain ⟨_, hmap⟩ := rearranged_by_fine _ _ idx hr
  rw [hidx] at hmap
  simp only [List.map_cons] at hmap
  obtain ⟨nd1, g1, _, e1, e2, e3, _⟩ := finished_fine_entries sort_desc sample_image pal1 hq.1 hb1 1
    (by omega)
  obtain ⟨nd2, g2, _, f1, f2, f3, _⟩ := finished_fine_entries sort_desc_alt sample_image pal2
    hq2.1 hb2 1 (by omega)
  rw [hmap] at g1
  simp only [List.getElem?_cons_succ, List.getElem?_cons_zero, Option.some.injEq] at g1
  unfold sort_desc_alt at g2
  rw [hmap] at g2
  simp only [swap12, List.getElem?_cons_succ, List.getElem?_cons_zero, Option.some.injEq] at g2
  subst g1 g2
  obtain ⟨_, _, _, hin1⟩ := bucket_means sample_image k1 hk1 (by omega)
  obtain ⟨_, _, _, hin2⟩ := bucket_means sample_image k2 hk2 (by omega)
  intro heq
  rw [heq] at e1 e2 e3
  rw [e1] at f1
  rw [e2] at f2
  rw [e3] at f3
  simp only [Option.some.injEq] at f1 f2 f3
  rw [← f1, ← f2, ← f3] at hin2
  exact hne (in_bucket_key _ _ _ k1 k2 hk1 hk2 hin1 hin2)

/-- When no two distinct level 4 keys hold the same non-zero number of samples,
the table sorted with `cmpfunc` is unique. -/
theorem sorted_unique (P : List Nat) (s1 s2 : List Node) (hlen : P.length ≤ 1024 * 1024)
    (h1 : qsort_post cmpfunc (accumulate P).1 s1) (h2 : qsort_post cmpfunc (accumulate P).1 s2)
    (hd : ∀ i j, i < 4096 → j < 4096 → i ≠ j →
      ((accumulate P).1.getD i init).count_ = ((accumulate P).1.getD j init).count_ →
      ((accumulate P).1.getD i init).count_ = 0) :
    s1 = s2 := by
  apply List.Perm.eq_of_sorted _ h1.2 h2.2 (h1.1.trans h2.1.symm)
  intro a b ha hb hab hba
  have ma : a ∈ (accumulate P).1 := h1.1.subset ha
  have mb : b ∈ (accumulate P).1 := h2.1.subset hb
  have ra := accumulate_count_range P a ma
  have rb := accumulate_count_range P b mb
  have hl : (P.length : Int) ≤ 1024 * 1024 := by exact_mod_cast hlen
  have e1 := (cmpfunc_le_iff a b ra.1 (by omega) rb.1 (by omega)).mp hab
  have e2 := (cmpfunc_le_iff b a rb.1 (by omega) ra.1 (by omega)).mp hba
  rw [accumulate_fst, List.mem_map] at ma mb
  obtain ⟨i, hi, hia⟩ := ma
  obtain ⟨j, hj, hjb⟩ := mb
  have hi2 : i < 4096 := by simpa using hi
  have hj2 : j < 4096 := by simpa using hj
  by_cases hij : i = j
  · rw [← hia, ← hjb, hij]
  · have hz := hd i j hi2 hj2 hij (by
      rw [accumulate_fst_getD P i hi2, accumulate_fst_getD P j hj2, hia, hjb]; omega)
    rw [accumulate_fst_getD P i hi2] at hz
    have hzj : (fine_node P j).count_ = 0 := by rw [hjb]; rw [hia] at hz; omega
    rw [← hia, ← hjb, fine_node_of_count_zero P i hz, fine_node_of_count_zero P j hzj]

/-- A check on the samples that gives the hypothesis of `sorted_unique`. -/
theorem distinct_counts_of_samples (P : List Nat)
    (h : ∀ p1 ∈ P, ∀ p2 ∈ P, (fine_node P (index4 p1)).count_ = (fine_node P (index4 p2)).count_ →
      index4 p1 = index4 p2) :
    ∀ i j, i < 4096 → j < 4096 → i ≠ j →
      ((accumulate P).1.getD i init).count_ = ((accumulate P).1.getD j init).count_ →
      ((accumulate P).1.getD i init).count_ = 0 := by
  intro i j hi hj hij he
  rw [accumulate_fst_getD P i hi, accumulate_fst_getD P j hj] at he
  rw [accumulate_fst_getD P i hi]
  by_contra hne
  have hpos := (fine_count_range P i).1
  obtain ⟨p1, hp1, e1⟩ := exists_of_fine_count_pos P i (by omega)
  obtain ⟨p2, hp2, e2⟩ := exists_of_fine_count_pos P j (by omega)
  have := h p1 hp1 p2 hp2 (by rw [e1, e2]; exact he)
  rw [e1, e2] at this
  exact hij this

theorem sort_desc_red_post (P : List Nat) (hlen : P.length ≤ 1024 * 1024) :
    qsort_post cmpfunc (accumulate P).1 (sort_desc_red (accumulate P).1) := by
  have hperm : (sort_desc_red (accumulate P).1).Perm (accumulate P).1 := List.mergeSort_perm _ _
  refine ⟨hperm, ?_⟩
  have hs : (sort_desc_red (accumulate P).1).Pairwise
      (fun a b => decide (b.count_ < a.count_ ∨ (b.count_ = a.count_ ∧ a.rSum_ ≤ b.rSum_)) = true) :=
    List.sorted_mergeSort
      (fun a b c hab hbc => by
        simp only [decide_eq_true_eq] at hab hbc ⊢
        omega)
      (fun a b => by
        simp only [Bool.or_eq_true, decide_eq_true_eq]
        omega) _
  apply List.Pairwise.imp_of_mem _ hs
  intro a b ha hb hab
  simp only [decide_eq_true_eq] at hab
  have ra := accumulate_count_range P a (hperm.subset ha)
  have rb := accumulate_count_range P b (hperm.subset hb)
  have hl : (P.length : Int) ≤ 1024 * 1024 := by exact_mod_cast hlen
  exact (cmpfunc_le_iff a b ra.1 (by omega) rb.1 (by omega)).mpr (by omega)

theorem copy_offsets_bounds (w h : Nat) (r c : Int) (hr0 : 0 ≤ r) (hr1 : r < (h : Int))
    (hc0 : 0 ≤ c) (hc1 : c < (w : Int)) :
    0 ≤ r * (w : Int) + c ∧ r * (w : Int) + c < ((w * h : Nat) : Int) := by
  have := block_index_bounds w h r c hr0 hr1 hc0 hc1
  rw [mul_comm] at this
  exact this

/-! ## The return paths of `determinePaletteValue` -/

/-- The loop of `determinePaletteValue` ends without a `return` exactly when
every entry it examines has the red value of the sample and none of them has
its green and blue values too. -/
theorem determinePaletteValue_loop_none_iff (pixel : Nat) (palette : List Nat) :
    ∀ (n i : Nat), 3 * (i + n) ≤ palette.length →
      (determinePaletteValue_loop pixel palette n i = none ↔
        ∀ j, i ≤ j → j < i + n → palette[j * 3]? = some (red pixel) ∧
          ¬ (palette[j * 3 + 1]? = some (green pixel) ∧ palette[j * 3 + 2]? = some (blue pixel))) := by
  intro n
  induction n with
  | zero =>
    intro i _
    constructor
    · intro _ j h1 h2; omega
    · intro _; rfl
  | succ n ih =>
    intro i hlen
    have h0 : i * 3 < palette.length := by omega
    have h1 : i * 3 + 1 < palette.length := by omega
    have h2 : i * 3 + 2 < palette.length := by omega
    have e0 : palette[i * 3]? = some palette[i * 3] := List.getElem?_eq_getElem h0
    have e1 : palette[i * 3 + 1]? = some palette[i * 3 + 1] := List.getElem?_eq_getElem h1
    have e2 : palette[i * 3 + 2]? = some palette[i * 3 + 2] := List.getElem?_eq_getElem h2
    have hstep : ∀ (Q : Nat → Prop), Q i → ((∀ j, i ≤ j → j < i + (n + 1) → Q j) ↔
        ∀ j, i + 1 ≤ j → j < i + 1 + n → Q j) := by
      intro Q hq
      constructor
      · intro h j a b; exact h j (by omega) (by omega)
      · intro h j a b
        by_cases hj : j = i
        · rw [hj]; exact hq
        · exact h j (by omega) (by omega)
    have hfail : ∀ (Q : Nat → Prop), ¬ Q i → ¬ (∀ j, i ≤ j → j < i + (n + 1) → Q j) :=
      fun Q hq h => hq (h i (le_refl _) (by omega))
    unfold determinePaletteValue_loop
    rw [e0]
    simp only []
    by_cases hr : palette[i * 3] = red pixel
    · rw [if_pos hr, e1]
      simp only []
      by_cases hg : palette[i * 3 + 1] = green pixel
      · rw [if_pos hg, e2]
        simp only []
        by_cases hb : palette[i * 3 + 2] = blue pixel
        · rw [if_pos hb]
          constructor
          · intro h; exact absurd h (by simp)
          · intro h
            exact absurd h (hfail _ (fun hq => hq.2 ⟨by rw [e1, hg], by rw [e2, hb]⟩))
        · rw [if_neg hb, ih (i + 1) (by omega)]
          exact (hstep _ ⟨by rw [e0, hr], fun hq => hb (by
            have := hq.2; rw [e2] at this; exact Option.some.inj this)⟩).symm
      · rw [if_neg hg, ih (i + 1) (by omega)]
        exact (hstep _ ⟨by rw [e0, hr], fun hq => hg (by
          have := hq.1; rw [e1] at this; exact Option.some.inj this)⟩).symm
    · rw [if_neg hr]
      constructor
      · intro h; exact absurd h (by simp)
      · intro h
        exact absurd h (hfail _ (fun hq => hr (by
          have := hq.1; rw [e0] at this; exact Option.some.inj this)))

/-- On a palette of 192 entries `determinePaletteValue` returns no value exactly
when all 192 entries have the red value of the sample and none has its green
and blue values too; in every other case it returns. -/
theorem determinePaletteValue_none_iff (pixel : Nat) (palette : List Nat)
    (hlen : palette.length = 3 * 192) :
    determinePaletteValue pixel palette = none ↔
      ∀ j, j < 192 → palette[j * 3]? = some (red pixel) ∧
        ¬ (palette[j * 3 + 1]? = some (green pixel) ∧ palette[j * 3 + 2]? = some (blue pixel)) := by
  unfold determinePaletteValue
  rw [determinePaletteValue_loop_none_iff pixel palette 192 0 (by omega)]
  constructor
  · intro h j hj; exact h j (Nat.zero_le _) (by omega)
  · intro h j _ hj; exact h j (by omega)

theorem stuck_palette_length : stuck_palette.length = 3 * 192 := by
  unfold stuck_palette
  rw [List.length_map, List.length_range]

theorem stuck_palette_get (i : Nat) (hi : i < 3 * 192) :
    stuck_palette[i]? = some (if i % 3 = 1 then 1 else 0) := by
  unfold stuck_palette
  rw [List.getElem?_map, List.getElem?_range hi]
  rfl

/-! ## Ranges of the accumulated counts -/

/-- For counts in `[0, 1024*1024]` the subtraction in `cmpfunc` does not wrap. -/
theorem cmpfunc_exact (a b : Node) (ha0 : 0 ≤ a.count_) (ha1 : a.count_ ≤ 1024 * 1024)
    (hb0 : 0 ≤ b.count_) (hb1 : b.count_ ≤ 1024 * 1024) :
    cmpfunc a b = b.count_ - a.count_ := by
  unfold cmpfunc wrap32
  omega


/-! ## The parent of a fine bucket -/

theorem coarse_of_fine_spec_eq (k : Nat) : coarse_of_fine_spec k = parent_of k := by
  unfold coarse_of_fine_spec parent_of
  have m : ∀ x : Nat, x &&& 3 = x % 4 := fun x => and_mask x 2
  rw [Nat.shiftRight_eq_div_pow, Nat.shiftRight_eq_div_pow, Nat.shiftRight_eq_div_pow, m, m, m]
  exact or_fields (k / 2 ^ 10 % 4) (k / 2 ^ 6 % 4) (k / 2 ^ 2 % 4) 2 2
    (Nat.mod_lt _ (by norm_num)) (Nat.mod_lt _ (by norm_num))

theorem accumulate_fst_get (P : List Nat) (k : Nat) (nd : Node)
    (h : (accumulate P).1[k]? = some nd) : k < 4096 ∧ nd = fine_node P k := by
  have hk : k < 4096 := by
    have := (List.getElem?_eq_some_iff.mp h).1
    rwa [accumulate_fst_length] at this
  refine ⟨hk, ?_⟩
  have hg := accumulate_fst_getD P k hk
  rw [List.getD_eq_getElem?_getD, h] at hg
  exact hg

theorem fine_node_parent (P : List Nat) (k : Nat) (h : (fine_node P k).count_ ≠ 0) :
    (fine_node P k).parent_ = (parent_of k : Int) := by
  by_cases hany : P.any (fun p => decide (index4 p = k)) = true
  · simp only [fine_node, hany, if_true]
  · exfalso
    apply h
    have hz : ∀ p ∈ P, decide (index4 p = k) = false := by
      intro p hp
      cases hd : decide (index4 p = k)
      · rfl
      · exact absurd (List.any_eq_true.mpr ⟨p, hp, hd⟩) hany
    exact total_eq_zero Chan.n _ P hz

theorem total_perm (ch : Chan) (S : Nat → Bool) (P Q : List Nat) (h : Q.Perm P) :
    total ch S Q = total ch S P := by
  unfold total
  exact ((h.filter S).map _).sum_eq

theorem fine_node_perm (P Q : List Nat) (h : Q.Perm P) (k : Nat) :
    fine_node Q k = fine_node P k := by
  unfold fine_node
  rw [total_perm _ _ P Q h, total_perm _ _ P Q h, total_perm _ _ P Q h, total_perm _ _ P Q h]
  have : Q.any (fun p => decide (index4 p = k)) = P.any (fun p => decide (index4 p = k)) := by
    rw [Bool.eq_iff_iff, List.any_eq_true, List.any_eq_true]
    exact ⟨fun ⟨p, hp, e⟩ => ⟨p, h.subset hp, e⟩, fun ⟨p, hp, e⟩ => ⟨p, h.symm.subset hp, e⟩⟩
  rw [this]

theorem coarse_node_perm (P Q : List Nat) (h : Q.Perm P) (c : Nat) :
    coarse_node Q c = coarse_node P c := by
  unfold coarse_node
  rw [total_perm _ _ P Q h, total_perm _ _ P Q h, total_perm _ _ P Q h, total_perm _ _ P Q h]

/-- The accumulated tables do not depend on the order of the samples. -/
theorem accumulate_perm (P Q : List Nat) (h : Q.Perm P) : accumulate Q = accumulate P := by
  rw [accumulate_eq, accumulate_eq]
  have h1 : fine_node Q = fine_node P := funext (fine_node_perm P Q h)
  have h2 : coarse_node Q = coarse_node P := funext (coarse_node_perm P Q h)
  rw [h1, h2]


/-! ## Stored means and the bits of the key -/

/-- For a non-negative sum and a positive count the mean is the quotient the C
division computes. -/
theorem mean_exact (s cnt : Int) (hs : 0 ≤ s) (hcnt : 0 < cnt) :
    ((mean s cnt : Nat) : Int) = s.tdiv cnt ∧ 0 ≤ s.tdiv cnt := by
  have e : s.tdiv cnt = s / cnt := Int.tdiv_eq_ediv hs (le_of_lt hcnt)
  have b1 : 0 ≤ s / cnt := Int.ediv_nonneg hs (le_of_lt hcnt)
  unfold mean
  rw [e]
  omega

/-- Membership of a colour in level 4 bucket `k`, written with shifts and masks. -/
theorem in_bucket_shifts (r g b k : Nat) (hk : k < 4096) (h : in_bucket r g b k) :
    r >>> 1 = (k >>> 8) &&& 0xF ∧ g >>> 2 = (k >>> 4) &&& 0xF ∧ b >>> 1 = k &&& 0xF := by
  have m : ∀ x : Nat, x &&& 0xF = x % 16 := fun x => and_mask x 4
  obtain ⟨h1, h2, h3⟩ := h
  rw [Nat.shiftRight_eq_div_pow, Nat.shiftRight_eq_div_pow, Nat.shiftRight_eq_div_pow,
    Nat.shiftRight_eq_div_pow, Nat.shiftRight_eq_div_pow, m, m, m]
  refine ⟨?_, ?_, ?_⟩ <;> omega

theorem bucket_samples_node : (accumulate bucket_samples).1[0xCCC]? = some bucket_node := by
  rw [accumulate_fst, List.getElem?_map, List.getElem?_range (by norm_num)]
  decide

/-! ## Ranges of sums, counts and palette channels -/

theorem weight_le (p : Nat) (ch : Chan) : weight p ch ≤ chan_max ch := by
  cases ch
  · have := red_eq p
    simp only [weight, chan_max]; omega
  · have := green_eq p
    simp only [weight, chan_max]; omega
  · have := blue_eq p
    simp only [weight, chan_max]; omega
  · simp only [weight, chan_max]; omega

/-- A total over selected samples lies between 0 and the channel maximum times
the number of selected samples, which is at most the number of samples. -/
theorem total_range (ch : Chan) (S : Nat → Bool) (P : List Nat) :
    0 ≤ total ch S P ∧ total ch S P ≤ chan_max ch * total Chan.n S P ∧
      total Chan.n S P ≤ (P.length : Int) := by
  have h := total_bounds ch S 0 (chan_max ch) P
    (fun p _ _ => ⟨weight_nonneg p ch, weight_le p ch⟩)
  exact ⟨total_nonneg ch S P, h.2, total_n_le_length S P⟩

/-- The fields of a node that holds totals over selected samples of a stream of
at most 1024 x 1024 samples are non-negative and below `2^26`. -/
theorem totals_fields_range (P : List Nat) (S : Nat → Bool) (nd : Node)
    (hlen : P.length ≤ 1024 * 1024) (hget : ∀ ch, nd.get ch = total ch S P) :
    (0 ≤ nd.count_ ∧ nd.count_ ≤ 1024 * 1024) ∧ (0 ≤ nd.rSum_ ∧ nd.rSum_ ≤ 31 * (1024 * 1024)) ∧
    (0 ≤ nd.gSum_ ∧ nd.gSum_ ≤ 63 * (1024 * 1024)) ∧ (0 ≤ nd.bSum_ ∧ nd.bSum_ ≤ 31 * (1024 * 1024)) := by
  have hn : nd.count_ = total Chan.n S P := hget Chan.n
  have hr : nd.rSum_ = total Chan.r S P := hget Chan.r
  have hg : nd.gSum_ = total Chan.g S P := hget Chan.g
  have hb : nd.bSum_ = total Chan.b S P := hget Chan.b
  have rn := total_range Chan.n S P
  have rr := total_range Chan.r S P
  have rg := total_range Chan.g S P
  have rb := total_range Chan.b S P
  simp only [chan_max] at rn rr rg rb
  have hl : (P.length : Int) ≤ 1024 * 1024 := by exact_mod_cast hlen
  rw [hn, hr, hg, hb]
  refine ⟨⟨?_, ?_⟩, ⟨?_, ?_⟩, ⟨?_, ?_⟩, ⟨?_, ?_⟩⟩ <;> omega

/-- The three quotients `sum / count` of a node that holds totals over selected
samples and has a non-zero count: the count is positive, each quotient is
stored in a byte without loss and lies in the range of its channel. -/
theorem totals_channel_range (P : List Nat) (S : Nat → Bool) (nd : Node)
    (hget : ∀ ch, nd.get ch = total ch S P) (hcount : nd.count_ ≠ 0) :
    0 < nd.count_ ∧
    ((((nd.rSum_.tdiv nd.count_) % 256).toNat : Nat) : Int) = nd.rSum_.tdiv nd.count_ ∧
    ((((nd.gSum_.tdiv nd.count_) % 256).toNat : Nat) : Int) = nd.gSum_.tdiv nd.count_ ∧
    ((((nd.bSum_.tdiv nd.count_) % 256).toNat : Nat) : Int) = nd.bSum_.tdiv nd.count_ ∧
    ((nd.rSum_.tdiv nd.count_) % 256).toNat ≤ 31 ∧
    ((nd.gSum_.tdiv nd.count_) % 256).toNat ≤ 63 ∧
    ((nd.bSum_.tdiv nd.count_) % 256).toNat ≤ 31 := by
  have hn : nd.count_ = total Chan.n S P := hget Chan.n
  have hr : nd.rSum_ = total Chan.r S P := hget Chan.r
  have hg : nd.gSum_ = total Chan.g S P := hget Chan.g
  have hb : nd.bSum_ = total Chan.b S P := hget Chan.b
  have rn := total_range Chan.n S P
  have rr := total_range Chan.r S P
  have rg := total_range Chan.g S P
  have rb := total_range Chan.b S P
  simp only [chan_max] at rr rg rb
  rw [← hn] at rn rr rg rb
  rw [← hr] at rr
  rw [← hg] at rg
  rw [← hb] at rb
  have hpos : 0 < nd.count_ := by omega
  have s1 := stored_mean nd.rSum_ nd.count_ 0 31 hpos (le_refl _) (by norm_num) (by omega) rr.2.1
  have s2 := stored_mean nd.gSum_ nd.count_ 0 63 hpos (le_refl _) (by norm_num) (by omega) rg.2.1
  have s3 := stored_mean nd.bSum_ nd.count_ 0 31 hpos (le_refl _) (by norm_num) (by omega) rb.2.1
  have x1 := mean_exact nd.rSum_ nd.count_ rr.1 hpos
  have x2 := mean_exact nd.gSum_ nd.count_ rg.1 hpos
  have x3 := mean_exact nd.bSum_ nd.count_ rb.1 hpos
  rw [s1.1, s2.1, s3.1]
  refine ⟨hpos, x1.1, x2.1, x3.1, ?_, ?_, ?_⟩
  · exact_mod_cast s1.2.2
  · exact_mod_cast s2.2.2
  · exact_mod_cast s3.2.2

/-- The value `palette_byte` stores, when it stores one. -/
theorem palette_byte_value (octree2 octree4 : List Node) (i b : Nat)
    (h : palette_byte octree2 octree4 i = some b) :
    ∃ nd, (if i < 3 * 64 then octree2[i / 3]? else octree4[i / 3 - 64]?) = some nd ∧
      nd.count_ ≠ 0 ∧
      b = (((if i % 3 = 0 then nd.rSum_ else if i % 3 = 1 then nd.gSum_ else nd.bSum_).tdiv
        nd.count_) % 256).toNat := by
  unfold palette_byte at h
  cases hl : (if i < 3 * 64 then octree2[i / 3]? else octree4[i / 3 - 64]?) with
  | none => rw [hl] at h; simp at h
  | some nd =>
    rw [hl] at h
    simp only [] at h
    by_cases hc : nd.count_ = 0
    · rw [if_pos hc] at h; simp at h
    · rw [if_neg hc] at h
      exact ⟨nd, rfl, hc, (Option.some.inj h).symm⟩

/-- Each level 2 node after the subtraction holds the totals over the samples
of its region whose level 4 bucket is not among the 128 subtracted ones. -/
theorem subtract_remaining (P : List Nat) (sorted : List Node)
    (hperm : sorted.Perm (accumulate P).1) :
    ∃ (post2 : List Node) (sel : List Nat), subtract_loop sorted 128 0 (accumulate P).2 = some post2 ∧ post2.length = 64 ∧
      ∀ c, c < 64 → ∃ nd, post2[c]? = some nd ∧
        ∀ ch, nd.get ch =
          total ch (fun p => decide (index2 p = c) && !decide (index4 p ∈ sel)) P := by
  obtain ⟨post2, hs, hlen, hspec⟩ := subtract_spec P sorted hperm
  obtain ⟨sel, hnd, _, _, hsel⟩ := selected_keys P sorted hperm
  refine ⟨post2, sel, hs, hlen, ?_⟩
  intro c hc
  obtain ⟨nd, g1, _, g3⟩ := hspec c hc
  refine ⟨nd, g1, ?_⟩
  intro ch
  rw [g3 ch, selected_sum_eq P sorted sel hnd hsel c ch, remaining_eq]

/-! ## Positions in a table sorted by count -/

/-- In a list sorted by non-increasing `cnt`, the entries with a value larger
than that of `k` all stand before `k`. -/
theorem filter_larger_le (cnt : Nat → Int) (L R : List Nat) (k : Nat)
    (hpw : (L ++ k :: R).Pairwise (fun a b => cnt b ≤ cnt a)) :
    ((L ++ k :: R).filter (fun j => decide (cnt k < cnt j))).length ≤ L.length := by
  rw [List.pairwise_append] at hpw
  obtain ⟨_, hkR, _⟩ := hpw
  rw [List.pairwise_cons] at hkR
  have hR : (k :: R).filter (fun j => decide (cnt k < cnt j)) = [] := by
    rw [List.filter_eq_nil_iff]
    intro j hj
    rcases List.mem_cons.mp hj with e | e
    · rw [e]; simp
    · have := hkR.1 j e
      simp only [decide_eq_true_eq]
      omega
  rw [List.filter_append, hR, List.append_nil]
  exact List.length_filter_le _ _

/-- When no other entry has the value of `k`, they are exactly the entries before `k`. -/
theorem filter_larger_eq (cnt : Nat → Int) (L R : List Nat) (k : Nat)
    (hpw : (L ++ k :: R).Pairwise (fun a b => cnt b ≤ cnt a))
    (hnd : (L ++ k :: R).Nodup)
    (huniq : ∀ j ∈ L ++ k :: R, j ≠ k → cnt j ≠ cnt k) :
    ((L ++ k :: R).filter (fun j => decide (cnt k < cnt j))).length = L.length := by
  have hpw2 := hpw
  rw [List.pairwise_append] at hpw2
  obtain ⟨_, hkR, hLk⟩ := hpw2
  rw [List.pairwise_cons] at hkR
  have hR : (k :: R).filter (fun j => decide (cnt k < cnt j)) = [] := by
    rw [List.filter_eq_nil_iff]
    intro j hj
    rcases List.mem_cons.mp hj with e | e
    · rw [e]; simp
    · have := hkR.1 j e
      simp only [decide_eq_true_eq]
      omega
  have hL : L.filter (fun j => decide (cnt k < cnt j)) = L := by
    rw [List.filter_eq_self]
    intro j hj
    have h1 := hLk j hj k (List.mem_cons_self _ _)
    have hne : j ≠ k := by
      intro e
      rw [e] at hj
      have := (List.nodup_append.mp hnd).2.2
      exact this hj (List.mem_cons_self _ _)
    have h2 := huniq j (List.mem_append_left _ hj) hne
    simp only [decide_eq_true_eq]
    omega
  rw [List.filter_append, hR, List.append_nil, hL]

/-- Two arrangements of the keys `0 .. n-1` in non-increasing order of `cnt`
agree on their first `m` positions when every key that shares its value with
another key has at least `m` keys with a larger value. -/
theorem sorted_take_unique (cnt : Nat → Int) (n m : Nat) (idx1 idx2 : List Nat)
    (hp1 : idx1.Perm (List.range n)) (hp2 : idx2.Perm (List.range n))
    (hs1 : idx1.Pairwise (fun a b => cnt b ≤ cnt a))
    (hs2 : idx2.Pairwise (fun a b => cnt b ≤ cnt a))
    (hd : ∀ i j, i < n → j < n → i ≠ j → cnt i = cnt j →
      m ≤ ((List.range n).filter (fun l => decide (cnt i < cnt l))).length) :
    idx1.take m = idx2.take m := by
  have hlen1 : idx1.length = n := by rw [hp1.length_eq, List.length_range]
  have hlen2 : idx2.length = n := by rw [hp2.length_eq, List.length_range]
  have hnd1 : idx1.Nodup := hp1.nodup_iff.mpr (List.nodup_range n)
  have hnd2 : idx2.Nodup := hp2.nodup_iff.mpr (List.nodup_range n)
  apply List.ext_getElem?
  intro p
  rw [List.getElem?_take, List.getElem?_take]
  by_cases hpm : p < m
  · rw [if_pos hpm, if_pos hpm]
    by_cases hpn : p < n
    · have hk1 : p < idx1.length := by omega
      have hdec1 : idx1 = idx1.take p ++ idx1[p] :: idx1.drop (p + 1) := by
        rw [← List.drop_eq_getElem_cons hk1, List.take_append_drop]
      have hLlen : (idx1.take p).length = p := by rw [List.length_take]; omega
      have hkn : idx1[p] < n := List.mem_range.mp (hp1.subset (List.getElem_mem _))
      -- the number of larger keys is at most p
      have hle := filter_larger_le cnt (idx1.take p) (idx1.drop (p + 1)) idx1[p] (by
        rw [← hdec1]; exact hs1)
      rw [← hdec1, hLlen] at hle
      have hcount1 : (idx1.filter (fun j => decide (cnt idx1[p] < cnt j))).length =
          ((List.range n).filter (fun j => decide (cnt idx1[p] < cnt j))).length :=
        (hp1.filter _).length_eq
      have huniq : ∀ j, j < n → j ≠ idx1[p] → cnt j ≠ cnt idx1[p] := by
        intro j hj hne he
        have := hd idx1[p] j hkn hj (fun e => hne e.symm) he.symm
        omega
      have heq1 := filter_larger_eq cnt (idx1.take p) (idx1.drop (p + 1)) idx1[p] (by
        rw [← hdec1]; exact hs1) (by rw [← hdec1]; exact hnd1) (by
        rw [← hdec1]
        intro j hj hne
        exact huniq j (List.mem_range.mp (hp1.subset hj)) hne)
      rw [← hdec1, hLlen] at heq1
      -- the same key in the second arrangement
      have hmem2 : idx1[p] ∈ idx2 := hp2.symm.subset (List.mem_range.mpr hkn)
      obtain ⟨L2, R2, hdec2⟩ := List.append_of_mem hmem2
      have heq2 := filter_larger_eq cnt L2 R2 idx1[p] (by rw [← hdec2]; exact hs2)
        (by rw [← hdec2]; exact hnd2) (by
        rw [← hdec2]
        intro j hj hne
        exact huniq j (List.mem_range.mp (hp2.subset hj)) hne)
      rw [← hdec2] at heq2
      have hcount2 : (idx2.filter (fun j => decide (cnt idx1[p] < cnt j))).length =
          ((List.range n).filter (fun j => decide (cnt idx1[p] < cnt j))).length :=
        (hp2.filter _).length_eq
      have hL2 : L2.length = p := by omega
      rw [List.getElem?_eq_getElem hk1]
      rw [hdec2, List.getElem?_append_right (by omega), hL2, Nat.sub_self]
      exact List.getElem?_cons_zero.symm
    · rw [List.getElem?_eq_none_iff.mpr (by omega), List.getElem?_eq_none_iff.mpr (by omega)]
  · rw [if_neg hpm, if_neg hpm]

/-! ## The palette depends on the first 128 sorted nodes only -/

theorem subtract_loop_take (octree4 : List Node) :
    ∀ (n i : Nat) (octree2 : List Node), i + n ≤ 128 →
      subtract_loop (octree4.take 128) n i octree2 = subtract_loop octree4 n i octree2 := by
  intro n
  induction n with
  | zero => intro i octree2 _; rfl
  | succ n ih =>
    intro i octree2 h
    unfold subtract_loop
    rw [List.getElem?_take_of_lt (by omega)]
    cases octree4[i]? with
    | none => rfl
    | some nd =>
      simp only []
      split
      · exact ih (i + 1) _ (by omega)
      · rfl

theorem palette_byte_take (octree2 octree4 : List Node) (i : Nat) (hi : i < 3 * 192) :
    palette_byte octree2 (octree4.take 128) i = palette_byte octree2 octree4 i := by
  unfold palette_byte
  by_cases h : i < 3 * 64
  · rw [if_pos h, if_pos h]
  · rw [if_neg h, if_neg h, List.getElem?_take_of_lt (by omega)]

theorem fill_palette_take (octree2 octree4 : List Node) :
    ∀ (n i : Nat), i + n ≤ 3 * 192 →
      fill_palette octree2 (octree4.take 128) n i = fill_palette octree2 octree4 n i := by
  intro n
  induction n with
  | zero => intro i _; rfl
  | succ n ih =>
    intro i h
    unfold fill_palette
    rw [palette_byte_take octree2 octree4 i (by omega), ih (i + 1) (by omega)]

/-- The palette construction reads only the first 128 nodes of the sorted table. -/
theorem build_palette_take (qsort1 qsort2 : List Node → List Node) (P : List Nat)
    (h : (qsort1 (accumulate P).1).take 128 = (qsort2 (accumulate P).1).take 128) :
    build_palette qsort1 P = build_palette qsort2 P := by
  unfold build_palette
  simp only []
  rw [← subtract_loop_take (qsort1 (accumulate P).1) 128 0 _ (by omega),
    ← subtract_loop_take (qsort2 (accumulate P).1) 128 0 _ (by omega), h]
  cases subtract_loop ((qsort2 (accumulate P).1).take 128) 128 0 (accumulate P).2 with
  | none => rfl
  | some octree2 =>
    simp only []
    rw [← fill_palette_take octree2 (qsort1 (accumulate P).1) (3 * 192) 0 (by omega),
      ← fill_palette_take octree2 (qsort2 (accumulate P).1) (3 * 192) 0 (by omega), h]

theorem bucket_count_eq (P : List Nat) (k : Nat) (hk : k < 4096) :
    bucket_count P k = (fine_node P k).count_ := by
  unfold bucket_count
  rw [accumulate_fst_getD P k hk]

/-- When every level 4 bucket that shares its count with another bucket has at
least 128 buckets with a larger count, all sorts that meet the contract of
`qsort` with `cmpfunc` leave the same first 128 nodes. -/
theorem sorted_first_128_unique (P : List Nat) (s1 s2 : List Node)
    (hlen : P.length ≤ 1024 * 1024)
    (h1 : qsort_post cmpfunc (accumulate P).1 s1) (h2 : qsort_post cmpfunc (accumulate P).1 s2)
    (hd : ∀ i j, i < 4096 → j < 4096 → i ≠ j → bucket_count P i = bucket_count P j →
      128 ≤ larger_count P i) :
    s1.take 128 = s2.take 128 := by
  obtain ⟨idx1, hp1, hm1⟩ := sorted_keys P s1 h1.1
  obtain ⟨idx2, hp2, hm2⟩ := sorted_keys P s2 h2.1
  have hs1 := sorted_counts P s1 hlen h1
  have hs2 := sorted_counts P s2 hlen h2
  rw [hm1, List.pairwise_map] at hs1
  rw [hm2, List.pairwise_map] at hs2
  have key := sorted_take_unique (fun k => (fine_node P k).count_) (8*8*8*8) 128 idx1 idx2
    hp1 hp2 hs1 hs2 (by
      intro i j hi hj hij he
      have hi2 : i < 4096 := hi
      have hj2 : j < 4096 := hj
      have := hd i j hi2 hj2 hij (by rw [bucket_count_eq P i hi2, bucket_count_eq P j hj2]; exact he)
      unfold larger_count at this
      have hc : (List.range (8*8*8*8)).filter
            (fun l => decide (bucket_count P i < bucket_count P l)) =
          (List.range (8*8*8*8)).filter
            (fun l => decide ((fine_node P i).count_ < (fine_node P l).count_)) := by
        apply List.filter_congr
        intro l hl
        have hl2 : l < 4096 := List.mem_range.mp hl
        rw [bucket_count_eq P i hi2, bucket_count_eq P l hl2]
      rw [hc] at this
      exact this)
  rw [hm1, hm2, ← List.map_take, ← List.map_take, key]

/-! ## A stream whose ties in count lie beyond the first 128 sorted nodes -/

theorem total_replicate (S : Nat → Bool) (c p : Nat) :
    total Chan.n S (List.replicate c p) = if S p then (c : Int) else 0 := by
  induction c with
  | zero => simp [total_nil]
  | succ c ih =>
    rw [List.replicate_succ, total_cons, ih]
    have hw : weight p Chan.n = 1 := rfl
    rw [hw]
    split
    · push_cast; omega
    · omega

theorem total_flatMap_replicate (S : Nat → Bool) (f c : Nat → Nat) : ∀ L : List Nat,
    total Chan.n S (L.flatMap (fun j => List.replicate (c j) (f j))) =
      ((L.filter (fun j => S (f j))).map (fun j => (c j : Int))).sum := by
  intro L
  induction L with
  | nil => simp [total_nil]
  | cons a L ih =>
    rw [List.flatMap_cons, total_append, ih, total_replicate, List.filter_cons]
    by_cases h : S (f a) = true
    · rw [if_pos h, if_pos h, List.map_cons, List.sum_cons]
    · rw [if_neg h, if_neg h]
      omega

theorem total_le_one_of_nodup (k : Nat) : ∀ L : List Nat, (L.map index4).Nodup →
    total Chan.n (fun p => decide (index4 p = k)) L ≤ 1 := by
  intro L
  induction L with
  | nil => intro _; simp [total_nil]
  | cons p L ih =>
    intro hnd
    rw [List.map_cons, List.nodup_cons] at hnd
    rw [total_cons]
    have hw : weight p Chan.n = 1 := rfl
    by_cases h : index4 p = k
    · have hz : total Chan.n (fun q => decide (index4 q = k)) L = 0 := by
        apply total_eq_zero
        intro q hq
        have : ¬ index4 q = k := by
          intro e
          apply hnd.1
          rw [h, ← e]
          exact List.mem_map_of_mem _ hq
        simp [this]
      rw [hz, hw]
      split <;> omega
    · have := ih hnd.2
      rw [if_neg (by simp [h])]
      omega

theorem ranked_keys_nodup : ranked_keys.Nodup := by decide!

theorem ranked_keys_length : ranked_keys.length = 128 := by
  unfold ranked_keys
  rw [List.length_map, List.length_range]

theorem ranked_lone_nodup : ((List.range 64).map sample_lone |>.map index4).Nodup := by decide!

theorem ranked_lone_not_key : ∀ c, c < 64 → index4 (sample_lone c) ∉ ranked_keys := by decide!

theorem ranked_first_part : ∀ j0, j0 < 128 →
    (((List.range 128).filter (fun j => decide (index4 (ranked_pixel j) = index4 (ranked_pixel j0)))).map
      (fun j => ((j + 2 : Nat) : Int))).sum = ((j0 + 2 : Nat) : Int) := by decide!

theorem ranked_count (k : Nat) :
    (fine_node ranked_image k).count_ =
      (((List.range 128).filter (fun j => decide (index4 (ranked_pixel j) = k))).map
        (fun j => ((j + 2 : Nat) : Int))).sum +
      total Chan.n (fun p => decide (index4 p = k)) ((List.range 64).map sample_lone) := by
  have h : (fine_node ranked_image k).count_ =
      total Chan.n (fun p => decide (index4 p = k)) ranked_image := rfl
  rw [h]
  unfold ranked_image
  rw [total_append, total_flatMap_replicate]

theorem ranked_count_key (j0 : Nat) (h : j0 < 128) :
    (fine_node ranked_image (index4 (ranked_pixel j0))).count_ = ((j0 + 2 : Nat) : Int) := by
  rw [ranked_count, ranked_first_part j0 h]
  have hz : total Chan.n (fun p => decide (index4 p = index4 (ranked_pixel j0)))
      ((List.range 64).map sample_lone) = 0 := by
    apply total_eq_zero
    intro p hp
    obtain ⟨c, hc, rfl⟩ := List.mem_map.mp hp
    have hn := ranked_lone_not_key c (List.mem_range.mp hc)
    have : ¬ index4 (sample_lone c) = index4 (ranked_pixel j0) := by
      intro e
      apply hn
      rw [e]
      exact List.mem_map.mpr ⟨j0, List.mem_range.mpr h, rfl⟩
    simp [this]
  rw [hz]
  omega

theorem ranked_count_other (k : Nat) (h : k ∉ ranked_keys) :
    0 ≤ (fine_node ranked_image k).count_ ∧ (fine_node ranked_image k).count_ ≤ 1 := by
  refine ⟨(fine_count_range ranked_image k).1, ?_⟩
  rw [ranked_count]
  have hf : (List.range 128).filter (fun j => decide (index4 (ranked_pixel j) = k)) = [] := by
    rw [List.filter_eq_nil_iff]
    intro j hj
    have : ¬ index4 (ranked_pixel j) = k := by
      intro e
      apply h
      exact List.mem_map.mpr ⟨j, hj, e⟩
    simp [this]
  rw [hf]
  have := total_le_one_of_nodup k _ ranked_lone_nodup
  simp only [List.map_nil, List.sum_nil]
  omega

theorem ranked_image_length : ranked_image.length ≤ 1024 * 1024 := by
  have h : (ranked_image.length : Int) = total Chan.n (fun _ => true) ranked_image := by
    rw [total_n_eq_countP]
    simp
  have h2 : total Chan.n (fun _ => true) ranked_image =
      (((List.range 128).filter (fun _ => true)).map (fun j => ((j + 2 : Nat) : Int))).sum +
      total Chan.n (fun _ => true) ((List.range 64).map sample_lone) := by
    unfold ranked_image
    rw [total_append, total_flatMap_replicate (fun _ => true) ranked_pixel (fun j => j + 2)]
  have h3 : (((List.range 128).filter (fun _ => true)).map (fun j => ((j + 2 : Nat) : Int))).sum
      = 8384 := by decide!
  have h4 := total_n_le_length (fun _ => true) ((List.range 64).map sample_lone)
  rw [List.length_map, List.length_range] at h4
  have : (ranked_image.length : Int) ≤ 1024 * 1024 := by omega
  exact_mod_cast this

theorem ranked_keys_lt (k : Nat) (h : k ∈ ranked_keys) : k < 4096 := by
  obtain ⟨j, _, rfl⟩ := List.mem_map.mp h
  exact index4_lt _

theorem ranked_keys_counts :
    ∀ k ∈ ranked_keys, k < 4096 ∧ (2 : Int) ≤ (fine_node ranked_image k).count_ := by
  intro k hk
  refine ⟨ranked_keys_lt k hk, ?_⟩
  obtain ⟨j, hj, rfl⟩ := List.mem_map.mp hk
  rw [ranked_count_key j (List.mem_range.mp hj)]
  push_cast
  omega

theorem ranked_lone_spec : ∀ c, c < 64 → sample_lone c ∈ ranked_image ∧
    index2 (sample_lone c) = c ∧ (fine_node ranked_image (index4 (sample_lone c))).count_ < 2 := by
  intro c hc
  refine ⟨?_, (sample_lone_spec c hc).2.1, ?_⟩
  · unfold ranked_image
    exact List.mem_append_right _ (List.mem_map.mpr ⟨c, List.mem_range.mpr hc, rfl⟩)
  · have := (ranked_count_other _ (ranked_lone_not_key c hc)).2
    omega

/-- The palette construction completes on `ranked_image`, for every outcome of `qsort`. -/
theorem ranked_image_completes (qsort : List Node → List Node)
    (hq : qsort_post cmpfunc (accumulate ranked_image).1 (qsort (accumulate ranked_image).1)) :
    ∃ pal, build_palette qsort ranked_image = some pal :=
  build_palette_completes qsort ranked_image ranked_image_length hq ranked_keys 2 (by omega)
    ranked_keys_nodup (by rw [ranked_keys_length]) ranked_keys_counts sample_lone ranked_lone_spec

/-- In `ranked_image` every bucket that shares its count with another bucket
has at least 128 buckets with a larger count. -/
theorem ranked_image_ties : ∀ i j, i < 4096 → j < 4096 → i ≠ j →
    bucket_count ranked_image i = bucket_count ranked_image j →
    128 ≤ larger_count ranked_image i := by
  intro i j hi hj hij he
  rw [bucket_count_eq _ i hi, bucket_count_eq _ j hj] at he
  have hsmall : (fine_node ranked_image i).count_ ≤ 1 := by
    by_cases hki : i ∈ ranked_keys
    · exfalso
      obtain ⟨a, ha, rfl⟩ := List.mem_map.mp hki
      rw [ranked_count_key a (List.mem_range.mp ha)] at he
      by_cases hkj : j ∈ ranked_keys
      · obtain ⟨b, hb, rfl⟩ := List.mem_map.mp hkj
        rw [ranked_count_key b (List.mem_range.mp hb)] at he
        have : a = b := by
          have h2 : ((a + 2 : Nat) : Int) = ((b + 2 : Nat) : Int) := he
          omega
        exact hij (by rw [this])
      · have := (ranked_count_other j hkj).2
        push_cast at he
        omega
    · exact (ranked_count_other i hki).2
  unfold larger_count
  have hsub : ranked_keys ⊆ (List.range (8*8*8*8)).filter
      (fun l => decide (bucket_count ranked_image i < bucket_count ranked_image l)) := by
    intro k hk
    rw [List.mem_filter]
    have hk4 := ranked_keys_lt k hk
    refine ⟨List.mem_range.mpr hk4, ?_⟩
    rw [bucket_count_eq _ i hi, bucket_count_eq _ k hk4]
    have := (ranked_keys_counts k hk).2
    simp only [decide_eq_true_eq]
    omega
  have := (List.subperm_of_subset ranked_keys_nodup hsub).length_le
  rw [ranked_keys_length] at this
  exact this

theorem ranked_lone_count (c : Nat) (hc : c < 64) :
    (fine_node ranked_image (index4 (sample_lone c))).count_ = 1 := by
  have h1 := (ranked_count_other _ (ranked_lone_not_key c hc)).2
  have h2 := total_pos_of_mem (fun p => decide (index4 p = index4 (sample_lone c))) ranked_image
    (sample_lone c) (ranked_lone_spec c hc).1 (by simp)
  have h3 : (fine_node ranked_image (index4 (sample_lone c))).count_ =
      total Chan.n (fun p => decide (index4 p = index4 (sample_lone c))) ranked_image := rfl
  omega

/-- Two distinct buckets of `ranked_image` hold one sample each: a tie in count. -/
theorem ranked_image_has_tie :
    index4 (sample_lone 0) ≠ index4 (sample_lone 1) ∧
    bucket_count ranked_image (index4 (sample_lone 0)) = 1 ∧
    bucket_count ranked_image (index4 (sample_lone 1)) = 1 := by
  have one : ∀ c, c < 64 → bucket_count ranked_image (index4 (sample_lone c)) = 1 := by
    intro c hc
    rw [bucket_count_eq _ _ (index4_lt _)]
    exact ranked_lone_count c hc
  exact ⟨by decide, one 0 (by omega), one 1 (by omega)⟩



/-! ## Two sorts that order the ties of `ranked_image` differently -/

theorem sort_desc_red_sorted (table : List Node) :
    (sort_desc_red table).Pairwise
      (fun a b => b.count_ < a.count_ ∨ (b.count_ = a.count_ ∧ a.rSum_ ≤ b.rSum_)) := by
  have hs : (sort_desc_red table).Pairwise
      (fun a b => decide (b.count_ < a.count_ ∨ (b.count_ = a.count_ ∧ a.rSum_ ≤ b.rSum_)) = true) :=
    List.sorted_mergeSort
      (fun a b c hab hbc => by
        simp only [decide_eq_true_eq] at hab hbc ⊢
        omega)
      (fun a b => by
        simp only [Bool.or_eq_true, decide_eq_true_eq]
        omega) _
  exact hs.imp (fun h => by simpa using h)

theorem sort_desc_rev_sorted (table : List Node) :
    (sort_desc_rev table).Pairwise
      (fun a b => b.count_ < a.count_ ∨ (b.count_ = a.count_ ∧ b.rSum_ ≤ a.rSum_)) := by
  have hs : (sort_desc_rev table).Pairwise
      (fun a b => decide (b.count_ < a.count_ ∨ (b.count_ = a.count_ ∧ b.rSum_ ≤ a.rSum_)) = true) :=
    List.sorted_mergeSort
      (fun a b c hab hbc => by
        simp only [decide_eq_true_eq] at hab hbc ⊢
        omega)
      (fun a b => by
        simp only [Bool.or_eq_true, decide_eq_true_eq]
        omega) _
  exact hs.imp (fun h => by simpa using h)

theorem sort_desc_rev_post (P : List Nat) (hlen : P.length ≤ 1024 * 1024) :
    qsort_post cmpfunc (accumulate P).1 (sort_desc_rev (accumulate P).1) := by
  have hperm : (sort_desc_rev (accumulate P).1).Perm (accumulate P).1 := List.mergeSort_perm _ _
  refine ⟨hperm, ?_⟩
  apply List.Pairwise.imp_of_mem _ (sort_desc_rev_sorted _)
  intro a b ha hb hab
  have ra := accumulate_count_range P a (hperm.subset ha)
  have rb := accumulate_count_range P b (hperm.subset hb)
  have hl : (P.length : Int) ≤ 1024 * 1024 := by exact_mod_cast hlen
  exact (cmpfunc_le_iff a b ra.1 (by omega) rb.1 (by omega)).mpr (by omega)

theorem fine_node_mem (P : List Nat) (k : Nat) (hk : k < 4096) :
    fine_node P k ∈ (accumulate P).1 := by
  have h : (accumulate P).1[k]? = some (fine_node P k) := by
    rw [accumulate_fst, List.getElem?_map, List.getElem?_range (by omega)]
    rfl
  exact List.getElem?_mem h

/-- The red sum of a bucket with a single sample is the red value of the
sample, which lies in the two values of the bucket. -/
theorem single_sample_rSum (P : List Nat) (k : Nat) (h : (fine_node P k).count_ = 1) :
    2 * ((k / 256 : Nat) : Int) ≤ (fine_node P k).rSum_ ∧
      (fine_node P k).rSum_ ≤ 2 * ((k / 256 : Nat) : Int) + 1 := by
  have hn : (fine_node P k).count_ = total Chan.n (fun p => decide (index4 p = k)) P := rfl
  have hr : (fine_node P k).rSum_ = total Chan.r (fun p => decide (index4 p = k)) P := rfl
  have br := total_bounds Chan.r (fun p => decide (index4 p = k)) (2 * (k / 256 : Nat))
    (2 * (k / 256 : Nat) + 1) P (by
    intro p _ hs
    simp only [decide_eq_true_eq] at hs
    have := channel_ranges4 p
    rw [hs] at this
    simp only [weight]
    omega)
  rw [← hn, ← hr, h] at br
  omega

/-- The two sorts leave different tables on `ranked_image`: among the buckets
with a single sample one places the smallest red sum first, the other the
largest. -/
theorem ranked_sorts_differ :
    sort_desc_red (accumulate ranked_image).1 ≠ sort_desc_rev (accumulate ranked_image).1 := by
  intro he
  have h1 := sort_desc_red_sorted (accumulate ranked_image).1
  have h2 := sort_desc_rev_sorted (accumulate ranked_image).1
  rw [← he] at h2
  have hS : (sort_desc_red (accumulate ranked_image).1).Pairwise
      (fun a b => a.count_ = b.count_ → a.rSum_ = b.rSum_) :=
    (h1.and h2).imp (fun h e => by omega)
  have hsym : Symmetric (fun a b : Node => a.count_ = b.count_ → a.rSum_ = b.rSum_) :=
    fun a b h e => (h e.symm).symm
  have hperm : (sort_desc_red (accumulate ranked_image).1).Perm (accumulate ranked_image).1 :=
    List.mergeSort_perm _ _
  have ka : index4 (sample_lone 0) < 4096 := index4_lt _
  have kb : index4 (sample_lone 63) < 4096 := index4_lt _
  have ma := hperm.symm.subset (fine_node_mem ranked_image _ ka)
  have mb := hperm.symm.subset (fine_node_mem ranked_image _ kb)
  have ca := ranked_lone_count 0 (by omega)
  have cb := ranked_lone_count 63 (by omega)
  have ra := single_sample_rSum ranked_image _ ca
  have rb := single_sample_rSum ranked_image _ cb
  have va : index4 (sample_lone 0) / 256 = 2 := by decide
  have vb : index4 (sample_lone 63) / 256 = 14 := by decide
  rw [va] at ra
  rw [vb] at rb
  have hne : fine_node ranked_image (index4 (sample_lone 0)) ≠
      fine_node ranked_image (index4 (sample_lone 63)) := by
    intro e
    rw [e] at ra
    omega
  have := hS.forall hsym ma mb hne (by rw [ca, cb])
  omega

/-- On `ranked_image` the two sorts complete with the same palette. -/
theorem ranked_image_palettes_agree :
    ∃ pal, build_palette sort_desc_red ranked_image = some pal ∧
      build_palette sort_desc_rev ranked_image = some pal := by
  have h1 := sort_desc_red_post ranked_image ranked_image_length
  have h2 := sort_desc_rev_post ranked_image ranked_image_length
  obtain ⟨pal, hb⟩ := ranked_image_completes sort_desc_red h1
  refine ⟨pal, hb, ?_⟩
  rw [← build_palette_take sort_desc_red sort_desc_rev ranked_image
    (sorted_first_128_unique ranked_image _ _ ranked_image_length h1 h2 ranked_image_ties)]
  exact hb

/-! # Part III: the claims -/

/-- C1 (counterexample): on `far_room` (a 20 x 2 photo, one 3 x 2 object at map
column `2147483645`), anchor `(2147483640, 0)` and ten output positions, the sums
`x + SCROLL_X_DIM` and `obj_x + width` of the culling test overflow, the object is
skipped and `output[5]` is 0, while the naive composite at map coordinate
`(2147483645, 0)` is the object's pixel 7. -/
theorem C1_counterexample :
    room_wf far_room ∧ (0 : Int) ≤ 0 ∧ (0 : Int) < (far_room.photo.hdr.height : Int) ∧
    int_range 2147483640 ∧
    fill_horiz_buffer 10 64 far_room 2147483640 0 (List.replicate 10 0) =
      some [0, 0, 0, 0, 0, 0, 0, 0, 0, 0] ∧
    naive_horiz 64 far_room 2147483640 0 5 = 7 := by
  refine ⟨by unfold room_wf; decide, by decide, by decide, by decide, by decide, by decide⟩

/-- C1 (amended): for every prepared room whose pixel blocks have their declared
sizes, every anchor `(x, y)` with `0 <= y < photo height` and every output
position `i` in `[0, SCROLL_X_DIM)`, provided the sums `x + SCROLL_X_DIM`,
`obj_x + width` and `obj_y + height` of the culling test stay in the range of
`int`, `fill_horiz_buffer` completes and `output[i]` is the naive per-pixel
composite: the clipped background value at `(x+i, y)`, then, in object-list
order, each object covering `(x+i, y)` with a pixel different from
`OBJ_CLR_TRANSP` replaces the value. -/
theorem C1_fill_horiz_buffer_refines_naive (SCROLL_X_DIM OBJ_CLR_TRANSP : Nat) (room : room_t)
    (x y : Int) (buf : List Nat) (hbuf : buf.length = SCROLL_X_DIM) (hwf : room_wf room)
    (hy0 : 0 ≤ y) (hy1 : y < (room.photo.hdr.height : Int))
    (hr : horiz_in_range SCROLL_X_DIM x y room.contents) :
    ∃ out, fill_horiz_buffer SCROLL_X_DIM OBJ_CLR_TRANSP room x y buf = some out ∧
      out.length = SCROLL_X_DIM ∧
      ∀ i, i < SCROLL_X_DIM → out[i]? = some (naive_horiz OBJ_CLR_TRANSP room x y i) :=
  fill_horiz_buffer_refines SCROLL_X_DIM OBJ_CLR_TRANSP room x y buf hbuf hwf hy0 hy1 hr

/-- Witness of C1 on `demo_room`, anchor `(-5, 0)`, ten output positions. -/
theorem C1_witness :
    ∃ out, fill_horiz_buffer 10 64 demo_room (-5) 0 (List.replicate 10 0) = some out ∧
      out.length = 10 ∧ ∀ i, i < 10 → out[i]? = some (naive_horiz 64 demo_room (-5) 0 i) :=
  C1_fill_horiz_buffer_refines_naive 10 64 demo_room (-5) 0 (List.replicate 10 0)
    (by decide) (by unfold room_wf; decide) (by decide) (by decide) (by decide)

/-- C10: with no objects in the current room and row `y` inside the photo,
`fill_horiz_buffer` clips horizontally: `output[i]` is 0 when `x+i < 0` or
`x+i >= photo width`, and is `img[width*y + x + i]` otherwise. -/
theorem C10_fill_horiz_buffer_clips (SCROLL_X_DIM OBJ_CLR_TRANSP : Nat) (view : photo_t)
    (x y : Int) (buf : List Nat) (hbuf : buf.length = SCROLL_X_DIM)
    (hwf : view.img.length = view.hdr.width * view.hdr.height)
    (hy0 : 0 ≤ y) (hy1 : y < (view.hdr.height : Int)) :
    ∃ out, fill_horiz_buffer SCROLL_X_DIM OBJ_CLR_TRANSP ⟨view, []⟩ x y buf = some out ∧
      out.length = SCROLL_X_DIM ∧
      ∀ i, i < SCROLL_X_DIM → out[i]? = some
        (if x + (i : Int) < 0 ∨ x + (i : Int) ≥ (view.hdr.width : Int) then 0
         else view.img.getD ((view.hdr.width : Int) * y + x + (i : Int)).toNat 0) := by
  obtain ⟨out, h1, h2, h3⟩ := fill_horiz_buffer_refines_empty SCROLL_X_DIM OBJ_CLR_TRANSP
    view x y buf hbuf hwf hy0 hy1
  refine ⟨out, h1, h2, ?_⟩
  intro i hi
  rw [h3 i hi]
  simp only [naive_horiz, List.foldl_nil, naive_background]
  by_cases hc : 0 ≤ x + (i : Int) ∧ x + (i : Int) < (view.hdr.width : Int)
  · have hn : ¬ (x + (i : Int) < 0 ∨ x + (i : Int) ≥ (view.hdr.width : Int)) := by omega
    rw [if_pos hc, if_neg hn, add_assoc]
  · have hn : x + (i : Int) < 0 ∨ x + (i : Int) ≥ (view.hdr.width : Int) := by omega
    rw [if_neg hc, if_pos hn]

/-- Witness of C10: `x = -5`, `y = 0` on the 20-wide `demo_photo` with ten output
positions gives 0 at positions 0..4 and photo pixels 0..4 of row 0 at positions 5..9. -/
theorem C10_witness :
    (∃ out, fill_horiz_buffer 10 64 ⟨demo_photo, []⟩ (-5) 0 (List.replicate 10 0) = some out ∧
      out.length = 10 ∧
      ∀ i : Nat, i < 10 → out[i]? = some
        (if (-5 : Int) + (i : Int) < 0 ∨ (-5 : Int) + (i : Int) ≥ (demo_photo.hdr.width : Int) then 0
         else demo_photo.img.getD ((demo_photo.hdr.width : Int) * 0 + (-5) + (i : Int)).toNat 0)) ∧
    fill_horiz_buffer 10 64 ⟨demo_photo, []⟩ (-5) 0 (List.replicate 10 0) =
      some [0, 0, 0, 0, 0, 100, 101, 102, 103, 104] :=
  ⟨C10_fill_horiz_buffer_clips 10 64 demo_photo (-5) 0 (List.replicate 10 0)
    (by decide) (by decide) (by decide) (by decide), by decide⟩

/-- C2 (the code departs from the claim): on the palette built from `sample_image`
the sample `0xC618` belongs to the selected level 4 bucket that the sort puts
first, whose slot is 64, and its palette entry equals the sample on all three
channels; `determinePaletteValue` returns 127, the level 2 value, not that slot. -/
theorem C2_selected_sample_not_mapped_to_slot :
    ∃ pal, build_palette sort_desc sample_image = some pal ∧
      0xC618 ∈ sample_image ∧
      (∃ idx, rearranged_by (accumulate sample_image).1 (sort_desc (accumulate sample_image).1) idx) ∧
      (∀ idx, rearranged_by (accumulate sample_image).1 (sort_desc (accumulate sample_image).1) idx →
        idx[0]? = some (index4 0xC618)) ∧
      determinePaletteValue 0xC618 pal = some 127 ∧
      determinePaletteValue 0xC618 pal ≠ some (64 + 0) := by
  have hq := sort_desc_post sample_image sample_image_length
  obtain ⟨pal, r, hb, hd, _⟩ := sample_image_facts sort_desc hq
  refine ⟨pal, hb, sample_mem_max, rearranged_by_exists sample_image _ hq.1, ?_, hd, ?_⟩
  · intro idx hr
    have := sample_first _ idx hq hr
    rwa [region_base_63] at this
  · rw [hd]; decide

/-- C3 (the code departs from the claim): on the palette built from `sample_image`
the first entry examined has a red value different from that of the sample
`0xC618`, and `determinePaletteValue` returns the coarse fallback value at once,
although the later entry 64 matches the sample on all three channels. -/
theorem C3_fallback_before_matching_entry :
    ∃ pal r, build_palette sort_desc sample_image = some pal ∧
      pal[0]? = some r ∧ r ≠ red 0xC618 ∧
      determinePaletteValue 0xC618 pal = some ((coarse_key 0xC618 + 64) % 256) ∧
      pal[3 * 64]? = some (red 0xC618) ∧ pal[3 * 64 + 1]? = some (green 0xC618) ∧
      pal[3 * 64 + 2]? = some (blue 0xC618) := by
  have hq := sort_desc_post sample_image sample_image_length
  obtain ⟨pal, r, hb, hd, h0, hr, h1, h2, h3⟩ := sample_image_facts sort_desc hq
  refine ⟨pal, r, hb, h0, hr, ?_, h1, h2, h3⟩
  rw [hd]; decide

/-- C4: on a finished palette (the construction completed, with a sort that meets
the contract of `qsort`), for every sample whose level 4 index is none of the 128
selected keys, `determinePaletteValue` returns `64 + c` with `c` the 6-bit key
made of the top 2 bits of red, green and blue. -/
theorem C4_unselected_sample_gets_coarse_value (qsort : List Node → List Node) (P : List Nat)
    (pal : List Nat) (idx : List Nat) (pixel : Nat)
    (hq : qsort_post cmpfunc (accumulate P).1 (qsort (accumulate P).1))
    (hb : build_palette qsort P = some pal)
    (_hr : rearranged_by (accumulate P).1 (qsort (accumulate P).1) idx)
    (_hns : index4 pixel ∉ idx.take 128) :
    determinePaletteValue pixel pal = some (64 + coarse_of_channels pixel) := by
  rw [coarse_of_channels_eq]
  exact determinePaletteValue_finished qsort P pal hq.1 hb pixel

/-- Witness of C4: the palette of `sample_image` and the sample `0xFFFF`, whose
level 4 bucket is empty and so not selected. -/
theorem C4_witness :
    ∃ pal idx, build_palette sort_desc sample_image = some pal ∧
      rearranged_by (accumulate sample_image).1 (sort_desc (accumulate sample_image).1) idx ∧
      index4 0xFFFF ∉ idx.take 128 ∧
      determinePaletteValue 0xFFFF pal = some (64 + coarse_of_channels 0xFFFF) := by
  have hq := sort_desc_post sample_image sample_image_length
  obtain ⟨pal, hb⟩ := sample_image_completes sort_desc hq
  obtain ⟨idx, hr⟩ := rearranged_by_exists sample_image _ hq.1
  have hns : index4 0xFFFF ∉ idx.take 128 := by
    intro hmem
    have h2 := (sample_selected _ idx hq hr).1 _ hmem
    have h0 : (fine_node sample_image (index4 0xFFFF)).count_ = 0 := by decide!
    omega
  exact ⟨pal, idx, hb, hr, hns,
    C4_unselected_sample_gets_coarse_value sort_desc sample_image pal idx 0xFFFF hq hb hr hns⟩

/-- C5: after the sort with `cmpfunc` of the table accumulated from at most
1024 x 1024 samples, the sorted table is a permutation of the accumulated one,
counts are non-increasing along it, and each of the first 128 entries has a
count at least that of each of the remaining 3968. -/
theorem C5_sorted_top_128 (qsort : List Node → List Node) (P : List Nat)
    (hlen : P.length ≤ 1024 * 1024)
    (hq : qsort_post cmpfunc (accumulate P).1 (qsort (accumulate P).1)) :
    (qsort (accumulate P).1).Perm (accumulate P).1 ∧
    (qsort (accumulate P).1).length = 4096 ∧
    (∀ (i j : Nat) (a b : Node), i < j → (qsort (accumulate P).1)[i]? = some a →
      (qsort (accumulate P).1)[j]? = some b → b.count_ ≤ a.count_) ∧
    (∀ (i j : Nat) (a b : Node), i < 128 → 128 ≤ j → (qsort (accumulate P).1)[i]? = some a →
      (qsort (accumulate P).1)[j]? = some b → b.count_ ≤ a.count_) := by
  have hs := sorted_counts P _ hlen hq
  have hl : (qsort (accumulate P).1).length = 4096 := by
    rw [hq.1.length_eq, accumulate_fst_length]
  have key : ∀ (i j : Nat) (a b : Node), i < j → (qsort (accumulate P).1)[i]? = some a →
      (qsort (accumulate P).1)[j]? = some b → b.count_ ≤ a.count_ := by
    intro i j a b hij ha hb
    obtain ⟨hj, hbe⟩ := List.getElem?_eq_some_iff.mp hb
    obtain ⟨hi, hae⟩ := List.getElem?_eq_some_iff.mp ha
    have := pairwise_getElem_le _ hs i j hij hj
    rw [List.get_eq_getElem, List.get_eq_getElem, hbe, hae] at this
    exact this
  exact ⟨hq.1, hl, key, fun i j a b hi hj => key i j a b (by omega)⟩

/-- Witness of C5: `sample_image` sorted by `sort_desc`. -/
theorem C5_witness :
    (sort_desc (accumulate sample_image).1).Perm (accumulate sample_image).1 ∧
    (sort_desc (accumulate sample_image).1).length = 4096 ∧
    (∀ (i j : Nat) (a b : Node), i < j → (sort_desc (accumulate sample_image).1)[i]? = some a →
      (sort_desc (accumulate sample_image).1)[j]? = some b → b.count_ ≤ a.count_) ∧
    (∀ (i j : Nat) (a b : Node), i < 128 → 128 ≤ j →
      (sort_desc (accumulate sample_image).1)[i]? = some a →
      (sort_desc (accumulate sample_image).1)[j]? = some b → b.count_ ≤ a.count_) :=
  C5_sorted_top_128 sort_desc sample_image sample_image_length
    (sort_desc_post sample_image sample_image_length)

/-- C6: after the subtraction loop, level 2 bucket `c` holds its accumulated
count and channel sums minus those of the first 128 sorted level 4 nodes whose
parent is `c`; naming the sorted nodes by their keys, these are exactly the count
and the sums of the samples of region `c` whose level 4 bucket was not selected. -/
theorem C6_subtraction_leaves_unselected (qsort : List Node → List Node) (P : List Nat) (c : Nat)
    (hq : qsort_post cmpfunc (accumulate P).1 (qsort (accumulate P).1)) (hc : c < 64) :
    ∃ post2 nd, subtract_loop (qsort (accumulate P).1) 128 0 (accumulate P).2 = some post2 ∧
      post2[c]? = some nd ∧
      nd.count_ = (P.countP (fun p => index2 p = c) : Int) -
        ((((qsort (accumulate P).1).take 128).filter (fun x => x.parent_ = (c : Int))).map
          (fun x => x.count_)).sum ∧
      (∀ ch, nd.get ch = total ch (fun p => index2 p = c) P -
        ((((qsort (accumulate P).1).take 128).filter (fun x => x.parent_ = (c : Int))).map
          (fun x => x.get ch)).sum) ∧
      (∃ idx, rearranged_by (accumulate P).1 (qsort (accumulate P).1) idx) ∧
      ∀ idx, rearranged_by (accumulate P).1 (qsort (accumulate P).1) idx →
        nd.count_ = (P.countP (fun p => decide (index2 p = c) && !decide (index4 p ∈ idx.take 128)) : Int) ∧
        ∀ ch, nd.get ch =
          total ch (fun p => decide (index2 p = c) && !decide (index4 p ∈ idx.take 128)) P := by
  obtain ⟨post2, hs, _, hspec⟩ := subtract_spec P _ hq.1
  obtain ⟨nd, g1, _, g3⟩ := hspec c hc
  have hall : ∀ idx, rearranged_by (accumulate P).1 (qsort (accumulate P).1) idx →
      ∀ ch, nd.get ch =
        total ch (fun p => decide (index2 p = c) && !decide (index4 p ∈ idx.take 128)) P := by
    intro idx hr ch
    obtain ⟨hnd, _, _, hsel⟩ := rearranged_take P _ idx hr
    rw [g3 ch, selected_sum_eq P _ (idx.take 128) hnd hsel c ch, remaining_eq]
  refine ⟨post2, nd, hs, g1, ?_, g3, rearranged_by_exists P _ hq.1, ?_⟩
  · have := g3 Chan.n
    rw [total_n_eq_countP] at this
    exact this
  · intro idx hr
    refine ⟨?_, hall idx hr⟩
    have := hall idx hr Chan.n
    rw [total_n_eq_countP] at this
    exact this

/-- Witness of C6: `sample_image` sorted by `sort_desc`, level 2 bucket 0. -/
theorem C6_witness :
    ∃ post2 nd, subtract_loop (sort_desc (accumulate sample_image).1) 128 0
        (accumulate sample_image).2 = some post2 ∧
      post2[0]? = some nd ∧
      nd.count_ = (sample_image.countP (fun p => index2 p = 0) : Int) -
        ((((sort_desc (accumulate sample_image).1).take 128).filter
          (fun x => x.parent_ = ((0 : Nat) : Int))).map (fun x => x.count_)).sum ∧
      (∀ ch, nd.get ch = total ch (fun p => index2 p = 0) sample_image -
        ((((sort_desc (accumulate sample_image).1).take 128).filter
          (fun x => x.parent_ = ((0 : Nat) : Int))).map (fun x => x.get ch)).sum) ∧
      (∃ idx, rearranged_by (accumulate sample_image).1 (sort_desc (accumulate sample_image).1) idx) ∧
      ∀ idx, rearranged_by (accumulate sample_image).1 (sort_desc (accumulate sample_image).1) idx →
        nd.count_ = (sample_image.countP
          (fun p => decide (index2 p = 0) && !decide (index4 p ∈ idx.take 128)) : Int) ∧
        ∀ ch, nd.get ch =
          total ch (fun p => decide (index2 p = 0) && !decide (index4 p ∈ idx.take 128)) sample_image :=
  C6_subtraction_leaves_unselected sort_desc sample_image 0
    (sort_desc_post sample_image sample_image_length) (by decide)

/-- C7 (the code departs from the claim): on the 3 x 3 image of all-zero samples
the palette construction divides by a zero count and faults; no palette of 192
entries `(0,0,0)` is produced. -/
theorem C7_zero_image_divides_by_zero :
    build_palette sort_desc (List.replicate 9 0) = none :=
  build_palette_empty_region sort_desc (List.replicate 9 0)
    (sort_desc_post (List.replicate 9 0) (by decide)).1 1 (by decide)
    (fun p hp => by rw [List.eq_of_mem_replicate hp]; decide)

/-- C8: in a palette built by `read_photo` from at most 1024 x 1024 samples, slot
`k < 64` holds the per-channel integer mean `sum / count` of level 2 bucket `k`
after subtraction, and slot `64 + j`, `j < 128`, holds the per-channel integer
mean of the `j`-th level 4 node in descending-count order, which is the mean
rounded down of the full-precision channel values of the samples accumulated
into that level 4 bucket. -/
theorem C8_palette_slots_hold_means (qsort : List Node → List Node) (P : List Nat) (pal : List Nat)
    (hlen : P.length ≤ 1024 * 1024)
    (hq : qsort_post cmpfunc (accumulate P).1 (qsort (accumulate P).1))
    (hb : build_palette qsort P = some pal) :
    (∃ post2, subtract_loop (qsort (accumulate P).1) 128 0 (accumulate P).2 = some post2 ∧
      ∀ k, k < 64 → ∃ nd, post2[k]? = some nd ∧ nd.count_ ≠ 0 ∧
        pal[3 * k]? = some (mean nd.rSum_ nd.count_) ∧
        pal[3 * k + 1]? = some (mean nd.gSum_ nd.count_) ∧
        pal[3 * k + 2]? = some (mean nd.bSum_ nd.count_)) ∧
    (qsort (accumulate P).1).Pairwise (fun a b => b.count_ ≤ a.count_) ∧
    (∀ j, j < 128 → ∃ nd, (qsort (accumulate P).1)[j]? = some nd ∧ nd.count_ ≠ 0 ∧
        pal[3 * (64 + j)]? = some (mean nd.rSum_ nd.count_) ∧
        pal[3 * (64 + j) + 1]? = some (mean nd.gSum_ nd.count_) ∧
        pal[3 * (64 + j) + 2]? = some (mean nd.bSum_ nd.count_) ∧
        ∃ key, key < 4096 ∧
          nd.count_ = (P.countP (fun p => index4 p = key) : Int) ∧
          nd.rSum_ = (((P.filter (fun p => index4 p = key)).map (fun p => (red p : Int))).sum) ∧
          nd.gSum_ = (((P.filter (fun p => index4 p = key)).map (fun p => (green p : Int))).sum) ∧
          nd.bSum_ = (((P.filter (fun p => index4 p = key)).map (fun p => (blue p : Int))).sum)) := by
  refine ⟨?_, sorted_counts P _ hlen hq, ?_⟩
  · obtain ⟨post2, hs, _, hco⟩ := finished_coarse_entries qsort P pal hq.1 hb
    refine ⟨post2, hs, ?_⟩
    intro k hk
    obtain ⟨nd, g1, g2, e1, e2, e3, _⟩ := hco k hk
    exact ⟨nd, g1, g2, e1, e2, e3⟩
  · intro j hj
    obtain ⟨nd, g1, g2, e1, e2, e3, key, hkey, hnd, _⟩ :=
      finished_fine_entries qsort P pal hq.1 hb j hj
    refine ⟨nd, g1, g2, e1, e2, e3, key, hkey, ?_, ?_, ?_, ?_⟩
    · rw [hnd, ← total_n_eq_countP]; rfl
    · rw [hnd]; rfl
    · rw [hnd]; rfl
    · rw [hnd]; rfl

/-- Witness of C8: the palette of `sample_image` built with `sort_desc`. -/
theorem C8_witness :
    ∃ pal, build_palette sort_desc sample_image = some pal ∧
    (∃ post2, subtract_loop (sort_desc (accumulate sample_image).1) 128 0
        (accumulate sample_image).2 = some post2 ∧
      ∀ k, k < 64 → ∃ nd, post2[k]? = some nd ∧ nd.count_ ≠ 0 ∧
        pal[3 * k]? = some (mean nd.rSum_ nd.count_) ∧
        pal[3 * k + 1]? = some (mean nd.gSum_ nd.count_) ∧
        pal[3 * k + 2]? = some (mean nd.bSum_ nd.count_)) ∧
    (sort_desc (accumulate sample_image).1).Pairwise (fun a b => b.count_ ≤ a.count_) ∧
    (∀ j, j < 128 → ∃ nd, (sort_desc (accumulate sample_image).1)[j]? = some nd ∧ nd.count_ ≠ 0 ∧
        pal[3 * (64 + j)]? = some (mean nd.rSum_ nd.count_) ∧
        pal[3 * (64 + j) + 1]? = some (mean nd.gSum_ nd.count_) ∧
        pal[3 * (64 + j) + 2]? = some (mean nd.bSum_ nd.count_) ∧
        ∃ key, key < 4096 ∧
          nd.count_ = (sample_image.countP (fun p => index4 p = key) : Int) ∧
          nd.rSum_ = (((sample_image.filter (fun p => index4 p = key)).map
            (fun p => (red p : Int))).sum) ∧
          nd.gSum_ = (((sample_image.filter (fun p => index4 p = key)).map
            (fun p => (green p : Int))).sum) ∧
          nd.bSum_ = (((sample_image.filter (fun p => index4 p = key)).map
            (fun p => (blue p : Int))).sum)) := by
  have hq := sort_desc_post sample_image sample_image_length
  obtain ⟨pal, hb⟩ := sample_image_completes sort_desc hq
  exact ⟨pal, hb, C8_palette_slots_hold_means sort_desc sample_image pal sample_image_length hq hb⟩

/-- C9: in the accumulation pass every sample increments the count of exactly
one level 4 node, the one whose 12-bit key is made of the top 4 bits of red, green
and blue, and of exactly one level 2 node, the one whose 6-bit key is made of the
top 2 bits of each channel; after `n` samples the 4096 level 4 counts sum to `n`
and the 64 level 2 counts sum to `n`. -/
theorem C9_accumulation_counts_each_sample_once (P : List Nat) (pixel k : Nat) :
    (index4 pixel < 4096 ∧ index4 pixel = fine_of_channels pixel) ∧
    (index2 pixel < 64 ∧ index2 pixel = coarse_of_channels pixel) ∧
    ((accumulate (P ++ [pixel])).1.getD k init).count_ =
      ((accumulate P).1.getD k init).count_ + (if k = index4 pixel then 1 else 0) ∧
    ((accumulate (P ++ [pixel])).2.getD k init).count_ =
      ((accumulate P).2.getD k init).count_ + (if k = index2 pixel then 1 else 0) ∧
    (accumulate P).1.length = 4096 ∧ (accumulate P).2.length = 64 ∧
    ((accumulate P).1.map (fun nd => nd.count_)).sum = (P.length : Int) ∧
    ((accumulate P).2.map (fun nd => nd.count_)).sum = (P.length : Int) := by
  have h4 := index4_lt pixel
  have h2 := index2_lt pixel
  obtain ⟨_, _, s1, s2⟩ := count_sum_foldl P (List.replicate (8*8*8*8) init)
    (List.replicate (8*8) init) (List.length_replicate _ _) (List.length_replicate _ _)
  refine ⟨⟨h4, (fine_of_channels_eq pixel).symm⟩, ⟨h2, (coarse_of_channels_eq pixel).symm⟩,
    ?_, ?_, accumulate_fst_length P, accumulate_snd_length P, ?_, ?_⟩
  · rw [accumulate_fst_getD_all, accumulate_fst_getD_all]
    by_cases hk : k < 4096
    · rw [if_pos hk, if_pos hk, fine_node_snoc]
      by_cases he : k = index4 pixel
      · rw [if_pos he, if_pos he]; rfl
      · rw [if_neg he, if_neg he]; simp
    · have he : ¬ k = index4 pixel := by omega
      rw [if_neg hk, if_neg hk, if_neg he]; simp
  · rw [accumulate_snd_getD_all, accumulate_snd_getD_all]
    by_cases hk : k < 64
    · rw [if_pos hk, if_pos hk, coarse_node_snoc]
      by_cases he : k = index2 pixel
      · rw [if_pos he, if_pos he]; rfl
      · rw [if_neg he, if_neg he]; simp
    · have he : ¬ k = index2 pixel := by omega
      rw [if_neg hk, if_neg hk, if_neg he]; simp
  · have : accumulate P = P.foldl accumulate_pixel
        (List.replicate (8*8*8*8) init, List.replicate (8*8) init) := rfl
    rw [this, s1, replicate_count_sum]; simp
  · have : accumulate P = P.foldl accumulate_pixel
        (List.replicate (8*8*8*8) init, List.replicate (8*8) init) := rfl
    rw [this, s2, replicate_count_sum]; simp

/-- C11 (counterexample): on the 20 x 2 `demo_photo` with no objects, the row
`y = 2` below the photo and `x = 0`, `fill_horiz_buffer` does not produce ten
zeros: it reads `img[20*2 + 0]`, outside the 40-byte pixel block. -/
theorem C11_counterexample :
    fill_horiz_buffer 10 64 empty_room 0 2 (List.replicate 10 0) = none ∧
    fill_horiz_buffer 10 64 empty_room 0 2 (List.replicate 10 0) ≠ some (List.replicate 10 0) := by
  constructor <;> decide

/-- C11 (amended): with no objects and a row `y` outside `[0, height)`,
`fill_horiz_buffer` clips only horizontally. When no output position has `x+i`
in `[0, width)` it writes 0 to every output position; it never tests `y`, and
when some output position has `x+i` in `[0, width)` the read of
`img[width*y + x + i]` is outside the pixel block. -/
theorem C11_fill_horiz_buffer_clips_columns_only (SCROLL_X_DIM OBJ_CLR_TRANSP : Nat)
    (view : photo_t) (x y : Int) (buf : List Nat) (hbuf : buf.length = SCROLL_X_DIM)
    (hwf : view.img.length = view.hdr.width * view.hdr.height)
    (hy : y < 0 ∨ y ≥ (view.hdr.height : Int)) :
    ((∀ i : Nat, i < SCROLL_X_DIM → x + (i : Int) < 0 ∨ x + (i : Int) ≥ (view.hdr.width : Int)) →
      fill_horiz_buffer SCROLL_X_DIM OBJ_CLR_TRANSP ⟨view, []⟩ x y buf =
        some (List.replicate SCROLL_X_DIM 0)) ∧
    (∀ i : Nat, i < SCROLL_X_DIM → 0 ≤ x + (i : Int) → x + (i : Int) < (view.hdr.width : Int) →
      fill_horiz_buffer SCROLL_X_DIM OBJ_CLR_TRANSP ⟨view, []⟩ x y buf = none) :=
  ⟨fun hx => fill_horiz_buffer_no_column SCROLL_X_DIM OBJ_CLR_TRANSP view x y buf hbuf hx,
   fun i hi h0 h1 =>
    fill_horiz_buffer_row_outside SCROLL_X_DIM OBJ_CLR_TRANSP view x y buf hwf hy i hi h0 h1⟩

/-- Witness of C11 (amended): `demo_photo`, row `y = 2`, anchor `x = 20`, where
no output position lies inside the photo horizontally. -/
theorem C11_witness :
    (((∀ i : Nat, i < 10 → (20 : Int) + (i : Int) < 0 ∨ (20 : Int) + (i : Int) ≥ (demo_photo.hdr.width : Int)) →
      fill_horiz_buffer 10 64 ⟨demo_photo, []⟩ 20 2 (List.replicate 10 0) =
        some (List.replicate 10 0)) ∧
    (∀ i : Nat, i < 10 → 0 ≤ (20 : Int) + (i : Int) → (20 : Int) + (i : Int) < (demo_photo.hdr.width : Int) →
      fill_horiz_buffer 10 64 ⟨demo_photo, []⟩ 20 2 (List.replicate 10 0) = none)) ∧
    fill_horiz_buffer 10 64 ⟨demo_photo, []⟩ 20 2 (List.replicate 10 0) = some (List.replicate 10 0) :=
  ⟨C11_fill_horiz_buffer_clips_columns_only 10 64 demo_photo 20 2 (List.replicate 10 0)
    (by decide) (by decide) (by decide), by decide⟩

/-- C12 (counterexample): the single object of `far_room` covers map coordinate
`(2147483645, 0)`, output position 5 of the line anchored at `(2147483640, 0)`,
with the pixel 7, which is not the transparent value 64; the culling test
overflows, the object is skipped and `output[5]` is the background value 0. -/
theorem C12_counterexample :
    covers ⟨2147483645, 0, demo_image⟩ ((2147483640 : Int) + ((5 : Nat) : Int)) 0 ∧
    object_pixel ⟨2147483645, 0, demo_image⟩ ((2147483640 : Int) + ((5 : Nat) : Int)) 0 = 7 ∧
    ∃ out, fill_horiz_buffer 10 64 ⟨demo_photo, [⟨2147483645, 0, demo_image⟩]⟩ 2147483640 0
        (List.replicate 10 0) = some out ∧ out[5]? = some 0 := by
  refine ⟨by decide, by decide, [0, 0, 0, 0, 0, 0, 0, 0, 0, 0], by decide, by decide⟩

/-- C12 (amended): with a single object whose image covers map coordinate
`(x+i, y)`, provided the sums of the culling test stay in the range of `int`:
whenever the call completes, `output[i]` is the background value written for
position `i` (the output of the same call without the object) when the
object's pixel there equals `OBJ_CLR_TRANSP`, and the object's pixel otherwise,
whatever the background is; and the call completes whenever the call without
the object does and the object's pixel block has its declared size. -/
theorem C12_transparency (SCROLL_X_DIM OBJ_CLR_TRANSP : Nat) (view : photo_t) (obj : object_t)
    (x y : Int) (buf : List Nat) (i : Nat) (hbuf : buf.length = SCROLL_X_DIM)
    (hi : i < SCROLL_X_DIM) (hr : horiz_in_range SCROLL_X_DIM x y [obj])
    (hcov : covers obj (x + (i : Int)) y) :
    (∀ bg out, fill_horiz_buffer SCROLL_X_DIM OBJ_CLR_TRANSP ⟨view, []⟩ x y buf = some bg →
      fill_horiz_buffer SCROLL_X_DIM OBJ_CLR_TRANSP ⟨view, [obj]⟩ x y buf = some out →
      out[i]? = if object_pixel obj (x + (i : Int)) y = OBJ_CLR_TRANSP then bg[i]?
        else some (object_pixel obj (x + (i : Int)) y)) ∧
    (∀ bg, fill_horiz_buffer SCROLL_X_DIM OBJ_CLR_TRANSP ⟨view, []⟩ x y buf = some bg →
      obj.image.img.length = obj.image.hdr.width * obj.image.hdr.height →
      ∃ out, fill_horiz_buffer SCROLL_X_DIM OBJ_CLR_TRANSP ⟨view, [obj]⟩ x y buf = some out) := by
  constructor
  · intro bg out hbg hout
    obtain ⟨hl, _, h3⟩ := fill_horiz_buffer_overlay SCROLL_X_DIM OBJ_CLR_TRANSP view [obj] x y
      buf bg out hbuf hr hbg hout
    rw [h3 i hi]
    have hbi : bg[i]? = some bg[i] := List.getElem?_eq_getElem (by omega)
    rw [hbi]
    simp only [Option.map_some', List.foldl_cons, List.foldl_nil, naive_overlay]
    by_cases hp : object_pixel obj (x + (i : Int)) y = OBJ_CLR_TRANSP
    · rw [if_pos hp, if_neg (fun h => h.2 hp)]
    · rw [if_neg hp, if_pos ⟨hcov, hp⟩]
  · intro bg hbg hobj
    exact fill_horiz_buffer_completes SCROLL_X_DIM OBJ_CLR_TRANSP view [obj] x y buf bg hbuf hr
      (fun o ho => by rw [List.mem_singleton.mp ho]; exact hobj) hbg

/-- Witness of C12 on a row outside the photo: `demo_photo` with one object at
`(32, -1)`, anchor `(30, -1)`; both calls complete, and at position 3 the
object's pixel is the transparent value 64, at position 2 it is 7. -/
theorem C12_witness :
    fill_horiz_buffer 10 64 ⟨demo_photo, []⟩ 30 (-1) (List.replicate 10 0) =
      some [0, 0, 0, 0, 0, 0, 0, 0, 0, 0] ∧
    fill_horiz_buffer 10 64 ⟨demo_photo, [⟨32, -1, demo_image⟩]⟩ 30 (-1) (List.replicate 10 0) =
      some [0, 0, 7, 0, 9, 0, 0, 0, 0, 0] ∧
    object_pixel ⟨32, -1, demo_image⟩ ((30 : Int) + ((3 : Nat) : Int)) (-1) = 64 ∧
    (∀ bg out, fill_horiz_buffer 10 64 ⟨demo_photo, []⟩ 30 (-1) (List.replicate 10 0) = some bg →
      fill_horiz_buffer 10 64 ⟨demo_photo, [⟨32, -1, demo_image⟩]⟩ 30 (-1)
        (List.replicate 10 0) = some out →
      out[3]? = if object_pixel ⟨32, -1, demo_image⟩ ((30 : Int) + ((3 : Nat) : Int)) (-1) = 64
        then bg[3]?
        else some (object_pixel ⟨32, -1, demo_image⟩ ((30 : Int) + ((3 : Nat) : Int)) (-1))) ∧
    (∀ bg, fill_horiz_buffer 10 64 ⟨demo_photo, []⟩ 30 (-1) (List.replicate 10 0) = some bg →
      (⟨32, -1, demo_image⟩ : object_t).image.img.length =
        (⟨32, -1, demo_image⟩ : object_t).image.hdr.width *
          (⟨32, -1, demo_image⟩ : object_t).image.hdr.height →
      ∃ out, fill_horiz_buffer 10 64 ⟨demo_photo, [⟨32, -1, demo_image⟩]⟩ 30 (-1)
        (List.replicate 10 0) = some out) :=
  ⟨by decide, by decide, by decide,
    C12_transparency 10 64 demo_photo ⟨32, -1, demo_image⟩ 30 (-1) (List.replicate 10 0) 3
      (by decide) (by decide) (by decide) (by decide)⟩

/-- C13 (counterexample): both objects of `far_overlap_room` paint map coordinate
`(2147483645, 0)`, output position 5 of the line anchored at `(2147483640, 0)`;
the later one has the pixel 9 there. The culling test overflows for both, they
are skipped and `output[5]` is the background value 0. -/
theorem C13_counterexample :
    paints 64 ⟨2147483645, 0, demo_image⟩ ((2147483640 : Int) + ((5 : Nat) : Int)) 0 ∧
    paints 64 ⟨2147483643, 0, demo_image⟩ ((2147483640 : Int) + ((5 : Nat) : Int)) 0 ∧
    object_pixel ⟨2147483643, 0, demo_image⟩ ((2147483640 : Int) + ((5 : Nat) : Int)) 0 = 9 ∧
    ∃ out, fill_horiz_buffer 10 64 far_overlap_room 2147483640 0 (List.replicate 10 0) = some out ∧
      out[5]? = some 0 := by
  refine ⟨by decide, by decide, by decide, [0, 0, 0, 0, 0, 0, 0, 0, 0, 0], by decide, by decide⟩

/-- C13 (amended): for every object list and output position `i`, provided the
sums of the culling test stay in the range of `int`: when `obj` is the last
object of the room's list that paints map coordinate `(x+i, y)` (covers it with a
pixel different from `OBJ_CLR_TRANSP`), then whenever the call completes
`output[i]` is the pixel of `obj`, and the call completes whenever the call
without objects does and the objects' pixel blocks have their declared sizes;
with two sprites that both paint the position (`before = [first]`,
`after = []`) the later one determines the result. -/
theorem C13_last_painting_object_wins (SCROLL_X_DIM OBJ_CLR_TRANSP : Nat) (room : room_t)
    (x y : Int) (buf : List Nat) (i : Nat) (before after : List object_t) (obj : object_t)
    (hbuf : buf.length = SCROLL_X_DIM) (hi : i < SCROLL_X_DIM)
    (hr : horiz_in_range SCROLL_X_DIM x y room.contents)
    (hlist : room.contents = before ++ obj :: after)
    (hp : paints OBJ_CLR_TRANSP obj (x + (i : Int)) y)
    (hafter : ∀ o ∈ after, ¬ paints OBJ_CLR_TRANSP o (x + (i : Int)) y) :
    (∀ out, fill_horiz_buffer SCROLL_X_DIM OBJ_CLR_TRANSP room x y buf = some out →
      out[i]? = some (object_pixel obj (x + (i : Int)) y)) ∧
    (∀ bg, fill_horiz_buffer SCROLL_X_DIM OBJ_CLR_TRANSP ⟨room.photo, []⟩ x y buf = some bg →
      (∀ o ∈ room.contents, o.image.img.length = o.image.hdr.width * o.image.hdr.height) →
      ∃ out, fill_horiz_buffer SCROLL_X_DIM OBJ_CLR_TRANSP room x y buf = some out) := by
  constructor
  · intro out hout
    obtain ⟨bg, hbg⟩ := fill_horiz_buffer_background SCROLL_X_DIM OBJ_CLR_TRANSP room.photo
      room.contents x y buf out hout
    obtain ⟨hl, _, h3⟩ := fill_horiz_buffer_overlay SCROLL_X_DIM OBJ_CLR_TRANSP room.photo
      room.contents x y buf bg out hbuf hr hbg hout
    rw [h3 i hi]
    have hbi : bg[i]? = some bg[i] := List.getElem?_eq_getElem (by omega)
    rw [hbi, Option.map_some', hlist,
      foldl_overlay_last OBJ_CLR_TRANSP _ y before after obj _ hp hafter]
  · intro bg hbg hwf
    exact fill_horiz_buffer_completes SCROLL_X_DIM OBJ_CLR_TRANSP room.photo room.contents x y
      buf bg hbuf hr hwf hbg

/-- Witness of C13: the two overlapping sprites of `overlap_room` both paint map
coordinate `(4, 0)` (no pixel equals the transparent value 0 chosen here); the
call completes and the later sprite determines `output[4]`. -/
theorem C13_witness :
    (∃ out, fill_horiz_buffer 10 0 overlap_room 0 0 (List.replicate 10 0) = some out ∧
      out[4]? = some 7) ∧
    object_pixel ⟨4, 0, demo_image⟩ ((0 : Int) + ((4 : Nat) : Int)) 0 = 7 ∧
    object_pixel ⟨3, 0, demo_image⟩ ((0 : Int) + ((4 : Nat) : Int)) 0 = 64 ∧
    (∀ out, fill_horiz_buffer 10 0 overlap_room 0 0 (List.replicate 10 0) = some out →
      out[4]? = some (object_pixel ⟨4, 0, demo_image⟩ ((0 : Int) + ((4 : Nat) : Int)) 0)) ∧
    (∀ bg, fill_horiz_buffer 10 0 ⟨overlap_room.photo, []⟩ 0 0 (List.replicate 10 0) = some bg →
      (∀ o ∈ overlap_room.contents,
        o.image.img.length = o.image.hdr.width * o.image.hdr.height) →
      ∃ out, fill_horiz_buffer 10 0 overlap_room 0 0 (List.replicate 10 0) = some out) :=
  ⟨⟨[100, 101, 102, 7, 7, 64, 9, 107, 108, 109], by decide, by decide⟩, by decide, by decide,
    C13_last_painting_object_wins 10 0 overlap_room 0 0 (List.replicate 10 0) 4
      [⟨3, 0, demo_image⟩] [] ⟨4, 0, demo_image⟩
      (by decide) (by decide) (by decide) rfl (by decide) (by decide)⟩

/-- C14 (counterexample): on `far_column_room` (a 20 x 2 photo, one 3 x 2 object
at map row `2147483645`), anchor `(3, 2147483640)` and ten output positions, the
sum `y + SCROLL_Y_DIM` of the culling test overflows, the object is skipped and
`output[5]` is 0, while the naive composite of the column at map coordinate
`(3, 2147483645)` is the object's pixel 7. -/
theorem C14_counterexample :
    room_wf far_column_room ∧ (0 : Int) ≤ 3 ∧ (3 : Int) < (far_column_room.photo.hdr.width : Int) ∧
    int_range 2147483640 ∧
    fill_vert_buffer 10 64 far_column_room 3 2147483640 (List.replicate 10 0) =
      some [0, 0, 0, 0, 0, 0, 0, 0, 0, 0] ∧
    naive_vert 64 far_column_room 3 2147483640 5 = 7 := by
  refine ⟨by unfold room_wf; decide, by decide, by decide, by decide, by decide, by decide⟩

/-- C14 (amended): for every prepared room whose pixel blocks have their declared
sizes, every anchor `(x, y)` with `0 <= x < photo width` and every output
position `i` in `[0, SCROLL_Y_DIM)`, provided the sums `y + SCROLL_Y_DIM`,
`obj_x + width` and `obj_y + height` of the culling test stay in the range of
`int`, `fill_vert_buffer` completes and `output[i]` is the naive per-pixel
composite of the column: the clipped background value at `(x, y+i)`, then, in
object-list order, each object covering `(x, y+i)` with a pixel different from
`OBJ_CLR_TRANSP` replaces the value. -/
theorem C14_fill_vert_buffer_refines_naive (SCROLL_Y_DIM OBJ_CLR_TRANSP : Nat) (room : room_t)
    (x y : Int) (buf : List Nat) (hbuf : buf.length = SCROLL_Y_DIM) (hwf : room_wf room)
    (hx0 : 0 ≤ x) (hx1 : x < (room.photo.hdr.width : Int))
    (hr : vert_in_range SCROLL_Y_DIM x y room.contents) :
    ∃ out, fill_vert_buffer SCROLL_Y_DIM OBJ_CLR_TRANSP room x y buf = some out ∧
      out.length = SCROLL_Y_DIM ∧
      ∀ i, i < SCROLL_Y_DIM → out[i]? = some (naive_vert OBJ_CLR_TRANSP room x y i) :=
  fill_vert_buffer_refines SCROLL_Y_DIM OBJ_CLR_TRANSP room x y buf hbuf hwf hx0 hx1 hr

/-- Witness of C14 on `demo_room`, anchor `(4, -1)`, four output positions. -/
theorem C14_witness :
    ∃ out, fill_vert_buffer 4 64 demo_room 4 (-1) (List.replicate 4 0) = some out ∧
      out.length = 4 ∧ ∀ i, i < 4 → out[i]? = some (naive_vert 64 demo_room 4 (-1) i) :=
  C14_fill_vert_buffer_refines_naive 4 64 demo_room 4 (-1) (List.replicate 4 0)
    (by decide) (by unfold room_wf; decide) (by decide) (by decide) (by decide)

/-- C15 (counterexample): on the 20 x 2 `demo_photo` with no objects, anchor
`(-1, 1)` and one output position, the map coordinate `(-1, 1)` is outside the
photo, yet `fill_vert_buffer` outputs 119, the pixel at `(19, 0)`, not 0. -/
theorem C15_counterexample :
    fill_vert_buffer 1 64 empty_room (-1) 1 [0] = some [119] ∧
    demo_photo.img[19]? = some 119 ∧
    fill_vert_buffer 1 64 empty_room (-1) 1 [0] ≠ some [0] := by
  refine ⟨by decide, by decide, by decide⟩

/-- C15 (amended): with no objects in the current room and `0 <= x < photo
width`, `fill_vert_buffer` fills the column with the photo's pixel at `(x, y+i)`
when `0 <= y+i < height` and with 0 otherwise. -/
theorem C15_fill_vert_buffer_clips_rows (SCROLL_Y_DIM OBJ_CLR_TRANSP : Nat) (view : photo_t)
    (x y : Int) (buf : List Nat) (hbuf : buf.length = SCROLL_Y_DIM)
    (hwf : view.img.length = view.hdr.width * view.hdr.height)
    (hx0 : 0 ≤ x) (hx1 : x < (view.hdr.width : Int)) :
    ∃ out, fill_vert_buffer SCROLL_Y_DIM OBJ_CLR_TRANSP ⟨view, []⟩ x y buf = some out ∧
      out.length = SCROLL_Y_DIM ∧
      ∀ i, i < SCROLL_Y_DIM → out[i]? = some
        (if 0 ≤ y + (i : Int) ∧ y + (i : Int) < (view.hdr.height : Int) then
          view.img.getD ((view.hdr.width : Int) * (y + (i : Int)) + x).toNat 0
         else 0) := by
  obtain ⟨out, h1, h2, h3⟩ := fill_vert_buffer_refines_empty SCROLL_Y_DIM OBJ_CLR_TRANSP
    view x y buf hbuf hwf hx0 hx1
  refine ⟨out, h1, h2, ?_⟩
  intro i hi
  rw [h3 i hi]
  rfl

/-- Witness of C15 (amended): `demo_photo`, anchor `(3, -1)`, four output positions. -/
theorem C15_witness :
    (∃ out, fill_vert_buffer 4 64 ⟨demo_photo, []⟩ 3 (-1) (List.replicate 4 0) = some out ∧
      out.length = 4 ∧
      ∀ i : Nat, i < 4 → out[i]? = some
        (if 0 ≤ (-1 : Int) + (i : Int) ∧ (-1 : Int) + (i : Int) < (demo_photo.hdr.height : Int) then
          demo_photo.img.getD ((demo_photo.hdr.width : Int) * ((-1 : Int) + (i : Int)) + 3).toNat 0
         else 0)) ∧
    fill_vert_buffer 4 64 ⟨demo_photo, []⟩ 3 (-1) (List.replicate 4 0) = some [0, 103, 123, 0] :=
  ⟨C15_fill_vert_buffer_clips_rows 4 64 demo_photo 3 (-1) (List.replicate 4 0)
    (by decide) (by decide) (by decide) (by decide), by decide⟩

/-- C16 (the code departs from the claim): `read_photo` loads the file with header
321 x 1 and the samples of `sample_image`, and the byte stored for pixel `(5, 0)`
is `determinePaletteValue` of the file's sample 3 (value 64), not of its sample 5
(value 65): after `rewind` the second pass starts at the header, whose two
16-bit items it takes for the first two samples. -/
theorem C16_second_pass_reads_header :
    ∃ p, read_photo sort_desc sample_photo_file = some p ∧
      p.img[5]? = (sample_photo_file.data[3]?).bind
        (fun pixel => determinePaletteValue pixel p.palette) ∧
      p.img[5]? = some 64 ∧
      (sample_photo_file.data[5]?).bind
        (fun pixel => determinePaletteValue pixel p.palette) = some 65 := by
  have htake : sample_photo_file.data.take (321 * 1) = sample_image := by decide!
  have hq := sort_desc_post sample_image sample_image_length
  obtain ⟨pal, hb⟩ := sample_image_completes sort_desc hq
  obtain ⟨p, hp⟩ := read_photo_some sort_desc sample_photo_file ⟨321, 1⟩ pal rfl (by decide)
    (by decide) (by decide!) (by rw [htake]; exact hq.1) (by rw [htake]; exact hb)
  obtain ⟨hdr, hh, _, _, _, _, hpal, _, himg⟩ := read_photo_inv sort_desc sample_photo_file p hp
  have hhdr : hdr = ⟨321, 1⟩ := by
    have : sample_photo_file.hdr = some ⟨321, 1⟩ := rfl
    rw [this] at hh
    simp only [Option.some.injEq] at hh
    exact hh.symm
  subst hhdr
  rw [htake] at hpal
  have h5 := himg 0 5 (by decide) (by decide)
  have e5 : (321 * 0 + 5 : Nat) = 5 := by decide
  have e6 : (321 * (1 - 1 - 0) + 5 : Nat) = 5 := by decide
  simp only [e5, e6] at h5
  have hs5 : (sample_photo_file.header ++ sample_photo_file.data)[5]? = some 4096 := by decide!
  have hd3 : sample_photo_file.data[3]? = some 4096 := by decide!
  have hd5 : sample_photo_file.data[5]? = some 8 := by decide!
  have hv : ∀ s, determinePaletteValue s p.palette = some (64 + index2 s) :=
    fun s => determinePaletteValue_finished sort_desc sample_image p.palette hq.1 hpal s
  refine ⟨p, hp, ?_, ?_, ?_⟩
  · rw [h5, hs5, hd3]
  · rw [h5, hs5]
    simp only [Option.some_bind]
    rw [hv]
    decide
  · rw [hd5]
    simp only [Option.some_bind]
    rw [hv]
    decide

/-- C17: `read_obj_image` reverses the row order and nothing else: in an image it
returns, the header is the file's and pixel `(x, y)` holds the pixel byte number
`width*(height-1-y) + x` after the header, unchanged. -/
theorem C17_read_obj_image_reverses_rows (file : image_file) (img : image_t) (x y : Nat)
    (h : read_obj_image file = some img) (hx : x < img.hdr.width) (hy : y < img.hdr.height) :
    file.hdr = some img.hdr ∧ img.img.length = img.hdr.width * img.hdr.height ∧
    ∃ v, file.data[img.hdr.width * (img.hdr.height - 1 - y) + x]? = some v ∧
      img.img[img.hdr.width * y + x]? = some v := by
  obtain ⟨hdr, h1, _, _, h4, h5, h6, h7⟩ := read_obj_image_inv file img h
  subst h5
  refine ⟨h1, h6, ?_⟩
  have hlt : img.hdr.width * y + x < img.img.length := by
    rw [h6]
    have : img.hdr.width * y + img.hdr.width ≤ img.hdr.width * img.hdr.height := by
      rw [← Nat.mul_succ]
      exact Nat.mul_le_mul_left _ hy
    omega
  refine ⟨img.img[img.hdr.width * y + x], ?_, List.getElem?_eq_getElem hlt⟩
  rw [← h7 y x hy hx, List.getElem?_eq_getElem hlt]

/-- Witness of C17: the 3 x 2 `demo_image_file`, pixel `(1, 0)`; the file's rows
`[1,2,3]`, `[4,5,6]` become the image `[4,5,6,1,2,3]`. -/
theorem C17_witness :
    (demo_image_file.hdr = some (⟨⟨3, 2⟩, [4, 5, 6, 1, 2, 3]⟩ : image_t).hdr ∧
      (⟨⟨3, 2⟩, [4, 5, 6, 1, 2, 3]⟩ : image_t).img.length = 3 * 2 ∧
      ∃ v, demo_image_file.data[3 * (2 - 1 - 0) + 1]? = some v ∧
        (⟨⟨3, 2⟩, [4, 5, 6, 1, 2, 3]⟩ : image_t).img[3 * 0 + 1]? = some v) ∧
    read_obj_image demo_image_file = some ⟨⟨3, 2⟩, [4, 5, 6, 1, 2, 3]⟩ :=
  ⟨C17_read_obj_image_reverses_rows demo_image_file ⟨⟨3, 2⟩, [4, 5, 6, 1, 2, 3]⟩ 1 0
    (by decide) (by decide) (by decide), by decide⟩

/-- C18: the file being open and the allocations succeeding, `read_obj_image`
returns an image exactly when the header is readable, its width is at most 160,
its height at most 100 and at least `width*height` pixel bytes follow. A header
with width over 160 or height over 100 is rejected whatever pixel bytes follow
(none is needed), 160 x 100 is accepted, and a short read yields `NULL`. -/
theorem C18_read_obj_image_accepts_iff (file : image_file) :
    ((∃ img, read_obj_image file = some img) ↔
      ∃ hdr, file.hdr = some hdr ∧ hdr.width ≤ 160 ∧ hdr.height ≤ 100 ∧
        hdr.width * hdr.height ≤ file.data.length) ∧
    (∀ (hdr : photo_header_t) (data : List Nat), 160 < hdr.width ∨ 100 < hdr.height →
      read_obj_image ⟨some hdr, data⟩ = none) ∧
    (∀ data : List Nat, 160 * 100 ≤ data.length →
      ∃ img, read_obj_image ⟨some ⟨160, 100⟩, data⟩ = some img) ∧
    (∀ hdr, file.hdr = some hdr → file.data.length < hdr.width * hdr.height →
      read_obj_image file = none) := by
  have key : (∃ img, read_obj_image file = some img) ↔
      ∃ hdr, file.hdr = some hdr ∧ hdr.width ≤ 160 ∧ hdr.height ≤ 100 ∧
        hdr.width * hdr.height ≤ file.data.length := by
    constructor
    · rintro ⟨img, h⟩
      obtain ⟨hdr, h1, h2, h3, h4, _⟩ := read_obj_image_inv file img h
      exact ⟨hdr, h1, h2, h3, h4⟩
    · rintro ⟨hdr, h1, h2, h3, h4⟩
      exact read_obj_image_some file hdr h1 h2 h3 h4
  refine ⟨key, ?_, ?_, ?_⟩
  · intro hdr data hbig
    unfold read_obj_image
    simp only []
    rw [if_pos (by unfold MAX_OBJECT_WIDTH MAX_OBJECT_HEIGHT; exact hbig)]
  · intro data hd
    exact read_obj_image_some ⟨some ⟨160, 100⟩, data⟩ ⟨160, 100⟩ rfl (by decide) (by decide) hd
  · intro hdr hh hshort
    cases hr : read_obj_image file with
    | none => rfl
    | some img =>
      obtain ⟨hdr2, h1, _, _, h4, _⟩ := read_obj_image_inv file img hr
      rw [hh] at h1
      simp only [Option.some.injEq] at h1
      subst h1
      omega

/-- Witness of C18 on `demo_image_file`, which is accepted, with three rejected files. -/
theorem C18_witness :
    (((∃ img, read_obj_image demo_image_file = some img) ↔
      ∃ hdr, demo_image_file.hdr = some hdr ∧ hdr.width ≤ 160 ∧ hdr.height ≤ 100 ∧
        hdr.width * hdr.height ≤ demo_image_file.data.length) ∧
    (∀ (hdr : photo_header_t) (data : List Nat), 160 < hdr.width ∨ 100 < hdr.height →
      read_obj_image ⟨some hdr, data⟩ = none) ∧
    (∀ data : List Nat, 160 * 100 ≤ data.length →
      ∃ img, read_obj_image ⟨some ⟨160, 100⟩, data⟩ = some img) ∧
    (∀ hdr, demo_image_file.hdr = some hdr →
      demo_image_file.data.length < hdr.width * hdr.height →
      read_obj_image demo_image_file = none)) ∧
    read_obj_image ⟨some ⟨161, 1⟩, [1, 2, 3]⟩ = none ∧
    read_obj_image ⟨some ⟨3, 2⟩, [1, 2, 3, 4, 5]⟩ = none ∧
    read_obj_image ⟨none, [1, 2, 3]⟩ = none :=
  ⟨C18_read_obj_image_accepts_iff demo_image_file, by decide, by decide, by decide⟩

/-- C19 (counterexample): `sort_desc` and `sort_desc_alt` both meet the contract of
`qsort` with `cmpfunc` on the table of `sample_image` (they differ in the order of
two buckets with two samples each), the palette construction completes with
both, and the two palettes differ. -/
theorem C19_counterexample :
    qsort_post cmpfunc (accumulate sample_image).1 (sort_desc (accumulate sample_image).1) ∧
    qsort_post cmpfunc (accumulate sample_image).1 (sort_desc_alt (accumulate sample_image).1) ∧
    ∃ pal1 pal2, build_palette sort_desc sample_image = some pal1 ∧
      build_palette sort_desc_alt sample_image = some pal2 ∧ pal1 ≠ pal2 :=
  ⟨sort_desc_post sample_image sample_image_length, sample_alt_post, sample_palettes_differ⟩

/-- C19 (amended): for a stream of at most 1024 x 1024 samples in which every
level 4 bucket that shares its count with another bucket has at least 128
buckets with a larger count (no tie in count reaches the first 128 positions of
the sorted table), any two sorts that meet the contract of `qsort` with
`cmpfunc` leave the same first 128 nodes, and the palette construction gives the
same result with both, whichever order they leave equal-count buckets in. -/
theorem C19_deterministic_without_ties_in_first_128 (qsort1 qsort2 : List Node → List Node)
    (P : List Nat) (hlen : P.length ≤ 1024 * 1024)
    (hq1 : qsort_post cmpfunc (accumulate P).1 (qsort1 (accumulate P).1))
    (hq2 : qsort_post cmpfunc (accumulate P).1 (qsort2 (accumulate P).1))
    (hd : ∀ i j, i < 4096 → j < 4096 → i ≠ j → bucket_count P i = bucket_count P j →
      128 ≤ larger_count P i) :
    (qsort1 (accumulate P).1).take 128 = (qsort2 (accumulate P).1).take 128 ∧
    build_palette qsort1 P = build_palette qsort2 P := by
  have he := sorted_first_128_unique P _ _ hlen hq1 hq2 hd
  exact ⟨he, build_palette_take qsort1 qsort2 P he⟩

/-- Witness of C19 (amended): on `ranked_image` (128 buckets with the distinct
counts 2 to 129, 64 buckets with one sample each, the rest empty) buckets tie in
count, `sort_desc_red` and `sort_desc_rev` leave different sorted tables that
agree on the first 128 nodes, and the palette construction completes with the
same palette for both. -/
theorem C19_witness :
    (index4 (sample_lone 0) ≠ index4 (sample_lone 1) ∧
      bucket_count ranked_image (index4 (sample_lone 0)) = 1 ∧
      bucket_count ranked_image (index4 (sample_lone 1)) = 1) ∧
    sort_desc_red (accumulate ranked_image).1 ≠ sort_desc_rev (accumulate ranked_image).1 ∧
    (∃ pal, build_palette sort_desc_red ranked_image = some pal ∧
      build_palette sort_desc_rev ranked_image = some pal) ∧
    (sort_desc_red (accumulate ranked_image).1).take 128 =
      (sort_desc_rev (accumulate ranked_image).1).take 128 ∧
    build_palette sort_desc_red ranked_image = build_palette sort_desc_rev ranked_image :=
  ⟨ranked_image_has_tie, ranked_sorts_differ, ranked_image_palettes_agree,
    C19_deterministic_without_ties_in_first_128 sort_desc_red sort_desc_rev ranked_image
      ranked_image_length (sort_desc_red_post ranked_image ranked_image_length)
      (sort_desc_rev_post ranked_image ranked_image_length) ranked_image_ties⟩

/-- C20: for an object that passes the culling test of `fill_horiz_buffer`, the
copy loop is the run of its body over the iterations `(idx, imgx)` listed by
`horiz_copy_iterations`, and at every iteration `0 <= idx < SCROLL_X_DIM`,
`0 <= imgx < width`, `0 <= yoff + imgx < width*height` and
`idx - imgx = obj_x - x`; so the write to a buffer of `SCROLL_X_DIM` bytes and the
read of an image block of `width*height` bytes are in bounds. -/
theorem C20_copy_loop_indices_in_bounds (SCROLL_X_DIM OBJ_CLR_TRANSP : Nat) (x y : Int)
    (obj : object_t)
    (hy0 : obj.obj_y ≤ y) (hy1 : y < obj.obj_y + (obj.image.hdr.height : Int))
    (hx0 : obj.obj_x < x + (SCROLL_X_DIM : Int)) (_hx1 : x < obj.obj_x + (obj.image.hdr.width : Int)) :
    (∀ buf, horiz_copy_loop SCROLL_X_DIM OBJ_CLR_TRANSP obj.image
        ((y - obj.obj_y) * (obj.image.hdr.width : Int)) (SCROLL_X_DIM + 1)
        (if x ≤ obj.obj_x then obj.obj_x - x else 0) (if x ≤ obj.obj_x then 0 else x - obj.obj_x) buf =
      run_iterations
        (horiz_copy_body OBJ_CLR_TRANSP obj.image ((y - obj.obj_y) * (obj.image.hdr.width : Int)))
        (horiz_copy_iterations SCROLL_X_DIM obj.image.hdr.width (SCROLL_X_DIM + 1)
          (if x ≤ obj.obj_x then obj.obj_x - x else 0) (if x ≤ obj.obj_x then 0 else x - obj.obj_x))
        buf) ∧
    ∀ it ∈ horiz_copy_iterations SCROLL_X_DIM obj.image.hdr.width (SCROLL_X_DIM + 1)
        (if x ≤ obj.obj_x then obj.obj_x - x else 0) (if x ≤ obj.obj_x then 0 else x - obj.obj_x),
      (0 ≤ it.1 ∧ it.1 < (SCROLL_X_DIM : Int)) ∧
      (0 ≤ it.2 ∧ it.2 < (obj.image.hdr.width : Int)) ∧
      (0 ≤ (y - obj.obj_y) * (obj.image.hdr.width : Int) + it.2 ∧
        (y - obj.obj_y) * (obj.image.hdr.width : Int) + it.2 <
          ((obj.image.hdr.width * obj.image.hdr.height : Nat) : Int)) ∧
      it.1 - it.2 = obj.obj_x - x ∧
      (∀ (buf : List Nat) (v : Nat), buf.length = SCROLL_X_DIM → writeAt buf it.1 v ≠ none) ∧
      (obj.image.img.length = obj.image.hdr.width * obj.image.hdr.height →
        readAt obj.image.img ((y - obj.obj_y) * (obj.image.hdr.width : Int) + it.2) ≠ none) := by
  have hidx0 : 0 ≤ (if x ≤ obj.obj_x then obj.obj_x - x else 0) := by split <;> omega
  have himgx0 : 0 ≤ (if x ≤ obj.obj_x then 0 else x - obj.obj_x) := by split <;> omega
  have hidxW : (if x ≤ obj.obj_x then obj.obj_x - x else 0) ≤ (SCROLL_X_DIM : Int) := by
    split <;> omega
  have hdiff : (if x ≤ obj.obj_x then obj.obj_x - x else 0) -
      (if x ≤ obj.obj_x then 0 else x - obj.obj_x) = obj.obj_x - x := by
    split <;> omega
  refine ⟨fun buf => horiz_copy_loop_eq_run SCROLL_X_DIM OBJ_CLR_TRANSP obj.image _
    (SCROLL_X_DIM + 1) _ _ buf hidxW (by push_cast; omega), ?_⟩
  intro it hit
  obtain ⟨b1, b2, b3, b4, b5⟩ := horiz_copy_iterations_bounds _ _ _ _ _ it hit
  have hoff := copy_offsets_bounds obj.image.hdr.width obj.image.hdr.height (y - obj.obj_y) it.2
    (by omega) (by omega) (by omega) b4
  refine ⟨⟨by omega, b2⟩, ⟨by omega, b4⟩, hoff, by omega, ?_, ?_⟩
  · intro buf v hlen
    exact writeAt_ne_none buf it.1 v (by omega) (by omega)
  · intro hwf
    exact readAt_ne_none _ _ hoff.1 (by rw [hwf]; exact hoff.2)

/-- Witness of C20: the object of `demo_room` at `(-1, 0)`, cut by the left edge
of the line anchored at `(0, 0)`, with ten output positions. -/
theorem C20_witness :
    ((∀ buf, horiz_copy_loop 10 64 demo_image
        (((0 : Int) - 0) * (demo_image.hdr.width : Int)) (10 + 1)
        (if (0 : Int) ≤ -1 then -1 - 0 else 0) (if (0 : Int) ≤ -1 then 0 else 0 - (-1)) buf =
      run_iterations
        (horiz_copy_body 64 demo_image (((0 : Int) - 0) * (demo_image.hdr.width : Int)))
        (horiz_copy_iterations 10 demo_image.hdr.width (10 + 1)
          (if (0 : Int) ≤ -1 then -1 - 0 else 0) (if (0 : Int) ≤ -1 then 0 else 0 - (-1)))
        buf) ∧
    ∀ it ∈ horiz_copy_iterations 10 demo_image.hdr.width (10 + 1)
        (if (0 : Int) ≤ -1 then -1 - 0 else 0) (if (0 : Int) ≤ -1 then 0 else 0 - (-1)),
      (0 ≤ it.1 ∧ it.1 < ((10 : Nat) : Int)) ∧
      (0 ≤ it.2 ∧ it.2 < (demo_image.hdr.width : Int)) ∧
      (0 ≤ ((0 : Int) - 0) * (demo_image.hdr.width : Int) + it.2 ∧
        ((0 : Int) - 0) * (demo_image.hdr.width : Int) + it.2 <
          ((demo_image.hdr.width * demo_image.hdr.height : Nat) : Int)) ∧
      it.1 - it.2 = -1 - 0 ∧
      (∀ (buf : List Nat) (v : Nat), buf.length = 10 → writeAt buf it.1 v ≠ none) ∧
      (demo_image.img.length = demo_image.hdr.width * demo_image.hdr.height →
        readAt demo_image.img (((0 : Int) - 0) * (demo_image.hdr.width : Int) + it.2) ≠ none)) ∧
    horiz_copy_iterations 10 demo_image.hdr.width (10 + 1) 0 1 = [(0, 1), (1, 2)] :=
  ⟨C20_copy_loop_indices_in_bounds 10 64 0 0 ⟨-1, 0, demo_image⟩
    (by decide) (by decide) (by decide) (by decide), by decide⟩

/-- C21 (counterexample): on the 192-entry palette whose entries are all
`(0, 1, 0)` and the 16-bit sample `0x0000`, every entry matches the red channel
of the sample and none matches its green channel, so the loop of
`determinePaletteValue` runs through all 192 entries and ends without
executing a `return`: no value is returned. -/
theorem C21_counterexample :
    stuck_palette.length = 3 * 192 ∧ (0 : Nat) < 65536 ∧
    (∀ j, j < 192 → stuck_palette[j * 3]? = some (red 0) ∧
      stuck_palette[j * 3 + 1]? ≠ some (green 0)) ∧
    determinePaletteValue 0 stuck_palette = none := by
  have hall : ∀ j, j < 192 → stuck_palette[j * 3]? = some (red 0) ∧
      stuck_palette[j * 3 + 1]? ≠ some (green 0) := by
    intro j hj
    rw [stuck_palette_get _ (by omega), stuck_palette_get _ (by omega),
      if_neg (by omega), if_pos (by omega)]
    exact ⟨rfl, by decide⟩
  refine ⟨stuck_palette_length, by decide, hall, ?_⟩
  rw [determinePaletteValue_none_iff 0 stuck_palette stuck_palette_length]
  intro j hj
  exact ⟨(hall j hj).1, fun h => (hall j hj).2 h.1⟩

/-- C21 (amended): on every palette the palette construction of `read_photo`
produces (the palettes `determinePaletteValue` is called with),
`determinePaletteValue` returns a value for every sample; on an arbitrary
192-entry palette it returns no value exactly when every one of the 192 entries
has the red value of the sample and none of them has its green and blue values
too, and returns a value in every other case. -/
theorem C21_total_on_built_palettes (qsort : List Node → List Node) (P : List Nat)
    (pal : List Nat) (pixel : Nat)
    (hperm : (qsort (accumulate P).1).Perm (accumulate P).1)
    (hb : build_palette qsort P = some pal) :
    pal.length = 3 * 192 ∧
    (∃ v, determinePaletteValue pixel pal = some v ∧ v < 256) ∧
    (∀ palette : List Nat, palette.length = 3 * 192 →
      (determinePaletteValue pixel palette = none ↔
        ∀ j, j < 192 → palette[j * 3]? = some (red pixel) ∧
          ¬ (palette[j * 3 + 1]? = some (green pixel) ∧
            palette[j * 3 + 2]? = some (blue pixel)))) := by
  obtain ⟨_, _, hl, _⟩ := finished_coarse_entries qsort P pal hperm hb
  refine ⟨hl, ⟨64 + index2 pixel, determinePaletteValue_finished qsort P pal hperm hb pixel, ?_⟩,
    fun palette hp => determinePaletteValue_none_iff pixel palette hp⟩
  have := index2_lt pixel
  omega

/-- Witness of C21 (amended): the palette built from `sample_image` with the
merge sort by descending count, and the sample `0xC618`. -/
theorem C21_witness :
    ∃ pal, build_palette sort_desc sample_image = some pal ∧
      pal.length = 3 * 192 ∧
      (∃ v, determinePaletteValue 0xC618 pal = some v ∧ v < 256) ∧
      (∀ palette : List Nat, palette.length = 3 * 192 →
        (determinePaletteValue 0xC618 palette = none ↔
          ∀ j, j < 192 → palette[j * 3]? = some (red 0xC618) ∧
            ¬ (palette[j * 3 + 1]? = some (green 0xC618) ∧
              palette[j * 3 + 2]? = some (blue 0xC618)))) := by
  have hq := sort_desc_post sample_image sample_image_length
  obtain ⟨pal, hb⟩ := sample_image_completes sort_desc hq
  exact ⟨pal, hb, C21_total_on_built_palettes sort_desc sample_image pal 0xC618 hq.1 hb⟩

/-- C22: the level 2 index computed from a sample is the formula
`(((fine >> 10) & 3) << 4) | (((fine >> 6) & 3) << 2) | ((fine >> 2) & 3)` of its
level 4 index; after accumulation every non-empty level 4 bucket `k` records as
`parent_` that value for `k`, which is the level 2 index of every sample of the
bucket (the level 2 bucket that received each of them); and the accumulated
tables, parents included, do not depend on the order of the samples. -/
theorem C22_parent_is_function_of_fine_key (P : List Nat) :
    (∀ p : Nat, index2 p = coarse_of_fine_spec (index4 p)) ∧
    (∀ (k : Nat) (nd : Node), (accumulate P).1[k]? = some nd → nd.count_ ≠ 0 →
      nd.parent_ = (coarse_of_fine_spec k : Int) ∧
      (∃ p ∈ P, index4 p = k) ∧
      (∀ p ∈ P, index4 p = k → (index2 p : Int) = nd.parent_) ∧
      (∀ p ∈ P, index4 p = k → ∀ trees : List Node × List Node,
        accumulate_pixel trees p =
          (updateAt (add_fine p) k trees.1,
           updateAt (add_coarse p) nd.parent_.toNat trees.2))) ∧
    (∀ Q : List Nat, Q.Perm P → accumulate Q = accumulate P) := by
  have hfun : ∀ p : Nat, index2 p = coarse_of_fine_spec (index4 p) := by
    intro p
    rw [coarse_of_fine_spec_eq]
    exact index2_eq_parent_of p
  refine ⟨hfun, ?_, fun Q h => accumulate_perm P Q h⟩
  intro k nd hnd hcount
  obtain ⟨hk, rfl⟩ := accumulate_fst_get P k nd hnd
  have hpar := fine_node_parent P k hcount
  rw [← coarse_of_fine_spec_eq] at hpar
  have hsame : ∀ p ∈ P, index4 p = k → (index2 p : Int) = (fine_node P k).parent_ := by
    intro p _ hp
    rw [hpar, hfun p, hp]
  refine ⟨hpar, ?_, hsame, ?_⟩
  · by_contra hne
    apply hcount
    apply total_eq_zero Chan.n _ P
    intro p hp
    cases hd : decide (index4 p = k)
    · rfl
    · exact absurd ⟨p, hp, of_decide_eq_true hd⟩ hne
  · intro p hp h4 trees
    have := hsame p hp h4
    unfold accumulate_pixel
    rw [h4, ← this]
    rfl

/-- C23: for every non-empty level 4 bucket `k` of the accumulated table the
colour `(R, G, B) = (rSum/count, gSum/count, bSum/count)` is stored without
loss as the palette bytes of the node, and `R >> 1 = (k >> 8) & 0xF`,
`G >> 2 = (k >> 4) & 0xF`, `B >> 1 = k & 0xF`: the level 4 index of the
averaged colour is `k` again. -/
theorem C23_mean_stays_in_bucket (P : List Nat) (k : Nat) (nd : Node)
    (hnd : (accumulate P).1[k]? = some nd) (hcount : nd.count_ ≠ 0) :
    ∃ R G B : Nat, (R : Int) = nd.rSum_.tdiv nd.count_ ∧ (G : Int) = nd.gSum_.tdiv nd.count_ ∧
      (B : Int) = nd.bSum_.tdiv nd.count_ ∧
      (∀ (octree2 octree4 : List Node) (j : Nat), octree4[j]? = some nd →
        palette_byte octree2 octree4 (3 * (64 + j)) = some R ∧
        palette_byte octree2 octree4 (3 * (64 + j) + 1) = some G ∧
        palette_byte octree2 octree4 (3 * (64 + j) + 2) = some B) ∧
      R >>> 1 = (k >>> 8) &&& 0xF ∧ G >>> 2 = (k >>> 4) &&& 0xF ∧ B >>> 1 = k &&& 0xF ∧
      (((R >>> 1) <<< 8) ||| ((G >>> 2) <<< 4) ||| (B >>> 1)) = k := by
  obtain ⟨hk, rfl⟩ := accumulate_fst_get P k nd hnd
  obtain ⟨e1, e2, e3, hin⟩ := bucket_means P k hk hcount
  have hpos : 0 < (fine_node P k).count_ := by
    have := (fine_count_range P k).1
    omega
  have x1 := mean_exact (fine_node P k).rSum_ _ (total_nonneg Chan.r _ P) hpos
  have x2 := mean_exact (fine_node P k).gSum_ _ (total_nonneg Chan.g _ P) hpos
  have x3 := mean_exact (fine_node P k).bSum_ _ (total_nonneg Chan.b _ P) hpos
  obtain ⟨s1, s2, s3⟩ := in_bucket_shifts _ _ _ k hk hin
  refine ⟨_, _, _, x1.1, x2.1, x3.1, ?_, s1, s2, s3, ?_⟩
  · intro octree2 octree4 j hj
    have := palette_byte_fine octree2 octree4 j _ hj hcount
    rw [e1, e2, e3] at this
    exact this
  · rw [s1, s2, s3]
    have m : ∀ x : Nat, x &&& 0xF = x % 16 := fun x => and_mask x 4
    rw [Nat.shiftRight_eq_div_pow, Nat.shiftRight_eq_div_pow, m, m, m]
    rw [or_fields (k / 2 ^ 8 % 16) (k / 2 ^ 4 % 16) (k % 16) 4 4
      (Nat.mod_lt _ (by norm_num)) (Nat.mod_lt _ (by norm_num))]
    omega

/-- C23 at the bucket `0xCCC` of `bucket_samples`: the averaged colour is
`(24, 50, 24)`, whose level 4 index is `0xCCC`. -/
theorem C23_witness :
    (accumulate bucket_samples).1[0xCCC]? = some bucket_node ∧ bucket_node.count_ ≠ 0 ∧
    ∃ R G B : Nat, (R : Int) = bucket_node.rSum_.tdiv bucket_node.count_ ∧
      (G : Int) = bucket_node.gSum_.tdiv bucket_node.count_ ∧
      (B : Int) = bucket_node.bSum_.tdiv bucket_node.count_ ∧
      (∀ (octree2 octree4 : List Node) (j : Nat), octree4[j]? = some bucket_node →
        palette_byte octree2 octree4 (3 * (64 + j)) = some R ∧
        palette_byte octree2 octree4 (3 * (64 + j) + 1) = some G ∧
        palette_byte octree2 octree4 (3 * (64 + j) + 2) = some B) ∧
      R >>> 1 = (0xCCC >>> 8) &&& 0xF ∧ G >>> 2 = (0xCCC >>> 4) &&& 0xF ∧
      B >>> 1 = 0xCCC &&& 0xF ∧
      (((R >>> 1) <<< 8) ||| ((G >>> 2) <<< 4) ||| (B >>> 1)) = 0xCCC :=
  ⟨bucket_samples_node, by decide,
    C23_mean_stays_in_bucket bucket_samples 0xCCC bucket_node bucket_samples_node (by decide)⟩

/-- C24: for a photo of at most `MAX_PHOTO_WIDTH` x `MAX_PHOTO_HEIGHT` samples and
every rearrangement of the level 4 table by the sort, the subtraction step
completes; afterwards the count and the three sums of every level 2 bucket are
non-negative (and stay below `2^26`, so no `int` overflows); and every palette
byte the averaging computes comes from a bucket with positive count, equals the
quotient `sum / count` without loss in the `uint8_t` store, and is at most 31
for red, 63 for green and 31 for blue. -/
theorem C24_nonnegative_and_channels_in_range (qsort : List Node → List Node) (P : List Nat)
    (hlen : P.length ≤ MAX_PHOTO_WIDTH * MAX_PHOTO_HEIGHT)
    (hperm : (qsort (accumulate P).1).Perm (accumulate P).1) :
    ∃ octree2, subtract_loop (qsort (accumulate P).1) 128 0 (accumulate P).2 = some octree2 ∧
      (∀ nd ∈ octree2,
        (0 ≤ nd.count_ ∧ nd.count_ ≤ 1024 * 1024) ∧ (0 ≤ nd.rSum_ ∧ nd.rSum_ ≤ 31 * (1024 * 1024)) ∧
        (0 ≤ nd.gSum_ ∧ nd.gSum_ ≤ 63 * (1024 * 1024)) ∧
        (0 ≤ nd.bSum_ ∧ nd.bSum_ ≤ 31 * (1024 * 1024))) ∧
      (∀ (i b : Nat), palette_byte octree2 (qsort (accumulate P).1) i = some b →
        ∃ nd, (if i < 3 * 64 then octree2[i / 3]? else (qsort (accumulate P).1)[i / 3 - 64]?) = some nd ∧
          0 < nd.count_ ∧
          (b : Int) = (if i % 3 = 0 then nd.rSum_ else if i % 3 = 1 then nd.gSum_ else nd.bSum_).tdiv
            nd.count_ ∧
          b ≤ (if i % 3 = 1 then 63 else 31)) := by
  have hl : P.length ≤ 1024 * 1024 := hlen
  obtain ⟨post2, sel, hs, hlen2, hrem⟩ := subtract_remaining P _ hperm
  have hcoarse : ∀ nd ∈ post2, ∃ S : Nat → Bool, ∀ ch, nd.get ch = total ch S P := by
    intro nd hmem
    obtain ⟨c, hc⟩ := List.getElem?_of_mem hmem
    have hc64 : c < 64 := by
      have := (List.getElem?_eq_some_iff.mp hc).1
      omega
    obtain ⟨nd1, g1, g2⟩ := hrem c hc64
    rw [hc] at g1
    rw [Option.some.inj g1]
    exact ⟨_, g2⟩
  have hfine : ∀ nd ∈ qsort (accumulate P).1, ∃ S : Nat → Bool, ∀ ch, nd.get ch = total ch S P := by
    intro nd hmem
    have hm := hperm.subset hmem
    obtain ⟨k, hk⟩ := List.getElem?_of_mem hm
    obtain ⟨_, e⟩ := accumulate_fst_get P k nd hk
    rw [e]
    exact ⟨_, fine_node_get P k⟩
  refine ⟨post2, hs, ?_, ?_⟩
  · intro nd hmem
    obtain ⟨S, hget⟩ := hcoarse nd hmem
    exact totals_fields_range P S nd hl hget
  · intro i b hb
    obtain ⟨nd, hlook, hcount, hval⟩ := palette_byte_value _ _ i b hb
    have hsrc : ∃ S : Nat → Bool, ∀ ch, nd.get ch = total ch S P := by
      by_cases hi : i < 3 * 64
      · rw [if_pos hi] at hlook
        exact hcoarse nd (List.getElem?_mem hlook)
      · rw [if_neg hi] at hlook
        exact hfine nd (List.getElem?_mem hlook)
    obtain ⟨S, hget⟩ := hsrc
    obtain ⟨hpos, e1, e2, e3, b1, b2, b3⟩ := totals_channel_range P S nd hget hcount
    refine ⟨nd, hlook, hpos, ?_, ?_⟩
    · rw [hval]
      by_cases h0 : i % 3 = 0
      · rw [if_pos h0]; exact e1
      · rw [if_neg h0]
        by_cases h1 : i % 3 = 1
        · rw [if_pos h1]; exact e2
        · rw [if_neg h1]; exact e3
    · rw [hval]
      by_cases h0 : i % 3 = 0
      · rw [if_pos h0, if_neg (by omega)]; exact b1
      · rw [if_neg h0]
        by_cases h1 : i % 3 = 1
        · rw [if_pos h1, if_pos h1]; exact b2
        · rw [if_neg h1, if_neg h1]; exact b3

/-- C24 on the 321-sample stream `sample_image` with the merge sort by descending
count, where the palette construction completes. -/
theorem C24_witness :
    sample_image.length ≤ MAX_PHOTO_WIDTH * MAX_PHOTO_HEIGHT ∧
    (∃ pal, build_palette sort_desc sample_image = some pal) ∧
    ∃ octree2, subtract_loop (sort_desc (accumulate sample_image).1) 128 0
        (accumulate sample_image).2 = some octree2 ∧
      (∀ nd ∈ octree2,
        (0 ≤ nd.count_ ∧ nd.count_ ≤ 1024 * 1024) ∧ (0 ≤ nd.rSum_ ∧ nd.rSum_ ≤ 31 * (1024 * 1024)) ∧
        (0 ≤ nd.gSum_ ∧ nd.gSum_ ≤ 63 * (1024 * 1024)) ∧
        (0 ≤ nd.bSum_ ∧ nd.bSum_ ≤ 31 * (1024 * 1024))) ∧
      (∀ (i b : Nat), palette_byte octree2 (sort_desc (accumulate sample_image).1) i = some b →
        ∃ nd, (if i < 3 * 64 then octree2[i / 3]?
            else (sort_desc (accumulate sample_image).1)[i / 3 - 64]?) = some nd ∧
          0 < nd.count_ ∧
          (b : Int) = (if i % 3 = 0 then nd.rSum_ else if i % 3 = 1 then nd.gSum_ else nd.bSum_).tdiv
            nd.count_ ∧
          b ≤ (if i % 3 = 1 then 63 else 31)) :=
  ⟨sample_image_length,
    sample_image_completes sort_desc (sort_desc_post sample_image sample_image_length),
    C24_nonnegative_and_channels_in_range sort_desc sample_image sample_image_length
      (sort_desc_post sample_image sample_image_length).1⟩

/-- C25: for nodes whose counts lie in `[0, 1024*1024]` the subtraction in
`cmpfunc` does not overflow, `cmpfunc a b < 0` iff `a` has the larger count,
`cmpfunc a b = 0` iff the counts are equal, `cmpfunc a b = -cmpfunc b a`, and
the order it induces is transitive (in its weak and its strict form). The
counts `read_photo` accumulates for a photo of at most `MAX_PHOTO_WIDTH` x
`MAX_PHOTO_HEIGHT` samples lie in that range. -/
theorem C25_cmpfunc_valid_comparator (a b c : Node)
    (ha : 0 ≤ a.count_ ∧ a.count_ ≤ 1024 * 1024)
    (hb : 0 ≤ b.count_ ∧ b.count_ ≤ 1024 * 1024)
    (hc : 0 ≤ c.count_ ∧ c.count_ ≤ 1024 * 1024) :
    cmpfunc a b = b.count_ - a.count_ ∧
    (cmpfunc a b < 0 ↔ a.count_ > b.count_) ∧
    (cmpfunc a b = 0 ↔ a.count_ = b.count_) ∧
    cmpfunc a b = - cmpfunc b a ∧
    wrap32 (- cmpfunc b a) = - cmpfunc b a ∧
    (cmpfunc a b ≤ 0 → cmpfunc b c ≤ 0 → cmpfunc a c ≤ 0) ∧
    (cmpfunc a b < 0 → cmpfunc b c < 0 → cmpfunc a c < 0) ∧
    (∀ P : List Nat, P.length ≤ MAX_PHOTO_WIDTH * MAX_PHOTO_HEIGHT →
      ∀ nd ∈ (accumulate P).1, 0 ≤ nd.count_ ∧ nd.count_ ≤ 1024 * 1024) := by
  have eab := cmpfunc_exact a b ha.1 ha.2 hb.1 hb.2
  have eba := cmpfunc_exact b a hb.1 hb.2 ha.1 ha.2
  have ebc := cmpfunc_exact b c hb.1 hb.2 hc.1 hc.2
  have eac := cmpfunc_exact a c ha.1 ha.2 hc.1 hc.2
  rw [eab, eba, ebc, eac]
  refine ⟨rfl, by omega, by omega, by omega, by unfold wrap32; omega, by omega, by omega, ?_⟩
  intro P hlen nd hnd
  have h := accumulate_count_range P nd hnd
  have hl : (P.length : Int) ≤ 1024 * 1024 := by
    have : MAX_PHOTO_WIDTH * MAX_PHOTO_HEIGHT = 1024 * 1024 := rfl
    omega
  omega

/-- C25 at three concrete nodes with counts 3, 2 and 0. -/
theorem C25_witness :
    cmpfunc ⟨0, 0, 0, 3, 0⟩ ⟨0, 0, 0, 2, 0⟩ = (2 : Int) - 3 ∧
    (cmpfunc ⟨0, 0, 0, 3, 0⟩ ⟨0, 0, 0, 2, 0⟩ < 0 ↔ (3 : Int) > 2) ∧
    (cmpfunc ⟨0, 0, 0, 3, 0⟩ ⟨0, 0, 0, 2, 0⟩ = 0 ↔ (3 : Int) = 2) ∧
    cmpfunc ⟨0, 0, 0, 3, 0⟩ ⟨0, 0, 0, 2, 0⟩ = - cmpfunc ⟨0, 0, 0, 2, 0⟩ ⟨0, 0, 0, 3, 0⟩ ∧
    wrap32 (- cmpfunc ⟨0, 0, 0, 2, 0⟩ ⟨0, 0, 0, 3, 0⟩) = - cmpfunc ⟨0, 0, 0, 2, 0⟩ ⟨0, 0, 0, 3, 0⟩ ∧
    (cmpfunc ⟨0, 0, 0, 3, 0⟩ ⟨0, 0, 0, 2, 0⟩ ≤ 0 → cmpfunc ⟨0, 0, 0, 2, 0⟩ ⟨0, 0, 0, 0, 0⟩ ≤ 0 →
      cmpfunc ⟨0, 0, 0, 3, 0⟩ ⟨0, 0, 0, 0, 0⟩ ≤ 0) ∧
    (cmpfunc ⟨0, 0, 0, 3, 0⟩ ⟨0, 0, 0, 2, 0⟩ < 0 → cmpfunc ⟨0, 0, 0, 2, 0⟩ ⟨0, 0, 0, 0, 0⟩ < 0 →
      cmpfunc ⟨0, 0, 0, 3, 0⟩ ⟨0, 0, 0, 0, 0⟩ < 0) ∧
    (∀ P : List Nat, P.length ≤ MAX_PHOTO_WIDTH * MAX_PHOTO_HEIGHT →
      ∀ nd ∈ (accumulate P).1, 0 ≤ nd.count_ ∧ nd.count_ ≤ 1024 * 1024) :=
  C25_cmpfunc_valid_comparator ⟨0, 0, 0, 3, 0⟩ ⟨0, 0, 0, 2, 0⟩ ⟨0, 0, 0, 0, 0⟩
    (by decide) (by decide) (by decide)

end Photo
